import Mathlib

/-!
# FlightPathOptimizer

A shallow embedding of `src/main.cpp` (classes `Flight` and `FlightGraph`) and the
properties of its graph store and of its two shortest-path queries.

Conventions of the embedding.

* `int` is modelled by `Int`; the one arithmetic operation the program performs on
  it, `minCost[u] + flightCost`, is reduced to 32 bits by `wrap32`.
* `float` is modelled by `F32`: IEEE-754 binary32 with round-to-nearest-even, the two
  zeros identified (the program only adds and compares, and neither operation
  distinguishes them).  A finite value is an integer number of units of `2^-149`;
  every finite binary32 value is such a multiple.
* Vector indices are natural numbers.  An out-of-range `operator[]` on a vector is
  undefined behaviour; `addCity`, the only place where the caller supplies an index,
  returns `none` for it, and the other operations use total accessors whose
  out-of-range branch is never taken on a store built through the interface.
* `std::map<string,int>` is an association list with unique keys; `mapSubscript` is
  `operator[]`, which inserts a zero entry for a missing key.
* Console output is not modelled.
-/

/-! ## Machine numbers -/

/-- The constant `INT_MAX` of `<climits>` for a 32-bit `int`. -/
def INT_MAX : Int := 2147483647

/-- Reduction of an integer to the 32-bit two's-complement range. -/
def wrap32 (x : Int) : Int := (x + 2147483648) % 4294967296 - 2147483648

/-- Values of the C++ type `float`; `fin m` is the number `m * 2^-149`. -/
inductive F32 where
  | nan : F32
  | ninf : F32
  | fin (m : Int) : F32
  | pinf : F32
deriving DecidableEq, Repr

namespace F32

/-- The largest finite `float`, `(2^24 - 1) * 2^104`, in units of `2^-149`. -/
def maxUnits : Nat := (2 ^ 24 - 1) * 2 ^ 253

/-- The constant `numeric_limits<float>::max()`. -/
def max : F32 := fin maxUnits

/-- The `float` zero. -/
def zero : F32 := fin 0

/-- The `float` with the integer value `n` (exact when `n` has at most 24 significant bits). -/
def ofNat (n : Nat) : F32 := fin ((n : Int) * 2 ^ 149)

/-- Number of bits that `a` has beyond 24 significant bits, found by halving (`fuel`
bounds the number of halvings; `fuel = a` suffices). -/
def excess : Nat → Nat → Nat
  | 0, _ => 0
  | fuel + 1, a => if a < 2 ^ 24 then 0 else excess fuel (a / 2) + 1

/-- Rounding of a non-negative number of units to 24 significant bits, ties to even. -/
def roundNat (a : Nat) : Nat :=
  if a < 2 ^ 24 then a
  else
    let j := excess a a
    let q := a / 2 ^ j
    let r := a % 2 ^ j
    let up : Bool := decide (2 ^ j < 2 * r) || (decide (2 * r = 2 ^ j) && decide (q % 2 = 1))
    (if up then q + 1 else q) * 2 ^ j

/-- Rounding of an exact result of `s` units to a `float`, overflow giving an infinity. -/
def round (s : Int) : F32 :=
  let r := roundNat s.natAbs
  if maxUnits < r then (if s < 0 then ninf else pinf)
  else fin (if s < 0 then -(r : Int) else (r : Int))

/-- The operator `+` on `float`. -/
def add : F32 → F32 → F32
  | nan, _ => nan
  | _, nan => nan
  | pinf, ninf => nan
  | ninf, pinf => nan
  | pinf, _ => pinf
  | _, pinf => pinf
  | ninf, _ => ninf
  | _, ninf => ninf
  | fin a, fin b => round (a + b)

/-- The operator `<` on `float`. -/
def lt : F32 → F32 → Bool
  | nan, _ => false
  | _, nan => false
  | _, ninf => false
  | ninf, _ => true
  | pinf, _ => false
  | fin _, pinf => true
  | fin a, fin b => decide (a < b)

/-- The order `<=` on `float` values (false when either side is a NaN). -/
def le : F32 → F32 → Bool
  | nan, _ => false
  | _, nan => false
  | ninf, _ => true
  | _, ninf => false
  | _, pinf => true
  | pinf, _ => false
  | fin a, fin b => decide (a ≤ b)

/-- Position of a value in the order of `float`, used to bound the number of updates. -/
def rank : F32 → Nat
  | nan => 0
  | ninf => 0
  | fin m => (Min.min (Max.max m (-(2 ^ 277))) (2 ^ 277) + 2 ^ 277).toNat + 1
  | pinf => 2 ^ 278 + 2

/-- The value is one a `float` can hold: a finite value has at most 24 significant bits
and does not exceed the maximum. -/
def isValid : F32 → Bool
  | fin m => decide (roundNat m.natAbs = m.natAbs) && decide (m.natAbs ≤ maxUnits)
  | _ => true

end F32

/-! ## The data model (`src/main.cpp`, lines 12-37) -/

/-- Class `Flight`: one directed adjacency entry. -/
structure Flight where
  destination : Nat
  cost : Int
  distance : F32
  duration : F32
deriving DecidableEq, Repr

/-- `map::find`: the index bound to a name, if any. -/
def mapFind : List (String × Nat) → String → Option Nat
  | [], _ => none
  | (k, i) :: m, name => if k = name then some i else mapFind m name

/-- Effect of `cityIndex[name] = index`: overwrite the binding or add a new one. -/
def mapAssign : List (String × Nat) → String → Nat → List (String × Nat)
  | [], name, index => [(name, index)]
  | (k, i) :: m, name, index =>
    if k = name then (k, index) :: m else (k, i) :: mapAssign m name index

/-- The map `operator[]` used as a value: a missing key is inserted with value `0`. -/
def mapSubscript (m : List (String × Nat)) (name : String) : List (String × Nat) × Nat :=
  match mapFind m name with
  | some i => (m, i)
  | none => (mapAssign m name 0, 0)

/-- Class `FlightGraph` (the constant `fuelRate` is only used for printing). -/
structure FlightGraph where
  numCities : Nat
  adjList : List (List Flight)
  cityIndex : List (String × Nat)
  cityNames : List String
deriving DecidableEq, Repr

namespace FlightGraph

/-- The constructor `FlightGraph(cities)`. -/
def new (cities : Nat) : FlightGraph :=
  { numCities := cities
    adjList := List.replicate cities []
    cityIndex := []
    cityNames := List.replicate cities "" }

/-- Method `addCity`; `none` when `cityNames[index]` is out of range. -/
def addCity (g : FlightGraph) (name : String) (index : Int) : Option FlightGraph :=
  if 0 ≤ index ∧ index.toNat < g.cityNames.length then
    some { g with
      cityIndex := mapAssign g.cityIndex name index.toNat
      cityNames := g.cityNames.set index.toNat name }
  else none

/-- The statement `adjList[i].emplace_back(flight)`. -/
def emplaceBack (adj : List (List Flight)) (i : Nat) (flight : Flight) : List (List Flight) :=
  adj.set i (adj.getD i [] ++ [flight])

/-- Method `addFlight`. -/
def addFlight (g : FlightGraph) (u v : String) (cost : Int) (distance duration : F32) :
    FlightGraph :=
  if mapFind g.cityIndex u = none ∨ mapFind g.cityIndex v = none then g
  else
    let r1 := mapSubscript g.cityIndex u
    let uIndex := r1.2
    let r2 := mapSubscript r1.1 v
    let vIndex := r2.2
    let adj1 := emplaceBack g.adjList uIndex ⟨vIndex, cost, distance, duration⟩
    let adj2 := emplaceBack adj1 vIndex ⟨uIndex, cost, distance, duration⟩
    { g with cityIndex := r2.1, adjList := adj2 }

end FlightGraph

/-! ## The shortest-path queries (`src/main.cpp`, lines 61-132)

`dijkstraCost` and `dijkstraDistance` have the same text up to the element type of the
result (`int` / `float`), its sentinel, and the attribute read from a flight
(`flight.cost` / `flight.distance`).  The text is embedded once, over a `Metric`.
-/

/-- What differs between the two queries. -/
structure Metric (W : Type) where
  zero : W
  sentinel : W
  add : W → W → W
  lt : W → W → Bool
  weight : Flight → W

/-- The instance for `dijkstraCost`: 32-bit `int`, `INT_MAX`, `flight.cost`. -/
def costMetric : Metric Int :=
  { zero := 0
    sentinel := INT_MAX
    add := fun a b => wrap32 (a + b)
    lt := fun a b => decide (a < b)
    weight := Flight.cost }

/-- The instance for `dijkstraDistance`: `float`, its maximum, `flight.distance`. -/
def distanceMetric : Metric F32 :=
  { zero := F32.zero
    sentinel := F32.max
    add := F32.add
    lt := F32.lt
    weight := Flight.distance }

/-- Working state of one query: the result vector and the priority queue. -/
structure DState (W : Type) where
  minW : List W
  pq : List (W × Nat)

section Query
variable {W : Type} [DecidableEq W]

/-- The operator `<` of `std::pair`. -/
def pairLt (M : Metric W) (a b : W × Nat) : Bool :=
  M.lt a.1 b.1 || (!M.lt b.1 a.1 && decide (a.2 < b.2))

/-- The least element of `best :: rest` for `pairLt`. -/
def pqMin (M : Metric W) : W × Nat → List (W × Nat) → W × Nat
  | best, [] => best
  | best, x :: rest => if pairLt M x best then pqMin M x rest else pqMin M best rest

/-- The function `pq.top()` of a min-queue (`greater<pair<...>>`). -/
def pqTop (M : Metric W) : List (W × Nat) → Option (W × Nat)
  | [] => none
  | x :: rest => some (pqMin M x rest)

/-- Body of the `for` loop: relax one flight leaving `u` (lines 85-91). -/
def relax (M : Metric W) (u : Nat) (st : DState W) (flight : Flight) : DState W :=
  let v := flight.destination
  let cand := M.add (st.minW.getD u M.sentinel) (M.weight flight)
  if M.lt cand (st.minW.getD v M.sentinel) then
    { minW := st.minW.set v cand, pq := (cand, v) :: st.pq }
  else st

/-- Body of the `while` loop (lines 76-92): pop, skip a stale entry, else relax all. -/
def dijkstraStep (M : Metric W) (adj : List (List Flight)) (st : DState W) : DState W :=
  match pqTop M st.pq with
  | none => st
  | some top =>
    let popped : DState W := { st with pq := st.pq.erase top }
    if M.lt (st.minW.getD top.2 M.sentinel) top.1 then popped
    else (adj.getD top.2 []).foldl (relax M top.2) popped

/-- The `while (!pq.empty())` loop, run for at most `fuel` iterations. -/
def dijkstraLoop (M : Metric W) (adj : List (List Flight)) : Nat → DState W → DState W
  | 0, st => st
  | fuel + 1, st =>
    if st.pq.isEmpty then st else dijkstraLoop M adj fuel (dijkstraStep M adj st)

/-- Lines 69-72: the result vector filled with the sentinel, zero at the source, and
the queue holding the source. -/
def dijkstraStart (M : Metric W) (numCities sourceIndex : Nat) : DState W :=
  { minW := (List.replicate numCities M.sentinel).set sourceIndex M.zero
    pq := [(M.zero, sourceIndex)] }

/-- The common text of the two queries.  `bound` bounds the number of times one entry
of the result can decrease; the loop is run with a number of iterations that is shown
to suffice (`dijkstra_terminates`). -/
def dijkstra (M : Metric W) (bound : Nat) (g : FlightGraph) (source : String) :
    FlightGraph × List W :=
  if mapFind g.cityIndex source = none then (g, [])
  else
    let r := mapSubscript g.cityIndex source
    let sourceIndex := r.2
    let start := dijkstraStart M g.numCities sourceIndex
    ({ g with cityIndex := r.1 },
      (dijkstraLoop M g.adjList (g.numCities * bound + 2) start).minW)

end Query

namespace FlightGraph

/-- Method `dijkstraCost`: the store after the call and the returned vector. -/
def dijkstraCost (g : FlightGraph) (source : String) : FlightGraph × List Int :=
  dijkstra costMetric (2 ^ 32) g source

/-- Method `dijkstraDistance`: the store after the call and the returned vector. -/
def dijkstraDistance (g : FlightGraph) (source : String) : FlightGraph × List F32 :=
  dijkstra distanceMetric (2 ^ 278 + 3) g source

end FlightGraph

/-! ## Stores built through the interface -/

/-- A call of one of the two mutating methods. -/
inductive Op where
  | addCity (name : String) (index : Int)
  | addFlight (u v : String) (cost : Int) (distance duration : F32)
deriving DecidableEq, Repr

/-- Effect of one call; `none` when `addCity` indexes out of range. -/
def applyOp (g : FlightGraph) : Op → Option FlightGraph
  | .addCity name index => g.addCity name index
  | .addFlight u v c d t => some (g.addFlight u v c d t)

/-- Effect of a sequence of calls. -/
def applyOps : FlightGraph → List Op → Option FlightGraph
  | g, [] => some g
  | g, op :: ops => (applyOp g op).bind (fun g1 => applyOps g1 ops)

/-- The store built by `FlightGraph(cities)` followed by the calls `ops`. -/
def build (cities : Nat) (ops : List Op) : Option FlightGraph :=
  applyOps (FlightGraph.new cities) ops

/-- The store of the scenario of the specification: cities A, B, C and three flights. -/
def exampleOps : List Op :=
  [ .addCity "A" 0, .addCity "B" 1, .addCity "C" 2,
    .addFlight "A" "B" 100 (F32.ofNat 500) (F32.ofNat 1),
    .addFlight "B" "C" 50 (F32.ofNat 300) (F32.fin (2 ^ 148)),
    .addFlight "A" "C" 200 (F32.ofNat 1000) (F32.ofNat 2) ]

/-- Indices stored in the store are in range: what `operator[]` on the vectors needs. -/
def FlightGraph.WF (g : FlightGraph) : Prop :=
  g.adjList.length = g.numCities ∧ g.cityNames.length = g.numCities ∧
  (∀ name i, mapFind g.cityIndex name = some i → i < g.numCities) ∧
  (∀ u f, f ∈ g.adjList.getD u [] → f.destination < g.numCities)

/-- Every adjacency entry has an entry in the opposite direction. -/
def FlightGraph.Sym (g : FlightGraph) : Prop :=
  ∀ u f, f ∈ g.adjList.getD u [] → ∃ f1, f1 ∈ g.adjList.getD f.destination [] ∧ f1.destination = u

/-- The store that `exampleOps` builds on `FlightGraph(3)`. -/
def exampleGraph : FlightGraph :=
  { numCities := 3
    adjList :=
      [ [⟨1, 100, F32.ofNat 500, F32.ofNat 1⟩, ⟨2, 200, F32.ofNat 1000, F32.ofNat 2⟩],
        [⟨0, 100, F32.ofNat 500, F32.ofNat 1⟩, ⟨2, 50, F32.ofNat 300, F32.fin (2 ^ 148)⟩],
        [⟨1, 50, F32.ofNat 300, F32.fin (2 ^ 148)⟩, ⟨0, 200, F32.ofNat 1000, F32.ofNat 2⟩] ]
    cityIndex := [("A", 0), ("B", 1), ("C", 2)]
    cityNames := ["A", "B", "C"] }

/-! ## Notions used to state the properties -/

/-- A walk: flights taken one after the other from city `u`, ending in city `v`. -/
def IsWalk (adj : List (List Flight)) : Nat → List Flight → Nat → Prop
  | u, [], v => u = v
  | u, f :: p, v => f ∈ adj.getD u [] ∧ IsWalk adj f.destination p v

/-- Some sequence of flights leads from `s` to `v`. -/
def Reachable (adj : List (List Flight)) (s v : Nat) : Prop := ∃ p, IsWalk adj s p v

/-- Sum of the flight costs along a walk, as a mathematical integer. -/
def pathCost (p : List Flight) : Int := (p.map Flight.cost).sum

/-- Sum of the flight distances along a walk, accumulated in `float` arithmetic. -/
def pathDistance (p : List Flight) : F32 :=
  p.foldl (fun acc f => F32.add acc f.distance) F32.zero

/-- Position of an `int` in the order of `int`, used to bound the number of updates. -/
def rankInt (x : Int) : Nat := (Min.min x 2147483648 + 2147483648).toNat

/-- Sum of the ranks of the entries of a result vector. -/
def rankSum {W : Type} (rank : W → Nat) (l : List W) : Nat := (l.map rank).sum

/-- The flight `f` leaving `u` offers no improvement: the test of line 87 is false. -/
def EdgeRelaxed {W : Type} (M : Metric W) (mw : List W) (u : Nat) (f : Flight) : Prop :=
  M.lt (M.add (mw.getD u M.sentinel) (M.weight f)) (mw.getD f.destination M.sentinel) = false

/-- Invariant of label correcting: every city is untouched, or queued with its current
value, or has the flights `req u` relaxed. -/
def Corrected {W : Type} (M : Metric W) (s : Nat) (req : Nat → List Flight) (st : DState W) :
    Prop :=
  ∀ u, (u ≠ s ∧ st.minW.getD u M.sentinel = M.sentinel) ∨
    (st.minW.getD u M.sentinel, u) ∈ st.pq ∨ ∀ f ∈ req u, EdgeRelaxed M st.minW u f

/-- Invariant of reachability: a value was written only for a city that a walk from `s`
reaches, and only such cities are queued. -/
def OnlyReachable {W : Type} (M : Metric W) (adj : List (List Flight)) (s : Nat)
    (st : DState W) : Prop :=
  (∀ v, ¬ Reachable adj s v → st.minW.getD v M.sentinel = M.sentinel) ∧
  (∀ x ∈ st.pq, Reachable adj s x.2)

/-- Every entry of the result vector equals the reference value or is less than it. -/
def Below {W : Type} (M : Metric W) (ref : Nat → W) (st : DState W) : Prop :=
  ∀ v, st.minW.getD v M.sentinel = ref v ∨ M.lt (st.minW.getD v M.sentinel) (ref v) = true

/-- City `u` is the source or holds a value other than `INT_MAX`. -/
def Touched (s : Nat) (mc : List Int) (u : Nat) : Prop := u = s ∨ mc.getD u INT_MAX ≠ INT_MAX

/-- Invariant of `dijkstraCost` for non-negative costs without overflow: the source holds
zero, entries lie in `[0, INT_MAX]`, a touched entry is the cost of some walk, a queued
pair names a touched city and is not below its entry, and a touched city that is not
queued with its current entry holds the least cost of a walk. -/
def CostInv (adj : List (List Flight)) (s : Nat) (st : DState Int) : Prop :=
  st.minW.getD s INT_MAX = 0 ∧
  (∀ v, 0 ≤ st.minW.getD v INT_MAX ∧ st.minW.getD v INT_MAX ≤ INT_MAX) ∧
  (∀ v, Touched s st.minW v → ∃ p, IsWalk adj s p v ∧ pathCost p = st.minW.getD v INT_MAX) ∧
  (∀ x ∈ st.pq, st.minW.getD x.2 INT_MAX ≤ x.1 ∧ Touched s st.minW x.2) ∧
  (∀ u, Touched s st.minW u → (st.minW.getD u INT_MAX, u) ∉ st.pq →
    ∀ p, IsWalk adj s p u → st.minW.getD u INT_MAX ≤ pathCost p)

/-- Two cities joined by one flight of cost 1 and distance minus the `float` maximum. -/
def negDistanceOps : List Op :=
  [ .addCity "A" 0, .addCity "B" 1,
    .addFlight "A" "B" 1 (F32.fin (-(F32.maxUnits : Int))) (F32.ofNat 1) ]

/-- The store that `negDistanceOps` builds on `FlightGraph(2)`. -/
def negDistanceGraph : FlightGraph :=
  { numCities := 2
    adjList :=
      [ [⟨1, 1, F32.fin (-(F32.maxUnits : Int)), F32.ofNat 1⟩],
        [⟨0, 1, F32.fin (-(F32.maxUnits : Int)), F32.ofNat 1⟩] ]
    cityIndex := [("A", 0), ("B", 1)]
    cityNames := ["A", "B"] }

/-- Two cities joined by one flight of cost `INT_MAX` and distance 1. -/
def maxCostOps : List Op :=
  [ .addCity "A" 0, .addCity "B" 1,
    .addFlight "A" "B" 2147483647 (F32.ofNat 1) (F32.ofNat 1) ]

/-- The store that `maxCostOps` builds on `FlightGraph(2)`. -/
def maxCostGraph : FlightGraph :=
  { numCities := 2
    adjList :=
      [ [⟨1, 2147483647, F32.ofNat 1, F32.ofNat 1⟩],
        [⟨0, 2147483647, F32.ofNat 1, F32.ofNat 1⟩] ]
    cityIndex := [("A", 0), ("B", 1)]
    cityNames := ["A", "B"] }

/-- Two cities joined by one flight of cost 5 and distance 7. -/
def pairOps : List Op :=
  [ .addCity "A" 0, .addCity "B" 1, .addFlight "A" "B" 5 (F32.ofNat 7) (F32.ofNat 1) ]

/-- The store that `pairOps` builds on `FlightGraph(2)`. -/
def pairGraph : FlightGraph :=
  { numCities := 2
    adjList := [ [⟨1, 5, F32.ofNat 7, F32.ofNat 1⟩], [⟨0, 5, F32.ofNat 7, F32.ofNat 1⟩] ]
    cityIndex := [("A", 0), ("B", 1)]
    cityNames := ["A", "B"] }

/-- Two cities joined by one flight of cost `2^30` and distance 1. -/
def overflowOps : List Op :=
  [ .addCity "A" 0, .addCity "B" 1,
    .addFlight "A" "B" 1073741824 (F32.ofNat 1) (F32.ofNat 1) ]

/-- The store that `overflowOps` builds on `FlightGraph(2)`. -/
def overflowGraph : FlightGraph :=
  { numCities := 2
    adjList :=
      [ [⟨1, 1073741824, F32.ofNat 1, F32.ofNat 1⟩],
        [⟨0, 1073741824, F32.ofNat 1, F32.ofNat 1⟩] ]
    cityIndex := [("A", 0), ("B", 1)]
    cityNames := ["A", "B"] }

/-- Two cities joined by one flight of cost `-2^30` and distance 1. -/
def negCostOps : List Op :=
  [ .addCity "A" 0, .addCity "B" 1,
    .addFlight "A" "B" (-1073741824) (F32.ofNat 1) (F32.ofNat 1) ]

/-- The store that `negCostOps` builds on `FlightGraph(2)`. -/
def negCostGraph : FlightGraph :=
  { numCities := 2
    adjList :=
      [ [⟨1, -1073741824, F32.ofNat 1, F32.ofNat 1⟩],
        [⟨0, -1073741824, F32.ofNat 1, F32.ofNat 1⟩] ]
    cityIndex := [("A", 0), ("B", 1)]
    cityNames := ["A", "B"] }

/-- Two cities joined by one flight of cost 1 and distance the `float` maximum. -/
def maxDistanceOps : List Op :=
  [ .addCity "A" 0, .addCity "B" 1, .addFlight "A" "B" 1 F32.max (F32.ofNat 1) ]

/-- The store that `maxDistanceOps` builds on `FlightGraph(2)`. -/
def maxDistanceGraph : FlightGraph :=
  { numCities := 2
    adjList := [ [⟨1, 1, F32.max, F32.ofNat 1⟩], [⟨0, 1, F32.max, F32.ofNat 1⟩] ]
    cityIndex := [("A", 0), ("B", 1)]
    cityNames := ["A", "B"] }

/-- The scenario with one more city, D, that has no flight. -/
def isolatedOps : List Op := exampleOps ++ [.addCity "D" 3]

/-- The store that `isolatedOps` builds on `FlightGraph(4)`. -/
def isolatedGraph : FlightGraph :=
  { numCities := 4
    adjList := exampleGraph.adjList ++ [[]]
    cityIndex := [("A", 0), ("B", 1), ("C", 2), ("D", 3)]
    cityNames := ["A", "B", "C", "D"] }

/-- The calls of the registration loop of `main` (lines 194-199): the names are
registered one after the other at the indices `k`, `k + 1`, ... -/
def registerFrom : Nat → List String → List Op
  | _, [] => []
  | k, name :: rest => .addCity name k :: registerFrom (k + 1) rest

/-- The store after `main` has registered the names: the constructor with the number
of names, then the registration loop. -/
def registered (names : List String) : Option FlightGraph :=
  build names.length (registerFrom 0 names)

/-- The adjacency store is symmetric: the entry for the opposite direction with the same
three values occurs as often. -/
def FlightGraph.CountSym (g : FlightGraph) : Prop :=
  ∀ (i j : Nat) (c : Int) (d t : F32),
    (g.adjList.getD i []).count ⟨j, c, d, t⟩ = (g.adjList.getD j []).count ⟨i, c, d, t⟩

/-- The vector `mc` holds, for every city, the least cost of a walk from `i`, and
`INT_MAX` for the cities that no walk reaches. -/
def IsCostResult (adj : List (List Flight)) (i : Nat) (mc : List Int) : Prop :=
  ∀ v, mc.getD v INT_MAX ≤ INT_MAX ∧
    (Reachable adj i v →
      (∃ p, IsWalk adj i p v ∧ pathCost p = mc.getD v INT_MAX) ∧
      ∀ p, IsWalk adj i p v → mc.getD v INT_MAX ≤ pathCost p) ∧
    (¬ Reachable adj i v → mc.getD v INT_MAX = INT_MAX)

/-- Three cities in a row: A-B of cost 1 and B-C of cost `INT_MAX`. -/
def asymOps : List Op :=
  [ .addCity "A" 0, .addCity "B" 1, .addCity "C" 2,
    .addFlight "A" "B" 1 (F32.ofNat 1) (F32.ofNat 1),
    .addFlight "B" "C" 2147483647 (F32.ofNat 1) (F32.ofNat 1) ]

/-- The store that `asymOps` builds on `FlightGraph(3)`. -/
def asymGraph : FlightGraph :=
  { numCities := 3
    adjList :=
      [ [⟨1, 1, F32.ofNat 1, F32.ofNat 1⟩],
        [⟨0, 1, F32.ofNat 1, F32.ofNat 1⟩, ⟨2, 2147483647, F32.ofNat 1, F32.ofNat 1⟩],
        [⟨1, 2147483647, F32.ofNat 1, F32.ofNat 1⟩] ]
    cityIndex := [("A", 0), ("B", 1), ("C", 2)]
    cityNames := ["A", "B", "C"] }

/-- Two cities joined by one flight of cost 1 and distance 1. -/
def unitOps : List Op :=
  [ .addCity "A" 0, .addCity "B" 1, .addFlight "A" "B" 1 (F32.ofNat 1) (F32.ofNat 1) ]

/-- The store that `unitOps` builds on `FlightGraph(2)`. -/
def unitGraph : FlightGraph :=
  { numCities := 2
    adjList := [ [⟨1, 1, F32.ofNat 1, F32.ofNat 1⟩], [⟨0, 1, F32.ofNat 1, F32.ofNat 1⟩] ]
    cityIndex := [("A", 0), ("B", 1)]
    cityNames := ["A", "B"] }

/-- The same text as `costMetric` over unbounded integers: the sum is not reduced. -/
def costMetricZ : Metric Int :=
  { zero := 0
    sentinel := INT_MAX
    add := fun a b => a + b
    lt := fun a b => decide (a < b)
    weight := Flight.cost }

/-- A value of `dijkstraCost` when no sum exceeds `B`: within `[0, B]` or the sentinel. -/
def InV (B : Int) (x : Int) : Prop := (0 ≤ x ∧ x ≤ B) ∨ x = INT_MAX

/-- All the values of a state of `dijkstraCost` are values in the sense of `InV`. -/
def ValuesIn (B : Int) (st : DState Int) : Prop :=
  (∀ v, InV B (st.minW.getD v INT_MAX)) ∧ ∀ x ∈ st.pq, InV B x.1

/-- The state of another query that corresponds to a state of `dijkstraCost`. -/
def mapState {W : Type} (e : Int → W) (st : DState Int) : DState W :=
  { minW := st.minW.map e, pq := st.pq.map (fun x => (e x.1, x.2)) }

/-- The metric `M2` does on the images under `e` what `dijkstraCost` does on the
costs, as long as the sums stay within `[0, B]`. -/
def Follows {W : Type} (M2 : Metric W) (e : Int → W) (B : Int) (adj : List (List Flight)) :
    Prop :=
  e INT_MAX = M2.sentinel ∧ e 0 = M2.zero ∧
  (∀ a b, InV B a → InV B b → M2.lt (e a) (e b) = decide (a < b)) ∧
  (∀ a u f, f ∈ adj.getD u [] → 0 ≤ a → a + f.cost ≤ B →
    M2.add (e a) (M2.weight f) = e (a + f.cost))

/-- No sum of the least cost to a city and the cost of a flight leaving it exceeds `B`. -/
def SumsBelow (adj : List (List Flight)) (s : Nat) (B : Int) : Prop :=
  ∀ x d f, (∃ p, IsWalk adj s p x ∧ pathCost p = d) →
    (∀ p, IsWalk adj s p x → d ≤ pathCost p) → f ∈ adj.getD x [] → d + f.cost ≤ B

/-- What holds of every state of `dijkstraCost` when no sum exceeds `B`. -/
def SimInv (adj : List (List Flight)) (s : Nat) (B : Int) (n : Nat) (st : DState Int) : Prop :=
  st.minW.length = n ∧ CostInv adj s st ∧
  Corrected costMetric s (fun u => adj.getD u []) st ∧ ValuesIn B st

/-- The `float` with the value of a cost, the sentinel going to the sentinel. -/
def F32.ofCost (x : Int) : F32 := if x = INT_MAX then F32.max else F32.fin (x * 2 ^ 149)

/-- Three cities in a row whose flights have a distance equal to the cost: A-B of cost
and distance `2^24`, B-C of cost and distance 1. -/
def roundOps : List Op :=
  [ .addCity "A" 0, .addCity "B" 1, .addCity "C" 2,
    .addFlight "A" "B" 16777216 (F32.ofNat 16777216) (F32.ofNat 1),
    .addFlight "B" "C" 1 (F32.ofNat 1) (F32.ofNat 1) ]

/-- The store that `roundOps` builds on `FlightGraph(3)`. -/
def roundGraph : FlightGraph :=
  { numCities := 3
    adjList :=
      [ [⟨1, 16777216, F32.ofNat 16777216, F32.ofNat 1⟩],
        [⟨0, 16777216, F32.ofNat 16777216, F32.ofNat 1⟩, ⟨2, 1, F32.ofNat 1, F32.ofNat 1⟩],
        [⟨1, 1, F32.ofNat 1, F32.ofNat 1⟩] ]
    cityIndex := [("A", 0), ("B", 1), ("C", 2)]
    cityNames := ["A", "B", "C"] }

/-! ## Basic facts about the containers -/

set_option maxRecDepth 100000

theorem getD_set_self {α : Type} (l : List α) (i : Nat) (a d : α) (h : i < l.length) :
    (l.set i a).getD i d = a := by
  simp [List.getD_eq_getElem?_getD, List.getElem?_set, h]

theorem getD_set_other {α : Type} (l : List α) (i j : Nat) (a d : α) (h : i ≠ j) :
    (l.set i a).getD j d = l.getD j d := by
  simp [List.getD_eq_getElem?_getD, List.getElem?_set, h]

theorem getD_set_out {α : Type} (l : List α) (i j : Nat) (a d : α) (h : l.length ≤ i) :
    (l.set i a).getD j d = l.getD j d := by
  by_cases hij : i = j
  · subst hij
    have h2 : l[i]? = none := List.getElem?_eq_none h
    simp [List.getD_eq_getElem?_getD, List.getElem?_set, Nat.not_lt.mpr h, h2]
  · exact getD_set_other l i j a d hij

theorem mapSubscript_of_find {m : List (String × Nat)} {name : String} {i : Nat}
    (h : mapFind m name = some i) : mapSubscript m name = (m, i) := by
  simp [mapSubscript, h]

theorem mapFind_mapAssign (m : List (String × Nat)) (name : String) (index : Nat)
    (k : String) :
    mapFind (mapAssign m name index) k = if k = name then some index else mapFind m k := by
  induction m with
  | nil =>
    by_cases hk : k = name
    · simp [mapAssign, mapFind, hk]
    · have : ¬ name = k := fun h => hk h.symm
      simp [mapAssign, mapFind, hk, this]
  | cons p m ih =>
    obtain ⟨k1, i1⟩ := p
    by_cases h1 : k1 = name
    · subst h1
      by_cases hk : k = k1
      · subst hk; simp [mapAssign, mapFind]
      · have : ¬ k1 = k := fun h => hk h.symm
        simp [mapAssign, mapFind, hk, this]
    · by_cases hk : k1 = k
      · subst hk
        simp [mapAssign, mapFind, h1]
      · simp [mapAssign, mapFind, h1, hk, ih]

theorem emplaceBack_length (adj : List (List Flight)) (i : Nat) (x : Flight) :
    (FlightGraph.emplaceBack adj i x).length = adj.length := by
  simp [FlightGraph.emplaceBack]

theorem emplaceBack_getD (adj : List (List Flight)) (i k : Nat) (x : Flight)
    (hi : i < adj.length) :
    (FlightGraph.emplaceBack adj i x).getD k [] =
      adj.getD k [] ++ (if k = i then [x] else []) := by
  unfold FlightGraph.emplaceBack
  by_cases hk : k = i
  · subst hk
    rw [getD_set_self _ _ _ _ hi]; simp
  · rw [getD_set_other _ _ _ _ _ (fun h => hk h.symm)]; simp [hk]

/-! ## Stores built through the interface are well formed -/

theorem addFlight_of_find {g : FlightGraph} {u v : String} {i j : Nat} (c : Int) (d t : F32)
    (hu : mapFind g.cityIndex u = some i) (hv : mapFind g.cityIndex v = some j) :
    g.addFlight u v c d t =
      { numCities := g.numCities
        adjList := FlightGraph.emplaceBack
          (FlightGraph.emplaceBack g.adjList i ⟨j, c, d, t⟩) j ⟨i, c, d, t⟩
        cityIndex := g.cityIndex
        cityNames := g.cityNames } := by
  simp [FlightGraph.addFlight, hu, hv, mapSubscript_of_find hu, mapSubscript_of_find hv]

theorem addFlight_of_not_find {g : FlightGraph} {u v : String} (c : Int) (d t : F32)
    (h : mapFind g.cityIndex u = none ∨ mapFind g.cityIndex v = none) :
    g.addFlight u v c d t = g := by
  simp [FlightGraph.addFlight, h]

theorem addFlight_getD {g : FlightGraph} {u v : String} {i j : Nat} (c : Int) (d t : F32)
    (hw : g.WF) (hu : mapFind g.cityIndex u = some i) (hv : mapFind g.cityIndex v = some j)
    (k : Nat) :
    (g.addFlight u v c d t).adjList.getD k [] =
      g.adjList.getD k [] ++ (if k = i then [⟨j, c, d, t⟩] else [])
        ++ (if k = j then [⟨i, c, d, t⟩] else []) := by
  obtain ⟨h1, _, h3, _⟩ := hw
  have hi : i < g.adjList.length := h1 ▸ h3 u i hu
  have hj : j < g.adjList.length := h1 ▸ h3 v j hv
  rw [addFlight_of_find c d t hu hv]
  simp only
  rw [emplaceBack_getD _ _ _ _ (by rw [emplaceBack_length]; exact hj),
    emplaceBack_getD _ _ _ _ hi]

theorem new_WF (cities : Nat) : (FlightGraph.new cities).WF := by
  refine ⟨by simp [FlightGraph.new], by simp [FlightGraph.new], ?_, ?_⟩
  · intro name i h
    simp [FlightGraph.new, mapFind] at h
  · intro u f h
    simp only [FlightGraph.new, List.getD_eq_getElem?_getD, List.getElem?_replicate] at h
    split at h <;> simp at h

theorem new_Sym (cities : Nat) : (FlightGraph.new cities).Sym := by
  intro u f h
  simp only [FlightGraph.new, List.getD_eq_getElem?_getD, List.getElem?_replicate] at h
  split at h <;> simp at h

theorem addCity_WF {g g1 : FlightGraph} {name : String} {index : Int} (hw : g.WF)
    (h : g.addCity name index = some g1) : g1.WF := by
  obtain ⟨h1, h2, h3, h4⟩ := hw
  unfold FlightGraph.addCity at h
  split at h
  · rename_i hc
    injection h with h
    subst h
    refine ⟨h1, by simpa using h2, ?_, h4⟩
    intro k i hk
    simp only [mapFind_mapAssign] at hk
    split at hk
    · injection hk with hk
      rw [← hk, ← h2]; exact hc.2
    · exact h3 k i hk
  · exact absurd h (by simp)

theorem addCity_adjList {g g1 : FlightGraph} {name : String} {index : Int}
    (h : g.addCity name index = some g1) :
    g1.adjList = g.adjList ∧ g1.numCities = g.numCities := by
  unfold FlightGraph.addCity at h
  split at h
  · injection h with h
    subst h
    exact ⟨rfl, rfl⟩
  · exact absurd h (by simp)

theorem addFlight_WF {g : FlightGraph} (u v : String) (c : Int) (d t : F32) (hw : g.WF) :
    (g.addFlight u v c d t).WF := by
  cases hu : mapFind g.cityIndex u with
  | none => rw [addFlight_of_not_find c d t (Or.inl hu)]; exact hw
  | some i =>
    cases hv : mapFind g.cityIndex v with
    | none => rw [addFlight_of_not_find c d t (Or.inr hv)]; exact hw
    | some j =>
      have hg := addFlight_getD c d t hw hu hv
      obtain ⟨h1, h2, h3, h4⟩ := hw
      refine ⟨?_, ?_, ?_, ?_⟩
      · rw [addFlight_of_find c d t hu hv]
        simp [emplaceBack_length, h1]
      · rw [addFlight_of_find c d t hu hv]; exact h2
      · rw [addFlight_of_find c d t hu hv]; exact h3
      · intro k f hf
        rw [hg k] at hf
        have hn : (g.addFlight u v c d t).numCities = g.numCities := by
          rw [addFlight_of_find c d t hu hv]
        rw [hn]
        simp only [List.mem_append] at hf
        rcases hf with (hf | hf) | hf
        · exact h4 k f hf
        · split at hf
          · simp at hf; subst hf; exact h3 v j hv
          · simp at hf
        · split at hf
          · simp at hf; subst hf; exact h3 u i hu
          · simp at hf

theorem addFlight_Sym {g : FlightGraph} (u v : String) (c : Int) (d t : F32) (hw : g.WF)
    (hs : g.Sym) : (g.addFlight u v c d t).Sym := by
  cases hu : mapFind g.cityIndex u with
  | none => rw [addFlight_of_not_find c d t (Or.inl hu)]; exact hs
  | some i =>
    cases hv : mapFind g.cityIndex v with
    | none => rw [addFlight_of_not_find c d t (Or.inr hv)]; exact hs
    | some j =>
      have hg := addFlight_getD c d t hw hu hv
      intro k f hf
      rw [hg k] at hf
      simp only [List.mem_append] at hf
      rcases hf with (hf | hf) | hf
      · obtain ⟨f1, hf1, hd⟩ := hs k f hf
        refine ⟨f1, ?_, hd⟩
        rw [hg]
        simp only [List.mem_append]
        exact Or.inl (Or.inl hf1)
      · split at hf
        · rename_i hk
          simp at hf; subst hf
          refine ⟨⟨i, c, d, t⟩, ?_, hk.symm⟩
          rw [hg]
          simp
        · simp at hf
      · split at hf
        · rename_i hk
          simp at hf; subst hf
          refine ⟨⟨j, c, d, t⟩, ?_, hk.symm⟩
          rw [hg]
          simp
        · simp at hf

theorem applyOps_WF : ∀ (ops : List Op) (g g1 : FlightGraph), g.WF → g.Sym →
    applyOps g ops = some g1 → g1.WF ∧ g1.Sym := by
  intro ops
  induction ops with
  | nil =>
    intro g g1 hw hs h
    simp [applyOps] at h
    subst h
    exact ⟨hw, hs⟩
  | cons op ops ih =>
    intro g g1 hw hs h
    simp only [applyOps] at h
    cases op with
    | addCity name index =>
      simp only [applyOp] at h
      cases ha : g.addCity name index with
      | none => rw [ha] at h; simp at h
      | some g2 =>
        rw [ha] at h
        simp only [Option.some_bind] at h
        have hadj := addCity_adjList ha
        refine ih g2 g1 (addCity_WF hw ha) ?_ h
        intro k f hf
        rw [hadj.1] at hf ⊢
        exact hs k f hf
    | addFlight u v c d t =>
      simp only [applyOp, Option.some_bind] at h
      exact ih _ g1 (addFlight_WF u v c d t hw) (addFlight_Sym u v c d t hw hs) h

theorem build_WF {cities : Nat} {ops : List Op} {g : FlightGraph}
    (h : build cities ops = some g) : g.WF :=
  (applyOps_WF ops _ g (new_WF cities) (new_Sym cities) h).1

theorem build_Sym {cities : Nat} {ops : List Op} {g : FlightGraph}
    (h : build cities ops = some g) : g.Sym :=
  (applyOps_WF ops _ g (new_WF cities) (new_Sym cities) h).2

/-! ## The loop: general facts -/

set_option linter.unusedSectionVars false

section Loop
variable {W : Type} [DecidableEq W] (M : Metric W)

theorem foldl_inv {α β : Type} (P : β → Prop) (f : β → α → β) (l : List α)
    (h : ∀ b a, a ∈ l → P b → P (f b a)) (b : β) (hb : P b) : P (l.foldl f b) := by
  induction l generalizing b with
  | nil => exact hb
  | cons a l ih =>
    simp only [List.foldl_cons]
    exact ih (fun b1 a1 ha1 => h b1 a1 (List.mem_cons_of_mem _ ha1)) _
      (h b a (List.mem_cons_self _ _) hb)

theorem pqMin_mem (best : W × Nat) (rest : List (W × Nat)) :
    pqMin M best rest ∈ best :: rest := by
  induction rest generalizing best with
  | nil => simp [pqMin]
  | cons x rest ih =>
    simp only [pqMin]
    split
    · exact List.mem_cons_of_mem _ (ih x)
    · have := ih best
      simp only [List.mem_cons] at this ⊢
      rcases this with h | h
      · exact Or.inl h
      · exact Or.inr (Or.inr h)

theorem pqTop_mem {pq : List (W × Nat)} {top : W × Nat} (h : pqTop M pq = some top) :
    top ∈ pq := by
  cases pq with
  | nil => simp [pqTop] at h
  | cons x rest =>
    simp only [pqTop, Option.some.injEq] at h
    rw [← h]
    exact pqMin_mem M x rest

theorem pqTop_of_ne_nil {pq : List (W × Nat)} (h : pq ≠ []) : ∃ top, pqTop M pq = some top := by
  cases pq with
  | nil => exact absurd rfl h
  | cons x rest => exact ⟨_, rfl⟩

theorem dijkstraStep_eq (adj : List (List Flight)) (st : DState W) {top : W × Nat}
    (h : pqTop M st.pq = some top) :
    dijkstraStep M adj st =
      if M.lt (st.minW.getD top.2 M.sentinel) top.1 then
        { minW := st.minW, pq := st.pq.erase top }
      else (adj.getD top.2 []).foldl (relax M top.2) { minW := st.minW, pq := st.pq.erase top } := by
  simp only [dijkstraStep, h]

theorem dijkstraLoop_inv (adj : List (List Flight)) (P : DState W → Prop)
    (hstep : ∀ st, P st → st.pq ≠ [] → P (dijkstraStep M adj st)) :
    ∀ (fuel : Nat) (st : DState W), P st → P (dijkstraLoop M adj fuel st) := by
  intro fuel
  induction fuel with
  | zero => intro st h; exact h
  | succ fuel ih =>
    intro st h
    simp only [dijkstraLoop]
    split
    · exact h
    · rename_i hne
      exact ih _ (hstep st h (by simpa using hne))

theorem relax_length (u : Nat) (st : DState W) (f : Flight) :
    (relax M u st f).minW.length = st.minW.length := by
  simp only [relax]
  split <;> simp

theorem dijkstraStep_length (adj : List (List Flight)) (st : DState W) :
    (dijkstraStep M adj st).minW.length = st.minW.length := by
  cases h : pqTop M st.pq with
  | none => simp [dijkstraStep, h]
  | some top =>
    rw [dijkstraStep_eq M adj st h]
    split
    · rfl
    · exact foldl_inv (fun s : DState W => s.minW.length = st.minW.length) _ _
        (fun b a _ hb => by show (relax M _ b a).minW.length = _; rw [relax_length]; exact hb)
        _ rfl

theorem dijkstraLoop_length (adj : List (List Flight)) (fuel : Nat) (st : DState W) :
    (dijkstraLoop M adj fuel st).minW.length = st.minW.length :=
  dijkstraLoop_inv M adj (fun s : DState W => s.minW.length = st.minW.length)
    (fun s hs _ => by show (dijkstraStep M adj s).minW.length = _; rw [dijkstraStep_length]; exact hs)
    fuel st rfl

/-! ### Termination: every update lowers an entry, and entries are bounded -/

theorem rankSum_set (rank : W → Nat) (l : List W) (v : Nat) (x d : W) (hv : v < l.length) :
    rankSum rank (l.set v x) + rank (l.getD v d) = rankSum rank l + rank x := by
  induction l generalizing v with
  | nil => simp at hv
  | cons a l ih =>
    cases v with
    | zero => simp [rankSum]; omega
    | succ v =>
      have hv1 : v < l.length := by simpa using hv
      have := ih v hv1
      simp only [rankSum, List.set_cons_succ, List.map_cons, List.sum_cons,
        List.getD_cons_succ] at this ⊢
      omega

theorem rankSum_le (rank : W → Nat) (bound : Nat) (h : ∀ x, rank x ≤ bound) (l : List W) :
    rankSum rank l ≤ l.length * bound := by
  induction l with
  | nil => simp [rankSum]
  | cons a l ih =>
    have := h a
    simp only [rankSum, List.map_cons, List.sum_cons, List.length_cons] at ih ⊢
    rw [Nat.succ_mul]
    omega

theorem relax_measure (rank : W → Nat)
    (hrank : ∀ a w b, M.lt (M.add a w) b = true → rank (M.add a w) < rank b)
    (u : Nat) (st : DState W) (f : Flight) (hf : f.destination < st.minW.length) :
    (relax M u st f).pq.length + rankSum rank (relax M u st f).minW
      ≤ st.pq.length + rankSum rank st.minW := by
  simp only [relax]
  split
  · rename_i hlt
    have h1 := hrank _ _ _ hlt
    have h2 := rankSum_set rank st.minW f.destination
      (M.add (st.minW.getD u M.sentinel) (M.weight f)) M.sentinel hf
    simp only [List.length_cons]
    omega
  · exact Nat.le_refl _

theorem dijkstraStep_measure (rank : W → Nat)
    (hrank : ∀ a w b, M.lt (M.add a w) b = true → rank (M.add a w) < rank b)
    (adj : List (List Flight)) (st : DState W)
    (hadj : ∀ u f, f ∈ adj.getD u [] → f.destination < st.minW.length) (hne : st.pq ≠ []) :
    (dijkstraStep M adj st).pq.length + rankSum rank (dijkstraStep M adj st).minW
      < st.pq.length + rankSum rank st.minW := by
  obtain ⟨top, htop⟩ := pqTop_of_ne_nil M hne
  have hmem := pqTop_mem M htop
  have hlen : (st.pq.erase top).length = st.pq.length - 1 := List.length_erase_of_mem hmem
  have hpos : 0 < st.pq.length := List.length_pos_of_mem hmem
  rw [dijkstraStep_eq M adj st htop]
  split
  · simp only
    omega
  · have key := foldl_inv
      (fun s : DState W => s.minW.length = st.minW.length ∧
        s.pq.length + rankSum rank s.minW ≤ (st.pq.erase top).length + rankSum rank st.minW)
      (relax M top.2) (adj.getD top.2 [])
      (fun b a ha hb => by
        refine ⟨by rw [relax_length]; exact hb.1, ?_⟩
        have := relax_measure M rank hrank top.2 b a (by rw [hb.1]; exact hadj _ _ ha)
        exact Nat.le_trans this hb.2)
      { minW := st.minW, pq := st.pq.erase top } ⟨rfl, Nat.le_refl _⟩
    have := key.2
    omega

theorem dijkstraLoop_done (rank : W → Nat)
    (hrank : ∀ a w b, M.lt (M.add a w) b = true → rank (M.add a w) < rank b)
    (adj : List (List Flight)) (n : Nat)
    (hadj : ∀ u f, f ∈ adj.getD u [] → f.destination < n) :
    ∀ (fuel : Nat) (st : DState W), st.minW.length = n →
      st.pq.length + rankSum rank st.minW < fuel → (dijkstraLoop M adj fuel st).pq = [] := by
  intro fuel
  induction fuel with
  | zero => intro st _ h; omega
  | succ fuel ih =>
    intro st hn h
    simp only [dijkstraLoop]
    split
    · rename_i he
      simpa using he
    · rename_i hne
      have hne1 : st.pq ≠ [] := by simpa using hne
      have := dijkstraStep_measure M rank hrank adj st (fun u f hf => hn ▸ hadj u f hf) hne1
      exact ih _ (by rw [dijkstraStep_length]; exact hn) (by omega)

theorem dijkstraLoop_stable (adj : List (List Flight)) :
    ∀ (fuel : Nat) (st : DState W), (dijkstraLoop M adj fuel st).pq = [] →
      ∀ more, dijkstraLoop M adj (fuel + more) st = dijkstraLoop M adj fuel st := by
  intro fuel
  induction fuel with
  | zero =>
    intro st h more
    simp only [dijkstraLoop] at h
    cases more with
    | zero => rfl
    | succ more => simp [dijkstraLoop, h]
  | succ fuel ih =>
    intro st h more
    have e : fuel + 1 + more = (fuel + more) + 1 := by omega
    rw [e]
    simp only [dijkstraLoop] at h ⊢
    split
    · rfl
    · rename_i hne
      rw [if_neg hne] at h
      exact ih _ h more

end Loop

/-! ### The two instances satisfy the termination condition -/

set_option exponentiation.threshold 600

theorem wrap32_range (x : Int) : -2147483648 ≤ wrap32 x ∧ wrap32 x ≤ 2147483647 := by
  unfold wrap32
  omega

theorem wrap32_of_range {x : Int} (h1 : -2147483648 ≤ x) (h2 : x ≤ 2147483647) :
    wrap32 x = x := by
  unfold wrap32
  omega

theorem rankInt_le (x : Int) : rankInt x ≤ 2 ^ 32 := by
  unfold rankInt
  omega

theorem costMetric_rank (a w b : Int)
    (h : costMetric.lt (costMetric.add a w) b = true) :
    rankInt (costMetric.add a w) < rankInt b := by
  simp only [costMetric, decide_eq_true_eq] at h ⊢
  have := wrap32_range (a + w)
  unfold rankInt
  omega

theorem F32.maxUnits_lt : (F32.maxUnits : Int) < 2 ^ 277 := by
  unfold F32.maxUnits
  norm_num

theorem F32.round_cases (s : Int) :
    F32.round s = F32.ninf ∨ F32.round s = F32.pinf ∨
      ∃ r : Int, F32.round s = F32.fin r ∧ -(F32.maxUnits : Int) ≤ r ∧ r ≤ F32.maxUnits := by
  unfold F32.round
  simp only
  split
  · split
    · exact Or.inl rfl
    · exact Or.inr (Or.inl rfl)
  · rename_i h
    refine Or.inr (Or.inr ⟨_, rfl, ?_, ?_⟩)
    · split <;> omega
    · split <;> omega

theorem F32.add_cases (a w : F32) :
    F32.add a w = F32.nan ∨ F32.add a w = F32.ninf ∨ F32.add a w = F32.pinf ∨
      ∃ r : Int, F32.add a w = F32.fin r ∧ -(F32.maxUnits : Int) ≤ r ∧ r ≤ F32.maxUnits := by
  cases a <;> cases w <;> simp only [F32.add, true_or, or_true]
  rename_i x y
  rcases F32.round_cases (x + y) with h | h | h
  · exact Or.inr (Or.inl h)
  · exact Or.inr (Or.inr (Or.inl h))
  · exact Or.inr (Or.inr (Or.inr h))

theorem F32.rank_le (x : F32) : F32.rank x ≤ 2 ^ 278 + 3 := by
  cases x with
  | nan => simp [F32.rank]
  | ninf => simp [F32.rank]
  | pinf => simp [F32.rank]
  | fin m =>
    simp only [F32.rank]
    have e2 : (((2 : Nat) ^ 278 : Nat) : Int) = (2 : Int) ^ 277 + (2 : Int) ^ 277 := by
      norm_num
    generalize (2 : Int) ^ 277 = C at *
    generalize (2 : Nat) ^ 278 = N at *
    omega

theorem distanceMetric_rank (a w b : F32)
    (h : distanceMetric.lt (distanceMetric.add a w) b = true) :
    F32.rank (distanceMetric.add a w) < F32.rank b := by
  simp only [distanceMetric] at h ⊢
  have hm := F32.maxUnits_lt
  have e2 : (((2 : Nat) ^ 278 : Nat) : Int) = (2 : Int) ^ 277 + (2 : Int) ^ 277 := by
    norm_num
  have hpos : (0 : Int) < 2 ^ 277 := by norm_num
  rcases F32.add_cases a w with h1 | h1 | h1 | ⟨r, h1, hr1, hr2⟩ <;> rw [h1] at h ⊢
  · simp [F32.lt] at h
  · cases b <;> simp [F32.lt] at h <;> simp [F32.rank]
  · cases b <;> simp [F32.lt] at h
  · cases b with
    | nan => simp [F32.lt] at h
    | ninf => simp [F32.lt] at h
    | pinf =>
      simp only [F32.rank]
      generalize (2 : Int) ^ 277 = C at *
      generalize (2 : Nat) ^ 278 = N at *
      omega
    | fin m =>
      simp only [F32.lt, decide_eq_true_eq] at h
      simp only [F32.rank]
      generalize (2 : Int) ^ 277 = C at *
      omega

/-! ### Shape of a query -/

section Run
variable {W : Type} [DecidableEq W] (M : Metric W)

theorem dijkstra_unknown (bound : Nat) (g : FlightGraph) (source : String)
    (h : mapFind g.cityIndex source = none) : dijkstra M bound g source = (g, []) := by
  simp [dijkstra, h]

theorem dijkstra_known (bound : Nat) (g : FlightGraph) (source : String) (i : Nat)
    (h : mapFind g.cityIndex source = some i) :
    dijkstra M bound g source =
      (g, (dijkstraLoop M g.adjList (g.numCities * bound + 2)
        (dijkstraStart M g.numCities i)).minW) := by
  simp [dijkstra, h, mapSubscript_of_find h]

theorem dijkstra_fst (bound : Nat) (g : FlightGraph) (source : String) :
    (dijkstra M bound g source).1 = g := by
  cases h : mapFind g.cityIndex source with
  | none => rw [dijkstra_unknown M bound g source h]
  | some i => rw [dijkstra_known M bound g source i h]

theorem dijkstraStart_length (n i : Nat) : (dijkstraStart M n i).minW.length = n := by
  simp [dijkstraStart]

/-- Proof rule for a query from a known source on a well-formed store: the loop runs
until the queue is empty, and a property that holds at the start and is kept by the
loop body holds of the state that yields the result. -/
theorem dijkstra_run (rank : W → Nat) (bound : Nat)
    (hrank : ∀ a w b, M.lt (M.add a w) b = true → rank (M.add a w) < rank b)
    (hbound : ∀ x, rank x ≤ bound)
    (g : FlightGraph) (hw : g.WF) (source : String) (i : Nat)
    (hfind : mapFind g.cityIndex source = some i)
    (P : DState W → Prop) (hinit : P (dijkstraStart M g.numCities i))
    (hstep : ∀ st, st.minW.length = g.numCities → P st → st.pq ≠ [] →
      P (dijkstraStep M g.adjList st)) :
    ∃ final : DState W, final.pq = [] ∧ P final ∧ final.minW.length = g.numCities ∧
      dijkstra M bound g source = (g, final.minW) := by
  refine ⟨dijkstraLoop M g.adjList (g.numCities * bound + 2) (dijkstraStart M g.numCities i),
    ?_, ?_, ?_, dijkstra_known M bound g source i hfind⟩
  · apply dijkstraLoop_done M rank hrank g.adjList g.numCities hw.2.2.2 _ _
      (dijkstraStart_length M _ _)
    have h1 := rankSum_le rank bound hbound (dijkstraStart M g.numCities i).minW
    rw [dijkstraStart_length] at h1
    have h2 : (dijkstraStart M g.numCities i).pq.length = 1 := by simp [dijkstraStart]
    omega
  · have := dijkstraLoop_inv M g.adjList
      (fun st : DState W => st.minW.length = g.numCities ∧ P st)
      (fun st hst hne => ⟨by rw [dijkstraStep_length]; exact hst.1, hstep st hst.1 hst.2 hne⟩)
      (g.numCities * bound + 2) _ ⟨dijkstraStart_length M _ _, hinit⟩
    exact this.2
  · rw [dijkstraLoop_length, dijkstraStart_length]

end Run

/-- The loop of a query from a known source on a well-formed store ends: with the
number of iterations that `dijkstra` allows the queue is empty, and allowing more
iterations changes nothing. -/
theorem dijkstra_terminates {W : Type} [DecidableEq W] (M : Metric W) (rank : W → Nat)
    (bound : Nat)
    (hrank : ∀ a w b, M.lt (M.add a w) b = true → rank (M.add a w) < rank b)
    (hbound : ∀ x, rank x ≤ bound)
    (g : FlightGraph) (hw : g.WF) (i : Nat) :
    (dijkstraLoop M g.adjList (g.numCities * bound + 2)
      (dijkstraStart M g.numCities i)).pq = [] ∧
    ∀ more, dijkstraLoop M g.adjList (g.numCities * bound + 2 + more)
        (dijkstraStart M g.numCities i) =
      dijkstraLoop M g.adjList (g.numCities * bound + 2) (dijkstraStart M g.numCities i) := by
  have h : (dijkstraLoop M g.adjList (g.numCities * bound + 2)
      (dijkstraStart M g.numCities i)).pq = [] := by
    apply dijkstraLoop_done M rank hrank g.adjList g.numCities hw.2.2.2 _ _
      (dijkstraStart_length M _ _)
    have h1 := rankSum_le rank bound hbound (dijkstraStart M g.numCities i).minW
    rw [dijkstraStart_length] at h1
    have h2 : (dijkstraStart M g.numCities i).pq.length = 1 := by simp [dijkstraStart]
    omega
  exact ⟨h, dijkstraLoop_stable M g.adjList _ _ h⟩

theorem dijkstraCost_run (g : FlightGraph) (hw : g.WF) (source : String) (i : Nat)
    (hfind : mapFind g.cityIndex source = some i)
    (P : DState Int → Prop) (hinit : P (dijkstraStart costMetric g.numCities i))
    (hstep : ∀ st, st.minW.length = g.numCities → P st → st.pq ≠ [] →
      P (dijkstraStep costMetric g.adjList st)) :
    ∃ final : DState Int, final.pq = [] ∧ P final ∧ final.minW.length = g.numCities ∧
      g.dijkstraCost source = (g, final.minW) :=
  dijkstra_run costMetric rankInt (2 ^ 32) costMetric_rank rankInt_le g hw source i hfind P
    hinit hstep

theorem dijkstraDistance_run (g : FlightGraph) (hw : g.WF) (source : String) (i : Nat)
    (hfind : mapFind g.cityIndex source = some i)
    (P : DState F32 → Prop) (hinit : P (dijkstraStart distanceMetric g.numCities i))
    (hstep : ∀ st, st.minW.length = g.numCities → P st → st.pq ≠ [] →
      P (dijkstraStep distanceMetric g.adjList st)) :
    ∃ final : DState F32, final.pq = [] ∧ P final ∧ final.minW.length = g.numCities ∧
      g.dijkstraDistance source = (g, final.minW) :=
  dijkstra_run distanceMetric F32.rank (2 ^ 278 + 3) distanceMetric_rank F32.rank_le g hw
    source i hfind P hinit hstep

theorem build_example : build 3 exampleOps = some exampleGraph := rfl

/-! ## Failure cases and frame properties of the store and of the queries -/

/-- C3: a query from an unknown source returns the empty vector for both metrics, and a
query from a known source on a built store returns a vector of exactly `numCities`
entries with `numCities >= 1`, so that the two outcomes cannot be confused. -/
theorem unknown_source_is_distinguishable (cities : Nat) (ops : List Op) (g : FlightGraph)
    (source : String) (hb : build cities ops = some g) :
    (mapFind g.cityIndex source = none →
      (g.dijkstraCost source).2 = [] ∧ (g.dijkstraDistance source).2 = []) ∧
    (mapFind g.cityIndex source ≠ none →
      1 ≤ g.numCities ∧ (g.dijkstraCost source).2.length = g.numCities ∧
      (g.dijkstraDistance source).2.length = g.numCities ∧
      (g.dijkstraCost source).2 ≠ [] ∧ (g.dijkstraDistance source).2 ≠ []) := by
  have hw := build_WF hb
  constructor
  · intro h
    exact ⟨by rw [FlightGraph.dijkstraCost, dijkstra_unknown _ _ _ _ h],
      by rw [FlightGraph.dijkstraDistance, dijkstra_unknown _ _ _ _ h]⟩
  · intro h
    obtain ⟨i, hi⟩ := Option.ne_none_iff_exists'.mp h
    have hpos : 1 ≤ g.numCities := by
      have := hw.2.2.1 source i hi
      omega
    obtain ⟨fc, _, _, hlc, hc⟩ := dijkstraCost_run g hw source i hi (fun _ => True) trivial
      (fun _ _ _ _ => trivial)
    obtain ⟨fd, _, _, hld, hd⟩ := dijkstraDistance_run g hw source i hi (fun _ => True) trivial
      (fun _ _ _ _ => trivial)
    rw [hc, hd]
    refine ⟨hpos, hlc, hld, ?_, ?_⟩
    · intro h0
      simp only at h0
      rw [h0] at hlc
      simp at hlc
      omega
    · intro h0
      simp only at h0
      rw [h0] at hld
      simp at hld
      omega

theorem unknown_source_is_distinguishable_witness :
    build 3 exampleOps = some exampleGraph ∧
    ((mapFind exampleGraph.cityIndex "B" = none →
      (exampleGraph.dijkstraCost "B").2 = [] ∧ (exampleGraph.dijkstraDistance "B").2 = []) ∧
    (mapFind exampleGraph.cityIndex "B" ≠ none →
      1 ≤ exampleGraph.numCities ∧
      (exampleGraph.dijkstraCost "B").2.length = exampleGraph.numCities ∧
      (exampleGraph.dijkstraDistance "B").2.length = exampleGraph.numCities ∧
      (exampleGraph.dijkstraCost "B").2 ≠ [] ∧ (exampleGraph.dijkstraDistance "B").2 ≠ [])) :=
  ⟨build_example, unknown_source_is_distinguishable 3 exampleOps exampleGraph "B" build_example⟩

/-- C4: `addFlight` with an unregistered endpoint leaves the whole store (adjacency
lists, name map, name list) exactly as it was; in particular no entry is added in one
direction only and no name is inserted into the map. -/
theorem addFlight_unknown_city_has_no_effect (g : FlightGraph) (u v : String) (cost : Int)
    (distance duration : F32)
    (h : mapFind g.cityIndex u = none ∨ mapFind g.cityIndex v = none) :
    g.addFlight u v cost distance duration = g :=
  addFlight_of_not_find cost distance duration h

theorem addFlight_unknown_city_has_no_effect_witness :
    (mapFind exampleGraph.cityIndex "A" = none ∨ mapFind exampleGraph.cityIndex "Z" = none) ∧
    exampleGraph.addFlight "A" "Z" 70 (F32.ofNat 9) (F32.ofNat 1) = exampleGraph :=
  ⟨Or.inr rfl, addFlight_unknown_city_has_no_effect exampleGraph "A" "Z" 70 (F32.ofNat 9)
    (F32.ofNat 1) (Or.inr rfl)⟩

/-- C5: on a built store, `addFlight` between two registered names with indices `i` and
`j` appends the entry with destination `j` to the end of list `i` and the entry with
destination `i` and the same three values to the end of list `j` (both to the one list,
in this order, when `i = j`), and changes nothing else; the three values are stored as
given, whatever they are. -/
theorem addFlight_appends_both_directions (cities : Nat) (ops : List Op) (g : FlightGraph)
    (u v : String) (i j : Nat) (cost : Int) (distance duration : F32)
    (hb : build cities ops = some g)
    (hu : mapFind g.cityIndex u = some i) (hv : mapFind g.cityIndex v = some j) :
    (g.addFlight u v cost distance duration).cityIndex = g.cityIndex ∧
    (g.addFlight u v cost distance duration).cityNames = g.cityNames ∧
    (g.addFlight u v cost distance duration).numCities = g.numCities ∧
    (g.addFlight u v cost distance duration).adjList.length = g.adjList.length ∧
    (∀ k, k ≠ i → k ≠ j →
      (g.addFlight u v cost distance duration).adjList.getD k [] = g.adjList.getD k []) ∧
    (i ≠ j →
      (g.addFlight u v cost distance duration).adjList.getD i [] =
        g.adjList.getD i [] ++ [⟨j, cost, distance, duration⟩] ∧
      (g.addFlight u v cost distance duration).adjList.getD j [] =
        g.adjList.getD j [] ++ [⟨i, cost, distance, duration⟩]) ∧
    (i = j →
      (g.addFlight u v cost distance duration).adjList.getD i [] =
        g.adjList.getD i [] ++
          [⟨i, cost, distance, duration⟩, ⟨i, cost, distance, duration⟩]) := by
  have hw := build_WF hb
  have hg := addFlight_getD cost distance duration hw hu hv
  refine ⟨?_, ?_, ?_, ?_, ?_, ?_, ?_⟩
  · rw [addFlight_of_find cost distance duration hu hv]
  · rw [addFlight_of_find cost distance duration hu hv]
  · rw [addFlight_of_find cost distance duration hu hv]
  · rw [addFlight_of_find cost distance duration hu hv]
    simp [emplaceBack_length]
  · intro k hki hkj
    rw [hg k]
    simp [hki, hkj]
  · intro hij
    constructor
    · rw [hg i]
      simp [hij]
    · rw [hg j]
      have : ¬ j = i := fun h => hij h.symm
      simp [this]
  · intro hij
    subst hij
    rw [hg i]
    simp

theorem addFlight_appends_both_directions_witness :
    build 3 exampleOps = some exampleGraph ∧
    mapFind exampleGraph.cityIndex "A" = some 0 ∧
    mapFind exampleGraph.cityIndex "C" = some 2 ∧
    (exampleGraph.addFlight "A" "C" (-7) F32.zero F32.nan).adjList.getD 2 [] =
      exampleGraph.adjList.getD 2 [] ++ [⟨0, -7, F32.zero, F32.nan⟩] :=
  ⟨build_example, rfl, rfl,
    ((addFlight_appends_both_directions 3 exampleOps exampleGraph "A" "C" 0 2 (-7) F32.zero
      F32.nan build_example rfl rfl).2.2.2.2.2.1 (by decide)).2⟩

/-- C10: both queries return the store unchanged, for every store and every source name,
known or not (the subscript on the name map is only reached for a name that is a key, so
it inserts nothing); hence a query repeated on the store left by a query returns the same
vector, and the cost query and the distance query do not affect each other in either
order. -/
theorem queries_are_read_only (g : FlightGraph) (source : String) :
    (g.dijkstraCost source).1 = g ∧ (g.dijkstraDistance source).1 = g ∧
    ((g.dijkstraCost source).1.dijkstraCost source).2 = (g.dijkstraCost source).2 ∧
    ((g.dijkstraDistance source).1.dijkstraDistance source).2 = (g.dijkstraDistance source).2 ∧
    ((g.dijkstraCost source).1.dijkstraDistance source).2 = (g.dijkstraDistance source).2 ∧
    ((g.dijkstraDistance source).1.dijkstraCost source).2 = (g.dijkstraCost source).2 := by
  have h1 : (g.dijkstraCost source).1 = g := dijkstra_fst _ _ g source
  have h2 : (g.dijkstraDistance source).1 = g := dijkstra_fst _ _ g source
  refine ⟨h1, h2, ?_, ?_, ?_, ?_⟩
  · rw [h1]
  · rw [h2]
  · rw [h1]
  · rw [h2]

/-! ## Walks -/

theorem IsWalk_snoc (adj : List (List Flight)) :
    ∀ (p : List Flight) (u x : Nat) (f : Flight), IsWalk adj u p x → f ∈ adj.getD x [] →
      IsWalk adj u (p ++ [f]) f.destination := by
  intro p
  induction p with
  | nil =>
    intro u x f h hf
    simp only [IsWalk] at h
    subst h
    exact ⟨hf, rfl⟩
  | cons e p ih =>
    intro u x f h hf
    exact ⟨h.1, ih _ _ f h.2 hf⟩

theorem IsWalk_snoc_inv (adj : List (List Flight)) :
    ∀ (p : List Flight) (u v : Nat) (f : Flight), IsWalk adj u (p ++ [f]) v →
      ∃ x, IsWalk adj u p x ∧ f ∈ adj.getD x [] ∧ f.destination = v := by
  intro p
  induction p with
  | nil =>
    intro u v f h
    exact ⟨u, rfl, h.1, h.2⟩
  | cons e p ih =>
    intro u v f h
    obtain ⟨x, hx, hf, hd⟩ := ih _ _ f h.2
    exact ⟨x, ⟨h.1, hx⟩, hf, hd⟩

theorem Reachable_refl (adj : List (List Flight)) (s : Nat) : Reachable adj s s := ⟨[], rfl⟩

theorem Reachable_step {adj : List (List Flight)} {s x : Nat} {f : Flight}
    (h : Reachable adj s x) (hf : f ∈ adj.getD x []) : Reachable adj s f.destination := by
  obtain ⟨p, hp⟩ := h
  exact ⟨p ++ [f], IsWalk_snoc adj p s x f hp hf⟩

theorem IsWalk_last (adj : List (List Flight)) :
    ∀ (p : List Flight) (u v : Nat), IsWalk adj u p v → u ≠ v →
      ∃ x f, f ∈ adj.getD x [] ∧ f.destination = v := by
  intro p
  induction p using List.reverseRecOn with
  | nil =>
    intro u v h hne
    exact absurd h hne
  | append_singleton p f _ =>
    intro u v h _
    obtain ⟨x, _, hf, hd⟩ := IsWalk_snoc_inv adj p u v f h
    exact ⟨x, f, hf, hd⟩

theorem pathCost_append (p : List Flight) (f : Flight) :
    pathCost (p ++ [f]) = pathCost p + f.cost := by
  simp [pathCost]

theorem getElem?_of_getD {α : Type} (l : List α) (v : Nat) (d x : α) (hv : v < l.length)
    (h : l.getD v d = x) : l[v]? = some x := by
  rw [List.getD_eq_getElem?_getD, List.getElem?_eq_getElem hv] at h
  rw [List.getElem?_eq_getElem hv]
  simpa using h

/-! ## Unreachable cities are never written -/

section Reach
variable {W : Type} [DecidableEq W] (M : Metric W)

theorem relax_OnlyReachable (adj : List (List Flight)) (s u : Nat) (st : DState W)
    (f : Flight) (hu : Reachable adj s u) (hf : f ∈ adj.getD u [])
    (h : OnlyReachable M adj s st) : OnlyReachable M adj s (relax M u st f) := by
  simp only [relax]
  split
  · refine ⟨?_, ?_⟩
    · intro v hv
      have hne : f.destination ≠ v := by
        intro e
        exact hv (e ▸ Reachable_step hu hf)
      simp only
      rw [getD_set_other _ _ _ _ _ hne]
      exact h.1 v hv
    · intro x hx
      simp only [List.mem_cons] at hx
      rcases hx with hx | hx
      · rw [hx]; exact Reachable_step hu hf
      · exact h.2 x hx
  · exact h

theorem dijkstraStep_OnlyReachable (adj : List (List Flight)) (s : Nat) (st : DState W)
    (h : OnlyReachable M adj s st) (hne : st.pq ≠ []) :
    OnlyReachable M adj s (dijkstraStep M adj st) := by
  obtain ⟨top, htop⟩ := pqTop_of_ne_nil M hne
  have hmem := pqTop_mem M htop
  have hpop : OnlyReachable M adj s { minW := st.minW, pq := st.pq.erase top } :=
    ⟨h.1, fun x hx => h.2 x (List.mem_of_mem_erase hx)⟩
  rw [dijkstraStep_eq M adj st htop]
  split
  · exact hpop
  · exact foldl_inv (OnlyReachable M adj s) _ _
      (fun b a ha hb => relax_OnlyReachable M adj s top.2 b a (h.2 top hmem) ha hb) _ hpop

theorem dijkstraStart_OnlyReachable (adj : List (List Flight)) (n s : Nat) :
    OnlyReachable M adj s (dijkstraStart M n s) := by
  refine ⟨?_, ?_⟩
  · intro v hv
    have hne : s ≠ v := fun e => hv (e ▸ Reachable_refl adj s)
    simp only [dijkstraStart]
    rw [getD_set_other _ _ _ _ _ hne, List.getD_eq_getElem?_getD, List.getElem?_replicate]
    split <;> rfl
  · intro x hx
    simp only [dijkstraStart, List.mem_singleton] at hx
    rw [hx]
    exact Reachable_refl adj s

end Reach

theorem build_isolated : build 4 isolatedOps = some isolatedGraph := rfl

/-- C2: on a built store and for a known source, a city that no sequence of flights
reaches from the source holds `INT_MAX` in the result of `dijkstraCost` and the `float`
maximum in the result of `dijkstraDistance`; in particular so does every city other than
the source that has no flight. -/
theorem unreachable_cities_keep_sentinel (cities : Nat) (ops : List Op) (g : FlightGraph)
    (source : String) (i v : Nat) (hb : build cities ops = some g)
    (hs : mapFind g.cityIndex source = some i) (hv : v < g.numCities) :
    (¬ Reachable g.adjList i v →
      (g.dijkstraCost source).2[v]? = some INT_MAX ∧
      (g.dijkstraDistance source).2[v]? = some F32.max) ∧
    (v ≠ i → g.adjList.getD v [] = [] →
      (g.dijkstraCost source).2[v]? = some INT_MAX ∧
      (g.dijkstraDistance source).2[v]? = some F32.max) := by
  have hw := build_WF hb
  have hsym := build_Sym hb
  have main : ¬ Reachable g.adjList i v →
      (g.dijkstraCost source).2[v]? = some INT_MAX ∧
      (g.dijkstraDistance source).2[v]? = some F32.max := by
    intro hnr
    obtain ⟨fc, _, hPc, hlc, hc⟩ := dijkstraCost_run g hw source i hs
      (OnlyReachable costMetric g.adjList i) (dijkstraStart_OnlyReachable _ _ _ _)
      (fun st _ h hne => dijkstraStep_OnlyReachable _ _ _ st h hne)
    obtain ⟨fd, _, hPd, hld, hd⟩ := dijkstraDistance_run g hw source i hs
      (OnlyReachable distanceMetric g.adjList i) (dijkstraStart_OnlyReachable _ _ _ _)
      (fun st _ h hne => dijkstraStep_OnlyReachable _ _ _ st h hne)
    rw [hc, hd]
    exact ⟨getElem?_of_getD _ v _ _ (hlc ▸ hv) (hPc.1 v hnr),
      getElem?_of_getD _ v _ _ (hld ▸ hv) (hPd.1 v hnr)⟩
  refine ⟨main, ?_⟩
  intro hvi hempty
  apply main
  rintro ⟨p, hp⟩
  obtain ⟨x, f, hf, hfd⟩ := IsWalk_last g.adjList p i v hp (fun e => hvi e.symm)
  obtain ⟨f1, hf1, _⟩ := hsym x f hf
  rw [hfd, hempty] at hf1
  simp at hf1

theorem unreachable_cities_keep_sentinel_witness :
    build 4 isolatedOps = some isolatedGraph ∧
    mapFind isolatedGraph.cityIndex "A" = some 0 ∧ 3 < isolatedGraph.numCities ∧
    (isolatedGraph.dijkstraCost "A").2[3]? = some INT_MAX ∧
    (isolatedGraph.dijkstraDistance "A").2[3]? = some F32.max :=
  ⟨build_isolated, rfl, by decide,
    (unreachable_cities_keep_sentinel 4 isolatedOps isolatedGraph "A" 0 3 build_isolated rfl
      (by decide)).2 (by decide) rfl⟩

/-! ## Rounding is monotone -/

theorem log2_mono {a b : Nat} (ha : a ≠ 0) (h : a ≤ b) : Nat.log2 a ≤ Nat.log2 b := by
  have h1 : a < 2 ^ (Nat.log2 b + 1) := Nat.lt_of_le_of_lt h Nat.lt_log2_self
  have := (Nat.log2_lt ha).mpr h1
  omega

theorem log2_half {a : Nat} (h : 2 ≤ a) : Nat.log2 a = Nat.log2 (a / 2) + 1 := by
  have ha : a ≠ 0 := by omega
  have hh : a / 2 ≠ 0 := by omega
  have h1 : 2 ^ Nat.log2 (a / 2) ≤ a / 2 := Nat.log2_self_le hh
  have h2 : a / 2 < 2 ^ (Nat.log2 (a / 2) + 1) := Nat.lt_log2_self
  have h3 : Nat.log2 a < Nat.log2 (a / 2) + 2 := by
    rw [Nat.log2_lt ha, pow_succ]
    omega
  have h4 : ¬ Nat.log2 a < Nat.log2 (a / 2) + 1 := by
    rw [Nat.log2_lt ha, pow_succ]
    omega
  omega

theorem F32.excess_eq : ∀ (fuel a : Nat), a ≤ fuel → F32.excess fuel a = Nat.log2 a - 23 := by
  intro fuel
  induction fuel with
  | zero =>
    intro a h
    have : a = 0 := by omega
    subst this
    simp [F32.excess, Nat.log2]
  | succ fuel ih =>
    intro a h
    simp only [F32.excess]
    split
    · rename_i hlt
      by_cases ha : a = 0
      · subst ha; simp [Nat.log2]
      · have : Nat.log2 a < 24 := (Nat.log2_lt ha).mpr hlt
        omega
    · rename_i hge
      have h24 : (2 : Nat) ^ 24 ≤ a := by omega
      have h2 : 2 ≤ a := by
        have : (2 : Nat) ≤ 2 ^ 24 := by norm_num
        omega
      rw [ih (a / 2) (by omega), log2_half h2]
      have hh : a / 2 ≠ 0 := by omega
      have : ¬ Nat.log2 (a / 2) < 23 := by
        rw [Nat.log2_lt hh]
        omega
      omega

/-- Shape of `roundNat` above the exact range: with `j = log2 a - 23`, the argument is
`q * 2^j + r` with a 24-bit `q`, and the result is `q * 2^j` or `(q + 1) * 2^j`. -/
theorem F32.roundNat_big (a : Nat) (h : 2 ^ 24 ≤ a) :
    ∃ q r : Nat, a = q * 2 ^ (Nat.log2 a - 23) + r ∧ r < 2 ^ (Nat.log2 a - 23) ∧
      2 ^ 23 ≤ q ∧ q < 2 ^ 24 ∧ 24 ≤ Nat.log2 a ∧
      F32.roundNat a =
        (if (decide (2 ^ (Nat.log2 a - 23) < 2 * r) ||
            (decide (2 * r = 2 ^ (Nat.log2 a - 23)) && decide (q % 2 = 1))) = true
          then q + 1 else q) * 2 ^ (Nat.log2 a - 23) := by
  have ha : a ≠ 0 := by
    intro e; rw [e] at h; norm_num at h
  have hL : 24 ≤ Nat.log2 a := by
    by_contra hc
    have : Nat.log2 a < 24 := by omega
    have := (Nat.log2_lt ha).mp this
    omega
  have hlo : 2 ^ Nat.log2 a ≤ a := Nat.log2_self_le ha
  have hhi : a < 2 ^ (Nat.log2 a + 1) := Nat.lt_log2_self
  have hj : Nat.log2 a = (Nat.log2 a - 23) + 23 := by omega
  have hpos : 0 < 2 ^ (Nat.log2 a - 23) := Nat.pow_pos (by norm_num)
  refine ⟨a / 2 ^ (Nat.log2 a - 23), a % 2 ^ (Nat.log2 a - 23), ?_, ?_, ?_, ?_, hL, ?_⟩
  · rw [Nat.mul_comm]; exact (Nat.div_add_mod a _).symm
  · exact Nat.mod_lt _ hpos
  · rw [Nat.le_div_iff_mul_le hpos, ← pow_add]
    have e : 23 + (Nat.log2 a - 23) = Nat.log2 a := by omega
    rw [e]; exact hlo
  · rw [Nat.div_lt_iff_lt_mul hpos, ← pow_add]
    have e : 24 + (Nat.log2 a - 23) = Nat.log2 a + 1 := by omega
    rw [e]; exact hhi
  · unfold F32.roundNat
    rw [if_neg (by omega)]
    simp only [F32.excess_eq a a (Nat.le_refl a)]

theorem F32.roundNat_small (a : Nat) (h : a < 2 ^ 24) : F32.roundNat a = a := by
  unfold F32.roundNat
  rw [if_pos h]

theorem F32.roundNat_bounds (a : Nat) (h : 2 ^ 24 ≤ a) :
    2 ^ Nat.log2 a ≤ F32.roundNat a ∧ F32.roundNat a ≤ 2 ^ (Nat.log2 a + 1) := by
  obtain ⟨q, r, _, _, hq1, hq2, hL, hr⟩ := F32.roundNat_big a h
  have e1 : 2 ^ Nat.log2 a = 2 ^ 23 * 2 ^ (Nat.log2 a - 23) := by
    rw [← pow_add]; congr 1; omega
  have e2 : 2 ^ (Nat.log2 a + 1) = 2 ^ 24 * 2 ^ (Nat.log2 a - 23) := by
    rw [← pow_add]; congr 1; omega
  rw [hr, e1, e2]
  constructor
  · apply Nat.mul_le_mul_right
    split <;> omega
  · apply Nat.mul_le_mul_right
    split <;> omega

theorem F32.roundNat_mono {a b : Nat} (h : a ≤ b) : F32.roundNat a ≤ F32.roundNat b := by
  by_cases ha : a < 2 ^ 24
  · rw [F32.roundNat_small a ha]
    by_cases hb : b < 2 ^ 24
    · rw [F32.roundNat_small b hb]; exact h
    · have hb1 : 2 ^ 24 ≤ b := by omega
      have := (F32.roundNat_bounds b hb1).1
      have h2 : 2 ^ 24 ≤ 2 ^ Nat.log2 b := by
        apply Nat.pow_le_pow_right (by norm_num)
        obtain ⟨_, _, _, _, _, _, hL, _⟩ := F32.roundNat_big b hb1
        exact hL
      omega
  · have ha1 : 2 ^ 24 ≤ a := by omega
    have hb1 : 2 ^ 24 ≤ b := by omega
    have ha0 : a ≠ 0 := by intro e; rw [e] at ha1; norm_num at ha1
    have hlog := log2_mono ha0 h
    rcases Nat.lt_or_ge (Nat.log2 a) (Nat.log2 b) with hlt | hge
    · have h1 := (F32.roundNat_bounds a ha1).2
      have h2 := (F32.roundNat_bounds b hb1).1
      have h3 : 2 ^ (Nat.log2 a + 1) ≤ 2 ^ Nat.log2 b :=
        Nat.pow_le_pow_right (by norm_num) hlt
      omega
    · have he : Nat.log2 a = Nat.log2 b := by omega
      obtain ⟨qa, ra, ea, hra, _, _, _, hRa⟩ := F32.roundNat_big a ha1
      obtain ⟨qb, rb, eb, hrb, _, _, _, hRb⟩ := F32.roundNat_big b hb1
      rw [hRa, hRb]
      rw [he] at ea hra ⊢
      generalize 2 ^ (Nat.log2 b - 23) = P at *
      rcases Nat.lt_trichotomy qa qb with hq | hq | hq
      · have h1 : (qa + 1) * P ≤ qb * P := Nat.mul_le_mul_right P hq
        have h2 : (if (decide (P < 2 * ra) || (decide (2 * ra = P) && decide (qa % 2 = 1)))
            = true then qa + 1 else qa) * P ≤ (qa + 1) * P := by
          apply Nat.mul_le_mul_right; split <;> omega
        have h3 : qb * P ≤ (if (decide (P < 2 * rb) ||
            (decide (2 * rb = P) && decide (qb % 2 = 1))) = true then qb + 1 else qb) * P := by
          apply Nat.mul_le_mul_right; split <;> omega
        omega
      · subst hq
        have hr : ra ≤ rb := by omega
        apply Nat.mul_le_mul_right
        by_cases hup : (decide (P < 2 * ra) || (decide (2 * ra = P) && decide (qa % 2 = 1)))
            = true
        · have hup2 : (decide (P < 2 * rb) || (decide (2 * rb = P) && decide (qa % 2 = 1)))
              = true := by
            simp only [Bool.or_eq_true, Bool.and_eq_true, decide_eq_true_eq] at hup ⊢
            omega
          rw [if_pos hup, if_pos hup2]
        · rw [if_neg hup]
          split <;> omega
      · exfalso
        have h1 : (qb + 1) * P ≤ qa * P := Nat.mul_le_mul_right P hq
        have h2 : (qb + 1) * P = qb * P + P := by ring
        omega

/-! ## Order and addition on `float` -/

theorem F32.round_mono {s t : Int} (h : s ≤ t) : F32.le (F32.round s) (F32.round t) = true := by
  unfold F32.round
  simp only
  by_cases hs : s < 0 <;> by_cases ht : t < 0
  · have hm : F32.roundNat t.natAbs ≤ F32.roundNat s.natAbs :=
      F32.roundNat_mono (by omega)
    simp only [hs, ht, if_true]
    split_ifs <;> simp [F32.le] <;> omega
  · simp only [hs, ht, if_true, if_false]
    split_ifs
    · simp [F32.le]
    · simp [F32.le]
    · simp [F32.le]
    · simp only [F32.le, decide_eq_true_eq]
      omega
  · omega
  · have hm : F32.roundNat s.natAbs ≤ F32.roundNat t.natAbs :=
      F32.roundNat_mono (by omega)
    simp only [hs, ht, if_false]
    split_ifs <;> simp [F32.le] <;> omega

theorem F32.round_ne_nan (s : Int) : F32.round s ≠ F32.nan := by
  rcases F32.round_cases s with h | h | ⟨r, h, _⟩ <;> rw [h] <;> simp

theorem F32.round_of_valid {d : Int} (h : F32.isValid (F32.fin d) = true) :
    F32.round d = F32.fin d := by
  simp only [F32.isValid, Bool.and_eq_true, decide_eq_true_eq] at h
  unfold F32.round
  simp only
  rw [h.1, if_neg (by omega)]
  congr 1
  split <;> omega

theorem F32.lt_irrefl (a : F32) : F32.lt a a = false := by
  cases a <;> simp [F32.lt]

theorem F32.lt_trans (a b c : F32) (h1 : F32.lt a b = true) (h2 : F32.lt b c = true) :
    F32.lt a c = true := by
  cases a <;> cases b <;> cases c <;> simp [F32.lt] at h1 h2 ⊢
  omega

theorem F32.ne_nan_of_lt {a b : F32} (h : F32.lt a b = true) : a ≠ F32.nan := by
  cases a <;> cases b <;> simp [F32.lt] at h ⊢

theorem F32.le_of_not_lt {a b : F32} (ha : a ≠ F32.nan) (hb : b ≠ F32.nan)
    (h : F32.lt b a = false) : F32.le a b = true := by
  cases a <;> cases b <;> simp [F32.lt, F32.le] at h ha hb ⊢
  omega

theorem F32.le_trans {a b c : F32} (h1 : F32.le a b = true) (h2 : F32.le b c = true) :
    F32.le a c = true := by
  cases a <;> cases b <;> cases c <;> simp [F32.le] at h1 h2 ⊢
  omega

theorem F32.le_refl {a : F32} (ha : a ≠ F32.nan) : F32.le a a = true := by
  cases a <;> simp [F32.le] at ha ⊢

theorem F32.lt_of_le_of_lt {a b c : F32} (h1 : F32.le a b = true) (h2 : F32.lt b c = true) :
    F32.lt a c = true := by
  cases a <;> cases b <;> cases c <;> simp [F32.le, F32.lt] at h1 h2 ⊢
  omega

theorem F32.ne_nan_of_le {a b : F32} (h : F32.le a b = true) : a ≠ F32.nan ∧ b ≠ F32.nan := by
  cases a <;> cases b <;> simp [F32.le] at h ⊢

theorem F32.ninf_le {b : F32} (hb : b ≠ F32.nan) : F32.le F32.ninf b = true := by
  cases b <;> simp [F32.le] at hb ⊢

theorem F32.le_pinf {a : F32} (ha : a ≠ F32.nan) : F32.le a F32.pinf = true := by
  cases a <;> simp [F32.le] at ha ⊢

theorem F32.add_mono_left {a b w : F32} (h : F32.le a b = true)
    (ha : F32.add a w ≠ F32.nan) (hb : F32.add b w ≠ F32.nan) :
    F32.le (F32.add a w) (F32.add b w) = true := by
  cases a <;> cases b <;> cases w <;>
    first
    | (simp [F32.le, F32.add] at h ha hb ⊢; done)
    | (simp only [F32.add]; exact F32.le_pinf (F32.round_ne_nan _))
    | (simp only [F32.add]; simp only [F32.le, decide_eq_true_eq] at h; exact F32.round_mono (by omega))

theorem F32.zero_add_of_valid {d : F32} (h : F32.isValid d = true) (hn : d ≠ F32.nan) :
    F32.add F32.zero d = d := by
  cases d with
  | nan => exact absurd rfl hn
  | ninf => rfl
  | pinf => rfl
  | fin m =>
    simp only [F32.zero, F32.add, Int.zero_add]
    exact F32.round_of_valid h

/-! ## Label correcting: when the queue is empty every touched city is relaxed -/

section Correcting
variable {W : Type} [DecidableEq W] (M : Metric W)

theorem relax_Corrected (hirr : ∀ a, M.lt a a = false)
    (htrans : ∀ a b c, M.lt a b = true → M.lt b c = true → M.lt a c = true)
    (s t : Nat) (req req1 : Nat → List Flight) (st : DState W) (f : Flight)
    (hv : f.destination < st.minW.length)
    (hreq : ∀ u e, e ∈ req1 u → e ∈ req u ∨ (u = t ∧ e = f))
    (h : Corrected M s req st) : Corrected M s req1 (relax M t st f) := by
  simp only [relax]
  split
  · rename_i hlt
    intro u
    by_cases huv : u = f.destination
    · right; left
      simp only
      rw [huv, getD_set_self _ _ _ _ hv]
      exact List.mem_cons_self _ _
    · have hne : f.destination ≠ u := fun e => huv e.symm
      have hu : (st.minW.set f.destination
          (M.add (st.minW.getD t M.sentinel) (M.weight f))).getD u M.sentinel
          = st.minW.getD u M.sentinel := getD_set_other _ _ _ _ _ hne
      simp only
      rw [hu]
      rcases h u with h1 | h1 | h1
      · exact Or.inl h1
      · exact Or.inr (Or.inl (List.mem_cons_of_mem _ h1))
      · right; right
        intro e he
        unfold EdgeRelaxed
        rw [hu]
        rcases hreq u e he with hr | ⟨hut, hef⟩
        · have hre := h1 e hr
          unfold EdgeRelaxed at hre
          by_cases hed : e.destination = f.destination
          · rw [hed, getD_set_self _ _ _ _ hv]
            rw [hed] at hre
            cases hc : M.lt (M.add (st.minW.getD u M.sentinel) (M.weight e))
                (M.add (st.minW.getD t M.sentinel) (M.weight f)) with
            | false => rfl
            | true =>
              have := htrans _ _ _ hc hlt
              rw [this] at hre
              exact absurd hre (by simp)
          · rw [getD_set_other _ _ _ _ _ (fun x => hed x.symm)]
            exact hre
        · subst hut hef
          rw [getD_set_self _ _ _ _ hv]
          exact hirr _
  · rename_i hlt
    intro u
    rcases h u with h1 | h1 | h1
    · exact Or.inl h1
    · exact Or.inr (Or.inl h1)
    · right; right
      intro e he
      rcases hreq u e he with hr | ⟨hut, hef⟩
      · exact h1 e hr
      · subst hut hef
        unfold EdgeRelaxed
        simpa using hlt

theorem foldl_relax_Corrected (hirr : ∀ a, M.lt a a = false)
    (htrans : ∀ a b c, M.lt a b = true → M.lt b c = true → M.lt a c = true)
    (s t : Nat) (fl : List Flight) :
    ∀ (req req1 : Nat → List Flight) (st : DState W),
      (∀ f ∈ fl, f.destination < st.minW.length) →
      (∀ u e, e ∈ req1 u → e ∈ req u ∨ (u = t ∧ e ∈ fl)) →
      Corrected M s req st → Corrected M s req1 (fl.foldl (relax M t) st) := by
  induction fl with
  | nil =>
    intro req req1 st _ hreq h u
    rcases h u with h1 | h1 | h1
    · exact Or.inl h1
    · exact Or.inr (Or.inl h1)
    · right; right
      intro e he
      rcases hreq u e he with hr | ⟨_, hef⟩
      · exact h1 e hr
      · simp at hef
  | cons f fl ih =>
    intro req req1 st hlen hreq h
    simp only [List.foldl_cons]
    apply ih (fun u => if u = t then f :: req u else req u) req1
    · intro e he
      rw [relax_length]
      exact hlen e (List.mem_cons_of_mem _ he)
    · intro u e he
      rcases hreq u e he with hr | ⟨hut, hef⟩
      · left
        split
        · exact List.mem_cons_of_mem _ hr
        · exact hr
      · simp only [List.mem_cons] at hef
        rcases hef with hef | hef
        · left
          rw [if_pos hut, hef]
          exact List.mem_cons_self _ _
        · exact Or.inr ⟨hut, hef⟩
    · apply relax_Corrected M hirr htrans s t req _ st f (hlen f (List.mem_cons_self _ _)) _ h
      intro u e he
      split at he
      · rename_i hut
        simp only [List.mem_cons] at he
        rcases he with he | he
        · exact Or.inr ⟨hut, he⟩
        · exact Or.inl he
      · exact Or.inl he

theorem dijkstraStep_Corrected (hirr : ∀ a, M.lt a a = false)
    (htrans : ∀ a b c, M.lt a b = true → M.lt b c = true → M.lt a c = true)
    (adj : List (List Flight)) (s : Nat) (st : DState W)
    (hadj : ∀ u f, f ∈ adj.getD u [] → f.destination < st.minW.length)
    (h : Corrected M s (fun u => adj.getD u []) st) (hne : st.pq ≠ []) :
    Corrected M s (fun u => adj.getD u []) (dijkstraStep M adj st) := by
  obtain ⟨top, htop⟩ := pqTop_of_ne_nil M hne
  rw [dijkstraStep_eq M adj st htop]
  split
  · rename_i hstale
    intro u
    rcases h u with h1 | h1 | h1
    · exact Or.inl h1
    · right; left
      have hneq : (st.minW.getD u M.sentinel, u) ≠ top := by
        intro e
        rw [← e] at hstale
        simp only at hstale
        rw [hirr] at hstale
        exact absurd hstale (by simp)
      exact (List.mem_erase_of_ne hneq).mpr h1
    · exact Or.inr (Or.inr h1)
  · apply foldl_relax_Corrected M hirr htrans s top.2 (adj.getD top.2 [])
      (fun u => if u = top.2 then [] else adj.getD u [])
    · intro f hf
      exact hadj _ f hf
    · intro u e he
      by_cases hut : u = top.2
      · right
        exact ⟨hut, hut ▸ he⟩
      · left
        simp only [if_neg hut]
        exact he
    · intro u
      by_cases hut : u = top.2
      · right; right
        intro e he
        simp only [if_pos hut] at he
        simp at he
      · rcases h u with h1 | h1 | h1
        · exact Or.inl h1
        · right; left
          have hneq : (st.minW.getD u M.sentinel, u) ≠ top := by
            intro e
            apply hut
            rw [← e]
          exact (List.mem_erase_of_ne hneq).mpr h1
        · right; right
          intro e he
          simp only [if_neg hut] at he
          exact h1 e he

theorem dijkstraStart_getD_source (n s : Nat) (hs : s < n) :
    (dijkstraStart M n s).minW.getD s M.sentinel = M.zero := by
  simp only [dijkstraStart]
  exact getD_set_self _ _ _ _ (by simpa using hs)

theorem dijkstraStart_getD_other (n s v : Nat) (hv : v ≠ s) :
    (dijkstraStart M n s).minW.getD v M.sentinel = M.sentinel := by
  simp only [dijkstraStart]
  rw [getD_set_other _ _ _ _ _ (fun e => hv e.symm), List.getD_eq_getElem?_getD,
    List.getElem?_replicate]
  split <;> rfl

theorem dijkstraStart_Corrected (req : Nat → List Flight) (n s : Nat) (hs : s < n) :
    Corrected M s req (dijkstraStart M n s) := by
  intro u
  by_cases hus : u = s
  · right; left
    rw [hus, dijkstraStart_getD_source M n s hs]
    simp [dijkstraStart]
  · exact Or.inl ⟨hus, dijkstraStart_getD_other M n s u hus⟩

/-- The entries of the result vector keep a property that the start values have and
that is kept by adding the weight of a flight. -/
theorem relax_all (G : W → Prop) (u : Nat) (st : DState W) (f : Flight)
    (hadd : ∀ a b, G a → M.lt (M.add a (M.weight f)) b = true → G (M.add a (M.weight f)))
    (h : ∀ v, G (st.minW.getD v M.sentinel)) :
    ∀ v, G ((relax M u st f).minW.getD v M.sentinel) := by
  simp only [relax]
  split
  · rename_i hlt
    intro v
    by_cases hlen : f.destination < st.minW.length
    · by_cases hv : f.destination = v
      · subst hv
        simp only
        rw [getD_set_self _ _ _ _ hlen]
        exact hadd _ _ (h u) hlt
      · simp only
        rw [getD_set_other _ _ _ _ _ hv]
        exact h v
    · simp only
      rw [getD_set_out _ _ _ _ _ (by omega)]
      exact h v
  · exact h

theorem dijkstraStep_all (G : W → Prop) (adj : List (List Flight))
    (hadd : ∀ u f, f ∈ adj.getD u [] → ∀ a b, G a →
      M.lt (M.add a (M.weight f)) b = true → G (M.add a (M.weight f)))
    (st : DState W) (h : ∀ v, G (st.minW.getD v M.sentinel)) :
    ∀ v, G ((dijkstraStep M adj st).minW.getD v M.sentinel) := by
  cases htop : pqTop M st.pq with
  | none => simpa [dijkstraStep, htop] using h
  | some top =>
    rw [dijkstraStep_eq M adj st htop]
    split
    · exact h
    · exact foldl_inv (fun s : DState W => ∀ v, G (s.minW.getD v M.sentinel)) _ _
        (fun b a ha hb => relax_all M G top.2 b a (hadd top.2 a ha) hb) _ h

theorem dijkstraStart_all (G : W → Prop) (hz : G M.zero) (hs : G M.sentinel) (n s : Nat) :
    ∀ v, G ((dijkstraStart M n s).minW.getD v M.sentinel) := by
  intro v
  by_cases hv : v = s
  · by_cases hn : s < n
    · rw [hv, dijkstraStart_getD_source M n s hn]; exact hz
    · simp only [dijkstraStart]
      rw [getD_set_out _ _ _ _ _ (by simpa using hn), List.getD_eq_getElem?_getD,
        List.getElem?_replicate]
      split <;> exact hs
  · rw [dijkstraStart_getD_other M n s v hv]; exact hs

end Correcting

/-! ## Entries only decrease -/

section Decreasing
variable {W : Type} [DecidableEq W] (M : Metric W)

theorem relax_Below (htrans : ∀ a b c, M.lt a b = true → M.lt b c = true → M.lt a c = true)
    (ref : Nat → W) (u : Nat) (st : DState W) (f : Flight) (h : Below M ref st) :
    Below M ref (relax M u st f) := by
  simp only [relax]
  split
  · rename_i hlt
    intro v
    by_cases hlen : f.destination < st.minW.length
    · by_cases hv : f.destination = v
      · subst hv
        simp only
        rw [getD_set_self _ _ _ _ hlen]
        right
        rcases h f.destination with h1 | h1
        · rw [← h1]; exact hlt
        · exact htrans _ _ _ hlt h1
      · simp only
        rw [getD_set_other _ _ _ _ _ hv]
        exact h v
    · simp only
      rw [getD_set_out _ _ _ _ _ (by omega)]
      exact h v
  · exact h

theorem dijkstraStep_Below
    (htrans : ∀ a b c, M.lt a b = true → M.lt b c = true → M.lt a c = true)
    (ref : Nat → W) (adj : List (List Flight)) (st : DState W) (h : Below M ref st) :
    Below M ref (dijkstraStep M adj st) := by
  cases htop : pqTop M st.pq with
  | none => simpa [dijkstraStep, htop] using h
  | some top =>
    rw [dijkstraStep_eq M adj st htop]
    split
    · exact h
    · exact foldl_inv (Below M ref) _ _ (fun b a _ hb => relax_Below M htrans ref top.2 b a hb)
        _ h

/-- What holds of the state that yields the result, for any metric whose `<` is a strict
order: the queue is empty, every city is untouched or has all its flights relaxed, the
entry of the source is zero or below zero, and entries keep a property of written
values. -/
theorem dijkstra_post (rank : W → Nat) (bound : Nat)
    (hrank : ∀ a w b, M.lt (M.add a w) b = true → rank (M.add a w) < rank b)
    (hbound : ∀ x, rank x ≤ bound)
    (hirr : ∀ a, M.lt a a = false)
    (htrans : ∀ a b c, M.lt a b = true → M.lt b c = true → M.lt a c = true)
    (G : W → Prop) (hz : G M.zero) (hsen : G M.sentinel)
    (g : FlightGraph) (hw : g.WF)
    (hadd : ∀ u f, f ∈ g.adjList.getD u [] → ∀ a b, G a →
      M.lt (M.add a (M.weight f)) b = true → G (M.add a (M.weight f)))
    (source : String) (i : Nat)
    (hfind : mapFind g.cityIndex source = some i) :
    ∃ final : DState W, final.minW.length = g.numCities ∧
      dijkstra M bound g source = (g, final.minW) ∧
      (∀ u, (u ≠ i ∧ final.minW.getD u M.sentinel = M.sentinel) ∨
        ∀ f ∈ g.adjList.getD u [], EdgeRelaxed M final.minW u f) ∧
      (final.minW.getD i M.sentinel = M.zero ∨
        M.lt (final.minW.getD i M.sentinel) M.zero = true) ∧
      (∀ v, G (final.minW.getD v M.sentinel)) := by
  have hi : i < g.numCities := hw.2.2.1 source i hfind
  obtain ⟨final, hpq, hP, hlen, hres⟩ := dijkstra_run M rank bound hrank hbound g hw source i
    hfind
    (fun st : DState W => Corrected M i (fun u => g.adjList.getD u []) st ∧
      Below M (fun v => (dijkstraStart M g.numCities i).minW.getD v M.sentinel) st ∧
      ∀ v, G (st.minW.getD v M.sentinel))
    ⟨dijkstraStart_Corrected M _ _ _ hi, fun v => Or.inl rfl,
      dijkstraStart_all M G hz hsen _ _⟩
    (fun st hl hst hne =>
      ⟨dijkstraStep_Corrected M hirr htrans g.adjList i st
          (fun u f hf => hl ▸ hw.2.2.2 u f hf) hst.1 hne,
        dijkstraStep_Below M htrans _ g.adjList st hst.2.1,
        dijkstraStep_all M G g.adjList hadd st hst.2.2⟩)
  refine ⟨final, hlen, hres, ?_, ?_, hP.2.2⟩
  · intro u
    rcases hP.1 u with h1 | h1 | h1
    · exact Or.inl h1
    · rw [hpq] at h1; simp at h1
    · exact Or.inr h1
  · have := hP.2.1 i
    simp only [dijkstraStart_getD_source M _ _ hi] at this
    exact this

end Decreasing

theorem dijkstraCost_post (g : FlightGraph) (hw : g.WF) (source : String) (i : Nat)
    (hfind : mapFind g.cityIndex source = some i) :
    ∃ mc : List Int, mc.length = g.numCities ∧ g.dijkstraCost source = (g, mc) ∧
      (∀ u, (u ≠ i ∧ mc.getD u INT_MAX = INT_MAX) ∨
        ∀ f ∈ g.adjList.getD u [], ¬ wrap32 (mc.getD u INT_MAX + f.cost)
          < mc.getD f.destination INT_MAX) ∧
      mc.getD i INT_MAX ≤ 0 ∧
      (∀ v, -2147483648 ≤ mc.getD v INT_MAX ∧ mc.getD v INT_MAX ≤ 2147483647) := by
  obtain ⟨final, hlen, hres, hrel, hsrc, hall⟩ := dijkstra_post costMetric rankInt (2 ^ 32)
    costMetric_rank rankInt_le (fun a => by simp [costMetric])
    (fun a b c h1 h2 => by simp only [costMetric, decide_eq_true_eq] at h1 h2 ⊢; omega)
    (fun x : Int => -2147483648 ≤ x ∧ x ≤ 2147483647)
    (by simp [costMetric]) (by simp [costMetric, INT_MAX]) g hw
    (fun _ f _ a _ _ _ => wrap32_range (a + f.cost)) source i hfind
  refine ⟨final.minW, hlen, hres, ?_, ?_, hall⟩
  · intro u
    rcases hrel u with h1 | h1
    · exact Or.inl h1
    · right
      intro f hf
      have := h1 f hf
      simpa [EdgeRelaxed, costMetric] using this
  · rcases hsrc with h1 | h1
    · have : final.minW.getD i INT_MAX = 0 := h1
      omega
    · have : decide (final.minW.getD i INT_MAX < 0) = true := h1
      simp only [decide_eq_true_eq] at this
      omega

theorem dijkstraDistance_post (g : FlightGraph) (hw : g.WF) (source : String) (i : Nat)
    (hfind : mapFind g.cityIndex source = some i) :
    ∃ md : List F32, md.length = g.numCities ∧ g.dijkstraDistance source = (g, md) ∧
      (∀ u, (u ≠ i ∧ md.getD u F32.max = F32.max) ∨
        ∀ f ∈ g.adjList.getD u [],
          F32.lt (F32.add (md.getD u F32.max) f.distance) (md.getD f.destination F32.max)
            = false) ∧
      F32.le (md.getD i F32.max) F32.zero = true ∧
      (∀ v, md.getD v F32.max ≠ F32.nan) := by
  obtain ⟨final, hlen, hres, hrel, hsrc, hall⟩ := dijkstra_post distanceMetric F32.rank
    (2 ^ 278 + 3) distanceMetric_rank F32.rank_le F32.lt_irrefl F32.lt_trans
    (fun x : F32 => x ≠ F32.nan)
    (by simp [distanceMetric, F32.zero]) (by simp [distanceMetric, F32.max]) g hw
    (fun _ _ _ _ _ _ h => F32.ne_nan_of_lt h) source i hfind
  refine ⟨final.minW, hlen, hres, hrel, ?_, hall⟩
  rcases hsrc with h1 | h1
  · have : final.minW.getD i F32.max = F32.zero := h1
    rw [this]
    rfl
  · have h2 : F32.lt (final.minW.getD i F32.max) F32.zero = true := h1
    revert h2
    cases final.minW.getD i F32.max <;> simp [F32.lt, F32.le, F32.zero]
    intro h
    omega

/-! ## A flight leaving the source bounds the entry of its destination -/

theorem dijkstraCost_source_flight (g : FlightGraph) (hw : g.WF) (source : String) (i : Nat)
    (hfind : mapFind g.cityIndex source = some i) (f : Flight)
    (hf : f ∈ g.adjList.getD i []) (h0 : 0 ≤ f.cost) (h1 : f.cost ≤ INT_MAX) :
    ∃ x, (g.dijkstraCost source).2[f.destination]? = some x ∧ x ≤ f.cost := by
  obtain ⟨mc, hlen, hres, hrel, hsrc, hall⟩ := dijkstraCost_post g hw source i hfind
  have hd : f.destination < mc.length := hlen ▸ hw.2.2.2 i f hf
  refine ⟨mc.getD f.destination INT_MAX, ?_, ?_⟩
  · rw [hres]
    exact getElem?_of_getD _ _ _ _ hd rfl
  · rcases hrel i with h | h
    · exact absurd rfl h.1
    · have h2 := h f hf
      have h3 := hall i
      unfold INT_MAX at h1
      rw [wrap32_of_range (by omega) (by omega)] at h2
      omega

theorem dijkstraDistance_source_flight (g : FlightGraph) (hw : g.WF) (source : String)
    (i : Nat) (hfind : mapFind g.cityIndex source = some i) (f : Flight)
    (hf : f ∈ g.adjList.getD i []) (hval : F32.isValid f.distance = true)
    (hnan : f.distance ≠ F32.nan) :
    ∃ y, (g.dijkstraDistance source).2[f.destination]? = some y ∧
      F32.le y f.distance = true := by
  obtain ⟨md, hlen, hres, hrel, hsrc, hall⟩ := dijkstraDistance_post g hw source i hfind
  have hd : f.destination < md.length := hlen ▸ hw.2.2.2 i f hf
  refine ⟨md.getD f.destination F32.max, ?_, ?_⟩
  · rw [hres]
    exact getElem?_of_getD _ _ _ _ hd rfl
  · rcases hrel i with h | h
    · exact absurd rfl h.1
    · have h2 := h f hf
      have hj := hall f.destination
      by_cases hX : F32.add (md.getD i F32.max) f.distance = F32.nan
      · have hp : f.distance = F32.pinf := by
          revert hsrc hX hnan
          cases md.getD i F32.max <;> cases f.distance <;>
            simp [F32.add, F32.le, F32.zero, F32.round_ne_nan]
        rw [hp]
        exact F32.le_pinf hj
      · have hz : F32.add F32.zero f.distance = f.distance :=
          F32.zero_add_of_valid hval hnan
        have h3 := F32.add_mono_left (w := f.distance) hsrc hX (by rw [hz]; exact hnan)
        rw [hz] at h3
        exact F32.le_trans (F32.le_of_not_lt hj hX h2) h3

/-- C8: after a successful `addFlight(u, v, cost, dist, dur)` on a built store, where
`cost` is a non-negative `int` and `dist` is a `float` that is a number (as every
non-negative distance is), the new flight is usable in both directions with its weight:
the cost from `u` to `v` and from `v` to `u` is at most `cost`, and the distance from `u`
to `v` and from `v` to `u` is at most `dist`.  The other flights of the store may have
any weights. -/
theorem added_flight_usable_both_ways (cities : Nat) (ops : List Op) (g : FlightGraph)
    (u v : String) (i j : Nat) (cost : Int) (distance duration : F32)
    (hb : build cities ops = some g)
    (hu : mapFind g.cityIndex u = some i) (hv : mapFind g.cityIndex v = some j)
    (hc0 : 0 ≤ cost) (hc1 : cost ≤ INT_MAX)
    (hval : F32.isValid distance = true) (hnan : distance ≠ F32.nan) :
    (∃ x, ((g.addFlight u v cost distance duration).dijkstraCost u).2[j]? = some x ∧
      x ≤ cost) ∧
    (∃ x, ((g.addFlight u v cost distance duration).dijkstraCost v).2[i]? = some x ∧
      x ≤ cost) ∧
    (∃ y, ((g.addFlight u v cost distance duration).dijkstraDistance u).2[j]? = some y ∧
      F32.le y distance = true) ∧
    (∃ y, ((g.addFlight u v cost distance duration).dijkstraDistance v).2[i]? = some y ∧
      F32.le y distance = true) := by
  have hw := build_WF hb
  have hw1 := addFlight_WF u v cost distance duration hw
  have hidx : (g.addFlight u v cost distance duration).cityIndex = g.cityIndex := by
    rw [addFlight_of_find cost distance duration hu hv]
  have hu1 : mapFind (g.addFlight u v cost distance duration).cityIndex u = some i := by
    rw [hidx]; exact hu
  have hv1 : mapFind (g.addFlight u v cost distance duration).cityIndex v = some j := by
    rw [hidx]; exact hv
  have hg := addFlight_getD cost distance duration hw hu hv
  have hfi : (⟨j, cost, distance, duration⟩ : Flight) ∈
      (g.addFlight u v cost distance duration).adjList.getD i [] := by
    rw [hg i]; simp
  have hfj : (⟨i, cost, distance, duration⟩ : Flight) ∈
      (g.addFlight u v cost distance duration).adjList.getD j [] := by
    rw [hg j]; simp
  exact ⟨dijkstraCost_source_flight _ hw1 u i hu1 _ hfi hc0 hc1,
    dijkstraCost_source_flight _ hw1 v j hv1 _ hfj hc0 hc1,
    dijkstraDistance_source_flight _ hw1 u i hu1 _ hfi hval hnan,
    dijkstraDistance_source_flight _ hw1 v j hv1 _ hfj hval hnan⟩

theorem added_flight_usable_both_ways_witness :
    build 3 exampleOps = some exampleGraph ∧
    mapFind exampleGraph.cityIndex "A" = some 0 ∧
    mapFind exampleGraph.cityIndex "C" = some 2 ∧
    (0 : Int) ≤ 120 ∧ (120 : Int) ≤ INT_MAX ∧
    F32.isValid (F32.ofNat 700) = true ∧ F32.ofNat 700 ≠ F32.nan ∧
    (∃ x, ((exampleGraph.addFlight "A" "C" 120 (F32.ofNat 700) (F32.ofNat 1)).dijkstraCost
      "A").2[2]? = some x ∧ x ≤ 120) :=
  ⟨build_example, rfl, rfl, by decide, by decide, by decide, by decide,
    (added_flight_usable_both_ways 3 exampleOps exampleGraph "A" "C" 0 2 120 (F32.ofNat 700)
      (F32.ofNat 1) build_example rfl rfl (by decide) (by decide) (by decide) (by decide)).1⟩

/-! ## Walks with non-negative costs can be cut down to fewer than `numCities` flights -/

theorem pathCost_cons (f : Flight) (p : List Flight) :
    pathCost (f :: p) = f.cost + pathCost p := by
  simp [pathCost]

theorem IsWalk_mem (adj : List (List Flight)) :
    ∀ (p : List Flight) (u v : Nat), IsWalk adj u p v → ∀ f ∈ p, ∃ x, f ∈ adj.getD x [] := by
  intro p
  induction p with
  | nil => intro u v _ f hf; simp at hf
  | cons e p ih =>
    intro u v h f hf
    simp only [List.mem_cons] at hf
    rcases hf with hf | hf
    · exact ⟨u, hf ▸ h.1⟩
    · exact ih _ _ h.2 f hf

theorem pathCost_nonneg (adj : List (List Flight))
    (hnn : ∀ u f, f ∈ adj.getD u [] → 0 ≤ f.cost) :
    ∀ (p : List Flight) (u v : Nat), IsWalk adj u p v → 0 ≤ pathCost p := by
  intro p
  induction p with
  | nil => intro u v _; simp [pathCost]
  | cons e p ih =>
    intro u v h
    rw [pathCost_cons]
    have := ih _ _ h.2
    have := hnn u e h.1
    omega

theorem IsWalk_from_vertex (adj : List (List Flight))
    (hnn : ∀ u f, f ∈ adj.getD u [] → 0 ≤ f.cost) :
    ∀ (q : List Flight) (a v u : Nat), IsWalk adj a q v →
      u ∈ a :: q.map Flight.destination →
      ∃ q2, IsWalk adj u q2 v ∧
        (u :: q2.map Flight.destination) <:+ (a :: q.map Flight.destination) ∧
        pathCost q2 ≤ pathCost q := by
  intro q
  induction q with
  | nil =>
    intro a v u h hu
    simp only [List.map_nil, List.mem_singleton] at hu
    subst hu
    exact ⟨[], h, List.suffix_refl _, Int.le_refl _⟩
  | cons e q ih =>
    intro a v u h hu
    by_cases hua : u = a
    · subst hua
      exact ⟨e :: q, h, List.suffix_refl _, Int.le_refl _⟩
    · have hu2 : u ∈ e.destination :: q.map Flight.destination := by
        simp only [List.map_cons, List.mem_cons] at hu ⊢
        rcases hu with hu | hu
        · exact absurd hu hua
        · exact hu
      obtain ⟨q2, hw, hsuf, hc⟩ := ih e.destination v u h.2 hu2
      refine ⟨q2, hw, ?_, ?_⟩
      · simp only [List.map_cons]
        exact hsuf.trans (List.suffix_cons _ _)
      · rw [pathCost_cons]
        have := hnn a e h.1
        omega

theorem exists_simple_walk (adj : List (List Flight))
    (hnn : ∀ u f, f ∈ adj.getD u [] → 0 ≤ f.cost) :
    ∀ (p : List Flight) (u v : Nat), IsWalk adj u p v →
      ∃ q, IsWalk adj u q v ∧ (u :: q.map Flight.destination).Nodup ∧
        pathCost q ≤ pathCost p := by
  intro p
  induction p with
  | nil =>
    intro u v h
    exact ⟨[], h, by simp, Int.le_refl _⟩
  | cons f p ih =>
    intro u v h
    obtain ⟨q1, hw1, hnd1, hc1⟩ := ih f.destination v h.2
    have hf0 := hnn u f h.1
    by_cases hu : u ∈ f.destination :: q1.map Flight.destination
    · obtain ⟨q2, hw2, hsuf, hc2⟩ := IsWalk_from_vertex adj hnn q1 f.destination v u hw1 hu
      refine ⟨q2, hw2, hnd1.sublist hsuf.sublist, ?_⟩
      rw [pathCost_cons]
      omega
    · refine ⟨f :: q1, ⟨h.1, hw1⟩, ?_, ?_⟩
      · simp only [List.map_cons]
        exact List.nodup_cons.mpr ⟨hu, hnd1⟩
      · rw [pathCost_cons, pathCost_cons]
        omega

theorem nodup_length_le (n : Nat) (l : List Nat) (hn : l.Nodup) (hb : ∀ x ∈ l, x < n) :
    l.length ≤ n := by
  have h1 : l.toFinset.card = l.length := List.toFinset_card_of_nodup hn
  have h2 : l.toFinset ⊆ Finset.range n := by
    intro x hx
    simp only [List.mem_toFinset] at hx
    simpa using hb x hx
  have h3 := Finset.card_le_card h2
  rw [Finset.card_range] at h3
  omega

/-- Cycle removal: with non-negative costs, a walk can be replaced by one to the same
city that is no more expensive and has fewer flights than there are cities. -/
theorem exists_short_walk (adj : List (List Flight)) (n : Nat)
    (hadj : ∀ u f, f ∈ adj.getD u [] → f.destination < n)
    (hnn : ∀ u f, f ∈ adj.getD u [] → 0 ≤ f.cost)
    (p : List Flight) (u v : Nat) (hu : u < n) (h : IsWalk adj u p v) :
    ∃ q, IsWalk adj u q v ∧ q.length < n ∧ pathCost q ≤ pathCost p := by
  obtain ⟨q, hw, hnd, hc⟩ := exists_simple_walk adj hnn p u v h
  refine ⟨q, hw, ?_, hc⟩
  have := nodup_length_le n _ hnd (by
    intro x hx
    simp only [List.mem_cons, List.mem_map] at hx
    rcases hx with hx | ⟨f, hf, hx⟩
    · rw [hx]; exact hu
    · obtain ⟨y, hy⟩ := IsWalk_mem adj q u v hw f hf
      rw [← hx]
      exact hadj y f hy)
  simp only [List.length_cons, List.length_map] at this
  omega

/-! ## `dijkstraCost` computes least costs -/

theorem pqMin_cost_le (best : Int × Nat) (rest : List (Int × Nat)) :
    (pqMin costMetric best rest).1 ≤ best.1 ∧
      ∀ x ∈ rest, (pqMin costMetric best rest).1 ≤ x.1 := by
  induction rest generalizing best with
  | nil => simp [pqMin]
  | cons y rest ih =>
    simp only [pqMin]
    split
    · rename_i hlt
      have hy : y.1 ≤ best.1 := by
        simp only [pairLt, costMetric, Bool.or_eq_true, Bool.and_eq_true, decide_eq_true_eq,
          Bool.not_eq_true', decide_eq_false_iff_not] at hlt
        omega
      obtain ⟨h1, h2⟩ := ih y
      refine ⟨by omega, ?_⟩
      intro x hx
      simp only [List.mem_cons] at hx
      rcases hx with hx | hx
      · rw [hx]; exact h1
      · exact h2 x hx
    · rename_i hlt
      have hy : best.1 ≤ y.1 := by
        simp only [pairLt, costMetric, Bool.or_eq_true, Bool.and_eq_true, decide_eq_true_eq,
          Bool.not_eq_true', decide_eq_false_iff_not, not_or] at hlt
        omega
      obtain ⟨h1, h2⟩ := ih best
      refine ⟨h1, ?_⟩
      intro x hx
      simp only [List.mem_cons] at hx
      rcases hx with hx | hx
      · rw [hx]; omega
      · exact h2 x hx

theorem pqTop_cost_le {pq : List (Int × Nat)} {top : Int × Nat}
    (h : pqTop costMetric pq = some top) : ∀ x ∈ pq, top.1 ≤ x.1 := by
  cases pq with
  | nil => simp [pqTop] at h
  | cons y rest =>
    simp only [pqTop, Option.some.injEq] at h
    obtain ⟨h1, h2⟩ := pqMin_cost_le y rest
    rw [h] at h1 h2
    intro x hx
    simp only [List.mem_cons] at hx
    rcases hx with hx | hx
    · rw [hx]; exact h1
    · exact h2 x hx

section CostCore
variable (adj : List (List Flight)) (s : Nat)
variable (hnn : ∀ u f, f ∈ adj.getD u [] → 0 ≤ f.cost)
variable (hov : ∀ x d f, (∃ p, IsWalk adj s p x ∧ pathCost p = d) →
  (∀ p, IsWalk adj s p x → d ≤ pathCost p) → f ∈ adj.getD x [] → d + f.cost ≤ INT_MAX)

include hnn hov in
/-- Every walk from the source costs at least the entry of its end or at least `c`, when
`c` is a lower bound of the queue. -/
theorem CostInv_walk_bound (st : DState Int) (hinv : CostInv adj s st)
    (hcor : Corrected costMetric s (fun u => adj.getD u []) st) (c : Int)
    (hc : ∀ x ∈ st.pq, c ≤ x.1) :
    ∀ (p : List Flight) (y : Nat), IsWalk adj s p y →
      st.minW.getD y INT_MAX ≤ pathCost p ∨ c ≤ pathCost p := by
  obtain ⟨h0, hrange, hreal, hq, hopt⟩ := hinv
  intro p
  induction p using List.reverseRecOn with
  | nil =>
    intro y h
    left
    simp only [IsWalk] at h
    subst h
    rw [h0]
    simp [pathCost]
  | append_singleton p f ih =>
    intro y h
    obtain ⟨x, hpx, hf, hd⟩ := IsWalk_snoc_inv adj p s y f h
    rw [pathCost_append]
    have hf0 := hnn x f hf
    rcases ih x hpx with hl | hr
    · by_cases ht : Touched s st.minW x
      · by_cases hm : (st.minW.getD x INT_MAX, x) ∈ st.pq
        · right
          have := hc _ hm
          simp only at this
          omega
        · left
          have hox := hopt x ht hm
          have hno := hov x _ f (hreal x ht) hox hf
          rcases hcor x with h1 | h1 | h1
          · exfalso
            rcases ht with ht | ht
            · exact h1.1 ht
            · exact ht h1.2
          · exact absurd h1 hm
          · have h2 := h1 f hf
            simp only [EdgeRelaxed, costMetric, decide_eq_false_iff_not] at h2
            have hx0 := (hrange x).1
            have hno2 : st.minW.getD x INT_MAX + f.cost ≤ 2147483647 := hno
            rw [wrap32_of_range (by omega) (by omega)] at h2
            rw [← hd]
            change ¬ (st.minW.getD x INT_MAX + f.cost < st.minW.getD f.destination INT_MAX) at h2
            omega
      · left
        have hx : st.minW.getD x INT_MAX = INT_MAX := by
          by_contra hne
          exact ht (Or.inr hne)
        have := (hrange y).2
        omega
    · right
      omega

include hnn hov in
theorem relax_CostInv (n t : Nat) (st : DState Int) (f : Flight)
    (hlen : st.minW.length = n) (hdest : f.destination < n)
    (hf : f ∈ adj.getD t []) (ht : Touched s st.minW t)
    (hoptt : ∀ p, IsWalk adj s p t → st.minW.getD t INT_MAX ≤ pathCost p)
    (hinv : CostInv adj s st) :
    CostInv adj s (relax costMetric t st f) ∧
      (relax costMetric t st f).minW.getD t INT_MAX = st.minW.getD t INT_MAX := by
  obtain ⟨h0, hrange, hreal, hq, hopt⟩ := hinv
  obtain ⟨p0, hp0, hc0⟩ := hreal t ht
  have hno := hov t _ f ⟨p0, hp0, hc0⟩ hoptt hf
  have hf0 := hnn t f hf
  have ht0 := (hrange t).1
  have hcand : wrap32 (st.minW.getD t INT_MAX + f.cost) = st.minW.getD t INT_MAX + f.cost := by
    have hno2 : st.minW.getD t INT_MAX + f.cost ≤ 2147483647 := hno
    exact wrap32_of_range (by omega) (by omega)
  simp only [relax]
  have hsen : costMetric.sentinel = INT_MAX := rfl
  have hadd : costMetric.add (st.minW.getD t INT_MAX) (costMetric.weight f)
      = st.minW.getD t INT_MAX + f.cost := hcand
  rw [hsen, hadd]
  split
  · rename_i hlt
    have hlt1 : st.minW.getD t INT_MAX + f.cost < st.minW.getD f.destination INT_MAX := by
      simpa [costMetric] using hlt
    have hvl : f.destination < st.minW.length := by omega
    have hvt : f.destination ≠ t := by
      intro e
      rw [e] at hlt1
      omega
    have hvs : f.destination ≠ s := by
      intro e
      rw [e, h0] at hlt1
      omega
    have hvmax := (hrange f.destination).2
    have hget : ∀ u, u ≠ f.destination →
        (st.minW.set f.destination (st.minW.getD t INT_MAX + f.cost)).getD u INT_MAX
          = st.minW.getD u INT_MAX :=
      fun u hu => getD_set_other _ _ _ _ _ (fun e => hu e.symm)
    have hgetv : (st.minW.set f.destination (st.minW.getD t INT_MAX + f.cost)).getD
        f.destination INT_MAX = st.minW.getD t INT_MAX + f.cost :=
      getD_set_self _ _ _ _ hvl
    have htouch : ∀ u, u ≠ f.destination →
        (Touched s (st.minW.set f.destination (st.minW.getD t INT_MAX + f.cost)) u ↔
          Touched s st.minW u) := by
      intro u hu
      simp only [Touched, hget u hu]
    refine ⟨⟨?_, ?_, ?_, ?_, ?_⟩, ?_⟩
    · simp only
      rw [hget s (fun e => hvs e.symm)]
      exact h0
    · intro v
      simp only
      by_cases hv : v = f.destination
      · rw [hv, hgetv]
        omega
      · rw [hget v hv]
        exact hrange v
    · intro v hv
      simp only at hv ⊢
      by_cases hvd : v = f.destination
      · rw [hvd, hgetv]
        exact ⟨p0 ++ [f], IsWalk_snoc adj p0 s t f hp0 hf, by rw [pathCost_append, hc0]⟩
      · rw [hget v hvd]
        exact hreal v ((htouch v hvd).mp hv)
    · intro x hx
      simp only [List.mem_cons] at hx
      simp only
      rcases hx with hx | hx
      · rw [hx]
        simp only
        rw [hgetv]
        refine ⟨Int.le_refl _, Or.inr ?_⟩
        rw [hgetv]
        omega
      · by_cases hxd : x.2 = f.destination
        · rw [hxd, hgetv]
          have := (hq x hx).1
          rw [hxd] at this
          refine ⟨by omega, Or.inr ?_⟩
          rw [hgetv]
          omega
        · rw [hget x.2 hxd]
          exact ⟨(hq x hx).1, (htouch x.2 hxd).mpr (hq x hx).2⟩
    · intro u hu hnm
      simp only at hu hnm ⊢
      by_cases hud : u = f.destination
      · exfalso
        apply hnm
        rw [hud, hgetv]
        exact List.mem_cons_self _ _
      · rw [hget u hud] at hnm ⊢
        exact hopt u ((htouch u hud).mp hu) (fun hm => hnm (List.mem_cons_of_mem _ hm))
    · simp only
      exact hget t (fun e => hvt e.symm)
  · exact ⟨⟨h0, hrange, hreal, hq, hopt⟩, rfl⟩

include hnn hov in
theorem dijkstraStep_CostInv (n : Nat) (hadj : ∀ u f, f ∈ adj.getD u [] → f.destination < n)
    (st : DState Int) (hlen : st.minW.length = n) (hinv : CostInv adj s st)
    (hcor : Corrected costMetric s (fun u => adj.getD u []) st) (hne : st.pq ≠ []) :
    CostInv adj s (dijkstraStep costMetric adj st) := by
  obtain ⟨top, htop⟩ := pqTop_of_ne_nil costMetric hne
  have hmem := pqTop_mem costMetric htop
  have hmin := pqTop_cost_le htop
  have hbound := CostInv_walk_bound adj s hnn hov st hinv hcor top.1 hmin
  obtain ⟨h0, hrange, hreal, hq, hopt⟩ := hinv
  have htq := hq top hmem
  have hoptt : ∀ p, IsWalk adj s p top.2 → st.minW.getD top.2 INT_MAX ≤ pathCost p := by
    intro p hp
    rcases hbound p top.2 hp with h | h
    · exact h
    · omega
  have hpop : CostInv adj s { minW := st.minW, pq := st.pq.erase top } := by
    refine ⟨h0, hrange, hreal, fun x hx => hq x (List.mem_of_mem_erase hx), ?_⟩
    intro u hu hnm
    by_cases hut : (st.minW.getD u INT_MAX, u) = top
    · have : u = top.2 := by rw [← hut]
      rw [this]
      exact hoptt
    · exact hopt u hu (fun hm => hnm ((List.mem_erase_of_ne hut).mpr hm))
  rw [dijkstraStep_eq costMetric adj st htop]
  split
  · exact hpop
  · have key := foldl_inv
      (fun b : DState Int => b.minW.length = n ∧ CostInv adj s b ∧
        b.minW.getD top.2 INT_MAX = st.minW.getD top.2 INT_MAX)
      (relax costMetric top.2) (adj.getD top.2 [])
      (fun b a ha hb => by
        obtain ⟨hb1, hb2, hb3⟩ := hb
        have htb : Touched s b.minW top.2 := by
          rcases htq.2 with h | h
          · exact Or.inl h
          · exact Or.inr (by rw [hb3]; exact h)
        have := relax_CostInv adj s hnn hov n top.2 b a hb1 (hadj _ a ha) ha htb
          (by rw [hb3]; exact hoptt) hb2
        exact ⟨by rw [relax_length]; exact hb1, this.1, by rw [this.2]; exact hb3⟩)
      { minW := st.minW, pq := st.pq.erase top } ⟨hlen, hpop, rfl⟩
    exact key.2.1

theorem dijkstraStart_CostInv (n : Nat) (hs : s < n) :
    CostInv adj s (dijkstraStart costMetric n s) := by
  have hsrc : (dijkstraStart costMetric n s).minW.getD s INT_MAX = 0 :=
    dijkstraStart_getD_source costMetric n s hs
  have hoth : ∀ v, v ≠ s → (dijkstraStart costMetric n s).minW.getD v INT_MAX = INT_MAX :=
    fun v hv => dijkstraStart_getD_other costMetric n s v hv
  refine ⟨hsrc, ?_, ?_, ?_, ?_⟩
  · intro v
    by_cases hv : v = s
    · rw [hv, hsrc]; simp [INT_MAX]
    · rw [hoth v hv]; simp [INT_MAX]
  · intro v hv
    rcases hv with hv | hv
    · rw [hv, hsrc]
      exact ⟨[], rfl, by simp [pathCost]⟩
    · by_cases hvs : v = s
      · rw [hvs, hsrc]
        exact ⟨[], hvs ▸ rfl, by simp [pathCost]⟩
      · exact absurd (hoth v hvs) hv
  · intro x hx
    have : x = ((0 : Int), s) := by simpa [dijkstraStart, costMetric] using hx
    rw [this]
    simp only
    rw [hsrc]
    exact ⟨Int.le_refl _, Or.inl rfl⟩
  · intro u hu hnm
    exfalso
    rcases hu with hu | hu
    · apply hnm
      rw [hu, hsrc]
      simp [dijkstraStart, costMetric]
    · by_cases hus : u = s
      · apply hnm
        rw [hus, hsrc]
        simp [dijkstraStart, costMetric]
      · exact hu (hoth u hus)

end CostCore

theorem costMetric_irrefl (a : Int) : costMetric.lt a a = false := by
  simp [costMetric]

theorem costMetric_trans (a b c : Int) (h1 : costMetric.lt a b = true)
    (h2 : costMetric.lt b c = true) : costMetric.lt a c = true := by
  simp only [costMetric, decide_eq_true_eq] at h1 h2 ⊢
  omega

theorem mem_of_mem_getD {α : Type} (adj : List (List α)) (u : Nat) (x : α)
    (h : x ∈ adj.getD u []) : ∃ l ∈ adj, x ∈ l := by
  rw [List.getD_eq_getElem?_getD] at h
  by_cases hu : u < adj.length
  · rw [List.getElem?_eq_getElem hu] at h
    exact ⟨adj[u], List.getElem_mem _, by simpa using h⟩
  · rw [List.getElem?_eq_none (by omega)] at h
    simp at h

theorem IsWalk_end_lt (adj : List (List Flight)) (n : Nat)
    (hadj : ∀ u f, f ∈ adj.getD u [] → f.destination < n) :
    ∀ (p : List Flight) (u v : Nat), IsWalk adj u p v → u < n → v < n := by
  intro p
  induction p with
  | nil => intro u v h hu; exact h ▸ hu
  | cons f p ih => intro u v h _; exact ih _ _ h.2 (hadj u f h.1)

/-- The result of `dijkstraCost` on a well-formed store with non-negative costs on which
the least cost to a city plus the cost of a flight leaving it never exceeds `INT_MAX`:
the source holds zero, every entry is at most the cost of every walk to its city, and an
entry that is touched is the cost of a walk. -/
theorem dijkstraCost_core (g : FlightGraph) (hw : g.WF) (source : String) (i : Nat)
    (hfind : mapFind g.cityIndex source = some i)
    (hnn : ∀ u f, f ∈ g.adjList.getD u [] → 0 ≤ f.cost)
    (hov : ∀ x d f, (∃ p, IsWalk g.adjList i p x ∧ pathCost p = d) →
      (∀ p, IsWalk g.adjList i p x → d ≤ pathCost p) → f ∈ g.adjList.getD x [] →
      d + f.cost ≤ INT_MAX) :
    ∃ mc : List Int, mc.length = g.numCities ∧ g.dijkstraCost source = (g, mc) ∧
      mc.getD i INT_MAX = 0 ∧
      (∀ v, 0 ≤ mc.getD v INT_MAX ∧ mc.getD v INT_MAX ≤ INT_MAX) ∧
      (∀ v, Touched i mc v → ∃ p, IsWalk g.adjList i p v ∧ pathCost p = mc.getD v INT_MAX) ∧
      (∀ v p, IsWalk g.adjList i p v → mc.getD v INT_MAX ≤ pathCost p) := by
  have hi : i < g.numCities := hw.2.2.1 source i hfind
  obtain ⟨final, hpq, hP, hlen, hres⟩ := dijkstraCost_run g hw source i hfind
    (fun st : DState Int => CostInv g.adjList i st ∧
      Corrected costMetric i (fun u => g.adjList.getD u []) st)
    ⟨dijkstraStart_CostInv g.adjList i g.numCities hi,
      dijkstraStart_Corrected costMetric _ _ _ hi⟩
    (fun st hl hst hne =>
      ⟨dijkstraStep_CostInv g.adjList i hnn hov g.numCities hw.2.2.2 st hl hst.1 hst.2 hne,
        dijkstraStep_Corrected costMetric costMetric_irrefl costMetric_trans g.adjList i st
          (fun u f hf => hl ▸ hw.2.2.2 u f hf) hst.2 hne⟩)
  refine ⟨final.minW, hlen, hres, hP.1.1, hP.1.2.1, hP.1.2.2.1, ?_⟩
  intro v p hp
  have := CostInv_walk_bound g.adjList i hnn hov final hP.1 hP.2 (pathCost p + 1)
    (by rw [hpq]; intro x hx; simp at hx) p v hp
  omega

/-- The same under the bound on sums in the form used by the claims: every walk from the
source of at most `numCities` flights costs at most `INT_MAX`. -/
theorem dijkstraCost_bounded (g : FlightGraph) (hw : g.WF) (source : String) (i : Nat)
    (hfind : mapFind g.cityIndex source = some i)
    (hnn : ∀ l ∈ g.adjList, ∀ f ∈ l, 0 ≤ f.cost)
    (hsum : ∀ p w, IsWalk g.adjList i p w → p.length ≤ g.numCities → pathCost p ≤ INT_MAX) :
    ∃ mc : List Int, mc.length = g.numCities ∧ g.dijkstraCost source = (g, mc) ∧
      mc.getD i INT_MAX = 0 ∧
      (∀ v, 0 ≤ mc.getD v INT_MAX ∧ mc.getD v INT_MAX ≤ INT_MAX) ∧
      (∀ v, Touched i mc v → ∃ p, IsWalk g.adjList i p v ∧ pathCost p = mc.getD v INT_MAX) ∧
      (∀ v p, IsWalk g.adjList i p v → mc.getD v INT_MAX ≤ pathCost p) := by
  have hi : i < g.numCities := hw.2.2.1 source i hfind
  have hnn2 : ∀ u f, f ∈ g.adjList.getD u [] → 0 ≤ f.cost := by
    intro u f hf
    obtain ⟨l, hl, hfl⟩ := mem_of_mem_getD g.adjList u f hf
    exact hnn l hl f hfl
  apply dijkstraCost_core g hw source i hfind hnn2
  intro x d f ⟨p, hp, hpd⟩ hopt hf
  obtain ⟨q, hq, hql, hqc⟩ := exists_short_walk g.adjList g.numCities hw.2.2.2 hnn2 p i x hi hp
  have h1 := hopt q hq
  have h2 := hsum (q ++ [f]) f.destination (IsWalk_snoc g.adjList q i x f hq hf)
    (by simp only [List.length_append, List.length_singleton]; omega)
  rw [pathCost_append] at h2
  omega

theorem pathCost_le_mul (adj : List (List Flight)) (C : Int)
    (hC : ∀ l ∈ adj, ∀ f ∈ l, f.cost ≤ C) :
    ∀ (p : List Flight) (u v : Nat), IsWalk adj u p v → pathCost p ≤ C * p.length := by
  intro p
  induction p with
  | nil => intro u v _; simp [pathCost]
  | cons f p ih =>
    intro u v h
    obtain ⟨l, hl, hfl⟩ := mem_of_mem_getD adj u f h.1
    have h1 := hC l hl f hfl
    have h2 := ih _ _ h.2
    rw [pathCost_cons]
    simp only [List.length_cons, Nat.cast_add, Nat.cast_one]
    rw [mul_add, mul_one]
    omega

theorem example_walk_costs (s : Nat) : ∀ p w, IsWalk exampleGraph.adjList s p w →
    p.length ≤ exampleGraph.numCities → pathCost p < INT_MAX := by
  intro p w hp hl
  have h1 := pathCost_le_mul exampleGraph.adjList 200 (by decide) p s w hp
  have h2 : (p.length : Int) ≤ 3 := by exact_mod_cast hl
  have h3 : INT_MAX = 2147483647 := rfl
  omega

/-- C1: on a built store whose flight costs are all non-negative and on which every walk
of at most `numCities` flights from the source costs less than `INT_MAX`, the entry that
`dijkstraCost` returns for a city reachable from the source is the least cost of a walk
from the source to that city: some walk has exactly this cost and no walk is cheaper. -/
theorem dijkstraCost_is_optimal (cities : Nat) (ops : List Op) (g : FlightGraph)
    (source : String) (i v : Nat) (hb : build cities ops = some g)
    (hs : mapFind g.cityIndex source = some i)
    (hnn : ∀ l ∈ g.adjList, ∀ f ∈ l, 0 ≤ f.cost)
    (hsum : ∀ p w, IsWalk g.adjList i p w → p.length ≤ g.numCities → pathCost p < INT_MAX)
    (hv : Reachable g.adjList i v) :
    ∃ d, (g.dijkstraCost source).2[v]? = some d ∧
      (∃ p, IsWalk g.adjList i p v ∧ pathCost p = d) ∧
      ∀ p, IsWalk g.adjList i p v → d ≤ pathCost p := by
  have hw := build_WF hb
  have hi : i < g.numCities := hw.2.2.1 source i hs
  obtain ⟨mc, hlen, hres, _, _, hreal, hopt⟩ := dijkstraCost_bounded g hw source i hs hnn
    (fun p w hp hl => Int.le_of_lt (hsum p w hp hl))
  obtain ⟨p, hp⟩ := hv
  have hvn : v < g.numCities := IsWalk_end_lt g.adjList g.numCities hw.2.2.2 p i v hp hi
  have hnn2 : ∀ u f, f ∈ g.adjList.getD u [] → 0 ≤ f.cost := by
    intro u f hf
    obtain ⟨l, hl, hfl⟩ := mem_of_mem_getD g.adjList u f hf
    exact hnn l hl f hfl
  obtain ⟨q, hq, hql, _⟩ := exists_short_walk g.adjList g.numCities hw.2.2.2 hnn2 p i v hi hp
  have h1 := hopt v q hq
  have h2 := hsum q v hq (by omega)
  refine ⟨mc.getD v INT_MAX, ?_, hreal v (Or.inr (by omega)), hopt v⟩
  rw [hres]
  exact getElem?_of_getD _ _ _ _ (hlen ▸ hvn) rfl

theorem dijkstraCost_is_optimal_witness :
    build 3 exampleOps = some exampleGraph ∧
    mapFind exampleGraph.cityIndex "A" = some 0 ∧
    (∀ l ∈ exampleGraph.adjList, ∀ f ∈ l, 0 ≤ f.cost) ∧
    (∀ p w, IsWalk exampleGraph.adjList 0 p w → p.length ≤ exampleGraph.numCities →
      pathCost p < INT_MAX) ∧
    Reachable exampleGraph.adjList 0 2 ∧
    (∃ d, (exampleGraph.dijkstraCost "A").2[2]? = some d ∧
      (∃ p, IsWalk exampleGraph.adjList 0 p 2 ∧ pathCost p = d) ∧
      ∀ p, IsWalk exampleGraph.adjList 0 p 2 → d ≤ pathCost p) :=
  have hnn : ∀ l ∈ exampleGraph.adjList, ∀ f ∈ l, 0 ≤ f.cost := by decide
  have hsum : ∀ p w, IsWalk exampleGraph.adjList 0 p w → p.length ≤ exampleGraph.numCities →
      pathCost p < INT_MAX := example_walk_costs 0
  have hr : Reachable exampleGraph.adjList 0 2 :=
    ⟨[⟨2, 200, F32.ofNat 1000, F32.ofNat 2⟩], by simp [IsWalk, exampleGraph]⟩
  ⟨build_example, rfl, hnn, hsum, hr,
    dijkstraCost_is_optimal 3 exampleOps exampleGraph "A" 0 2 build_example rfl hnn hsum hr⟩

/-! ## `dijkstraDistance`: non-negative entries and a bound along walks -/

theorem F32.round_zero : F32.round 0 = F32.fin 0 := by decide

theorem F32.add_nonneg {a d : F32} (ha : F32.le F32.zero a = true)
    (hd : F32.le F32.zero d = true) : F32.le F32.zero (F32.add a d) = true := by
  cases a <;> cases d <;> simp [F32.le, F32.zero, F32.add] at ha hd ⊢
  rename_i x y
  have := F32.round_mono (s := 0) (t := x + y) (by omega)
  rw [F32.round_zero] at this
  exact this

theorem F32.eq_zero_of_le {a : F32} (h1 : F32.le a F32.zero = true)
    (h2 : F32.le F32.zero a = true) : a = F32.zero := by
  cases a <;> simp [F32.le, F32.zero] at h1 h2 ⊢
  omega

theorem F32.ne_of_lt {a b : F32} (h : F32.lt a b = true) : a ≠ b := by
  intro e
  rw [e, F32.lt_irrefl] at h
  exact absurd h (by simp)

theorem F32.relax_bound {mx my P d : F32} (h1 : F32.le mx P = true)
    (h2 : F32.lt (F32.add P d) F32.max = true) (hy : my ≠ F32.nan)
    (hrel : F32.lt (F32.add mx d) my = false) : F32.le my (F32.add P d) = true := by
  have hPd : F32.add P d ≠ F32.nan := F32.ne_nan_of_lt h2
  have hX : F32.add mx d ≠ F32.nan := by
    revert h1 h2 hPd
    cases mx <;> cases P <;> cases d <;>
      simp [F32.add, F32.le, F32.lt, F32.max, F32.round_ne_nan]
  exact F32.le_trans (F32.le_of_not_lt hy hX hrel) (F32.add_mono_left h1 hX hPd)

theorem pathDistance_append (p : List Flight) (f : Flight) :
    pathDistance (p ++ [f]) = F32.add (pathDistance p) f.distance := by
  simp [pathDistance]

/-- The result of `dijkstraDistance` on a well-formed store: an entry is at most the
distance accumulated along any walk to its city, provided the accumulated distance of
every walk from the source that is not longer stays below the `float` maximum. -/
theorem dijkstraDistance_walk_bound (g : FlightGraph) (hw : g.WF) (source : String) (i : Nat)
    (hfind : mapFind g.cityIndex source = some i) :
    ∃ md : List F32, md.length = g.numCities ∧ g.dijkstraDistance source = (g, md) ∧
      ∀ (p : List Flight) (y : Nat), IsWalk g.adjList i p y →
        (∀ q x, IsWalk g.adjList i q x → q.length ≤ p.length →
          F32.lt (pathDistance q) F32.max = true) →
        F32.le (md.getD y F32.max) (pathDistance p) = true := by
  obtain ⟨md, hlen, hres, hrel, hsrc, hall⟩ := dijkstraDistance_post g hw source i hfind
  refine ⟨md, hlen, hres, ?_⟩
  intro p
  induction p using List.reverseRecOn with
  | nil =>
    intro y h _
    simp only [IsWalk] at h
    subst h
    exact hsrc
  | append_singleton p f ih =>
    intro y h hb
    obtain ⟨x, hpx, hf, hd⟩ := IsWalk_snoc_inv g.adjList p i y f h
    have hlenp : p.length ≤ (p ++ [f]).length := by simp
    have ihx := ih x hpx (fun q z hq hl => hb q z hq (by omega))
    have hP := hb p x hpx hlenp
    have hPf := hb (p ++ [f]) y h (Nat.le_refl _)
    rw [pathDistance_append] at hPf ⊢
    have hxlt := F32.lt_of_le_of_lt ihx hP
    rcases hrel x with h1 | h1
    · exact absurd h1.2 (F32.ne_of_lt hxlt)
    · have := h1 f hf
      rw [hd] at this
      exact F32.relax_bound ihx hPf (hall y) this

theorem dijkstraDistance_nonneg (g : FlightGraph) (hw : g.WF) (source : String) (i : Nat)
    (hfind : mapFind g.cityIndex source = some i)
    (hnd : ∀ l ∈ g.adjList, ∀ f ∈ l, F32.le F32.zero f.distance = true) :
    ∃ md : List F32, md.length = g.numCities ∧ g.dijkstraDistance source = (g, md) ∧
      md.getD i F32.max = F32.zero ∧ ∀ v, F32.le F32.zero (md.getD v F32.max) = true := by
  obtain ⟨final, hlen, hres, _, hsrc, hall⟩ := dijkstra_post distanceMetric F32.rank
    (2 ^ 278 + 3) distanceMetric_rank F32.rank_le F32.lt_irrefl F32.lt_trans
    (fun x : F32 => F32.le F32.zero x = true)
    (by decide) (by decide) g hw
    (fun u f hf a _ ha _ => by
      obtain ⟨l, hl, hfl⟩ := mem_of_mem_getD g.adjList u f hf
      exact F32.add_nonneg ha (hnd l hl f hfl)) source i hfind
  refine ⟨final.minW, hlen, hres, ?_, hall⟩
  have h0 := hall i
  rcases hsrc with h1 | h1
  · exact h1
  · have h2 : F32.lt (final.minW.getD i F32.max) F32.zero = true := h1
    have h3 : F32.le F32.zero (final.minW.getD i F32.max) = true := h0
    have := F32.lt_of_le_of_lt h3 h2
    rw [F32.lt_irrefl] at this
    exact absurd this (by simp)

theorem build_negDistance : build 2 negDistanceOps = some negDistanceGraph := rfl

theorem build_maxCost : build 2 maxCostOps = some maxCostGraph := rfl

theorem build_pair : build 2 pairOps = some pairGraph := rfl

theorem unreachable_entries (g : FlightGraph) (hw : g.WF) (source : String) (i v : Nat)
    (hs : mapFind g.cityIndex source = some i) (hv : v < g.numCities)
    (hnr : ¬ Reachable g.adjList i v) :
    (g.dijkstraCost source).2[v]? = some INT_MAX ∧
      (g.dijkstraDistance source).2[v]? = some F32.max := by
  obtain ⟨fc, _, hPc, hlc, hc⟩ := dijkstraCost_run g hw source i hs
    (OnlyReachable costMetric g.adjList i) (dijkstraStart_OnlyReachable _ _ _ _)
    (fun st _ h hne => dijkstraStep_OnlyReachable _ _ _ st h hne)
  obtain ⟨fd, _, hPd, hld, hd⟩ := dijkstraDistance_run g hw source i hs
    (OnlyReachable distanceMetric g.adjList i) (dijkstraStart_OnlyReachable _ _ _ _)
    (fun st _ h hne => dijkstraStep_OnlyReachable _ _ _ st h hne)
  rw [hc, hd]
  exact ⟨getElem?_of_getD _ v _ _ (hlc ▸ hv) (hPc.1 v hnr),
    getElem?_of_getD _ v _ _ (hld ▸ hv) (hPd.1 v hnr)⟩

/-! ## Zero at the source, sentinels, and signs of the entries -/

/-- Why the amended claims bound the sums: one flight of cost `2^30` makes the sum
`2^30 + 2^30` leave the range of `int`; with 32-bit wrap-around the source ends at
`-2^31` and the other city at `-2^30`. -/
theorem overflow_example :
    build 2 overflowOps = some overflowGraph ∧
    (overflowGraph.dijkstraCost "A").2 = [-2147483648, -1073741824] :=
  ⟨rfl, by decide⟩

/-- Why the amended claims ask for non-negative costs: one flight of cost `-2^30` lowers
the source to `-2^31` and the other city to `-2^30`, although every walk has a sum
below `INT_MAX`. -/
theorem negative_cost_example :
    build 2 negCostOps = some negCostGraph ∧
    (negCostGraph.dijkstraCost "A").2 = [-2147483648, -1073741824] :=
  ⟨rfl, by decide⟩

/-- Why the amended claim on sentinels bounds the distances too: a flight whose distance
is the `float` maximum leaves the sentinel in the result of `dijkstraDistance` for a
city that `dijkstraCost` reaches. -/
theorem max_distance_example :
    build 2 maxDistanceOps = some maxDistanceGraph ∧
    (maxDistanceGraph.dijkstraCost "A").2 = [0, 1] ∧
    (maxDistanceGraph.dijkstraDistance "A").2 = [F32.zero, F32.max] :=
  ⟨rfl, by decide, by decide⟩

/-- C6 fails as stated (for every graph): with a flight of distance minus the `float`
maximum, `dijkstraDistance` returns minus infinity, not zero, for the source. -/
theorem source_entry_zero_counterexample :
    build 2 negDistanceOps = some negDistanceGraph ∧
    mapFind negDistanceGraph.cityIndex "A" = some 0 ∧
    (negDistanceGraph.dijkstraDistance "A").2[0]? = some F32.ninf ∧
    ¬ ((negDistanceGraph.dijkstraCost "A").2[0]? = some 0 ∧
       (negDistanceGraph.dijkstraDistance "A").2[0]? = some F32.zero) := by
  refine ⟨build_negDistance, rfl, by decide, ?_⟩
  intro h
  have h2 : (negDistanceGraph.dijkstraDistance "A").2[0]? = some F32.ninf := by decide
  rw [h2] at h
  exact absurd h.2 (by decide)

/-- C6, amended: on a built store whose flight costs and distances are all non-negative
and on which every walk of at most `numCities` flights from the source costs less than
`INT_MAX`, the entry of the source is zero in the result of both queries. -/
theorem source_entry_is_zero (cities : Nat) (ops : List Op) (g : FlightGraph)
    (source : String) (i : Nat) (hb : build cities ops = some g)
    (hs : mapFind g.cityIndex source = some i)
    (hnn : ∀ l ∈ g.adjList, ∀ f ∈ l, 0 ≤ f.cost)
    (hnd : ∀ l ∈ g.adjList, ∀ f ∈ l, F32.le F32.zero f.distance = true)
    (hsum : ∀ p w, IsWalk g.adjList i p w → p.length ≤ g.numCities → pathCost p < INT_MAX) :
    (g.dijkstraCost source).2[i]? = some 0 ∧
      (g.dijkstraDistance source).2[i]? = some F32.zero := by
  have hw := build_WF hb
  have hi : i < g.numCities := hw.2.2.1 source i hs
  obtain ⟨mc, hlc, hc, hc0, _⟩ := dijkstraCost_bounded g hw source i hs hnn
    (fun p w hp hl => Int.le_of_lt (hsum p w hp hl))
  obtain ⟨md, hld, hd, hd0, _⟩ := dijkstraDistance_nonneg g hw source i hs hnd
  rw [hc, hd]
  exact ⟨getElem?_of_getD _ i _ _ (hlc ▸ hi) hc0, getElem?_of_getD _ i _ _ (hld ▸ hi) hd0⟩

theorem source_entry_is_zero_witness :
    build 3 exampleOps = some exampleGraph ∧
    mapFind exampleGraph.cityIndex "B" = some 1 ∧
    (∀ l ∈ exampleGraph.adjList, ∀ f ∈ l, 0 ≤ f.cost) ∧
    (∀ l ∈ exampleGraph.adjList, ∀ f ∈ l, F32.le F32.zero f.distance = true) ∧
    (∀ p w, IsWalk exampleGraph.adjList 1 p w → p.length ≤ exampleGraph.numCities →
      pathCost p < INT_MAX) ∧
    (exampleGraph.dijkstraCost "B").2[1]? = some 0 ∧
    (exampleGraph.dijkstraDistance "B").2[1]? = some F32.zero :=
  ⟨build_example, rfl, by decide, by decide, example_walk_costs 1,
    source_entry_is_zero 3 exampleOps exampleGraph "B" 1 build_example rfl (by decide)
      (by decide) (example_walk_costs 1)⟩

/-- C7 fails as stated (for every graph): with one flight of cost `INT_MAX` and distance
1, the destination holds the sentinel in the result of `dijkstraCost` and the value 1,
not the sentinel, in the result of `dijkstraDistance`. -/
theorem sentinels_agree_counterexample :
    build 2 maxCostOps = some maxCostGraph ∧
    mapFind maxCostGraph.cityIndex "A" = some 0 ∧
    (maxCostGraph.dijkstraCost "A").2[1]? = some INT_MAX ∧
    (maxCostGraph.dijkstraDistance "A").2[1]? = some (F32.ofNat 1) ∧
    ¬ ((maxCostGraph.dijkstraCost "A").2[1]? = some INT_MAX ↔
       (maxCostGraph.dijkstraDistance "A").2[1]? = some F32.max) := by
  refine ⟨build_maxCost, rfl, by decide, by decide, ?_⟩
  intro h
  have h1 : (maxCostGraph.dijkstraCost "A").2[1]? = some INT_MAX := by decide
  have h2 : (maxCostGraph.dijkstraDistance "A").2[1]? = some (F32.ofNat 1) := by decide
  have h3 := h.mp h1
  rw [h2] at h3
  exact absurd h3 (by decide)

/-- C7, amended: on a built store whose flight costs are all non-negative and on which
every walk of at most `numCities` flights from the source has a cost below `INT_MAX` and
a distance, accumulated in `float`, below the `float` maximum, a city holds `INT_MAX` in
the result of `dijkstraCost` exactly when it holds the `float` maximum in the result of
`dijkstraDistance`. -/
theorem sentinels_agree (cities : Nat) (ops : List Op) (g : FlightGraph)
    (source : String) (i v : Nat) (hb : build cities ops = some g)
    (hs : mapFind g.cityIndex source = some i)
    (hnn : ∀ l ∈ g.adjList, ∀ f ∈ l, 0 ≤ f.cost)
    (hsum : ∀ p w, IsWalk g.adjList i p w → p.length ≤ g.numCities → pathCost p < INT_MAX)
    (hdist : ∀ p w, IsWalk g.adjList i p w → p.length ≤ g.numCities →
      F32.lt (pathDistance p) F32.max = true)
    (hv : v < g.numCities) :
    (g.dijkstraCost source).2[v]? = some INT_MAX ↔
      (g.dijkstraDistance source).2[v]? = some F32.max := by
  have hw := build_WF hb
  have hi : i < g.numCities := hw.2.2.1 source i hs
  by_cases hr : Reachable g.adjList i v
  · obtain ⟨p, hp⟩ := hr
    have hnn2 : ∀ u f, f ∈ g.adjList.getD u [] → 0 ≤ f.cost := by
      intro u f hf
      obtain ⟨l, hl, hfl⟩ := mem_of_mem_getD g.adjList u f hf
      exact hnn l hl f hfl
    obtain ⟨q, hq, hql, _⟩ := exists_short_walk g.adjList g.numCities hw.2.2.2 hnn2 p i v hi hp
    obtain ⟨mc, hlc, hc, _, _, _, hopt⟩ := dijkstraCost_bounded g hw source i hs hnn
      (fun p w hp hl => Int.le_of_lt (hsum p w hp hl))
    obtain ⟨md, hld, hd, hbound⟩ := dijkstraDistance_walk_bound g hw source i hs
    have h1 := hopt v q hq
    have h2 := hsum q v hq (by omega)
    have h3 := hbound q v hq (fun r x hr hl => hdist r x hr (by omega))
    have h4 := hdist q v hq (by omega)
    have hcv : (g.dijkstraCost source).2[v]? = some (mc.getD v INT_MAX) := by
      rw [hc]; exact getElem?_of_getD _ _ _ _ (hlc ▸ hv) rfl
    have hdv : (g.dijkstraDistance source).2[v]? = some (md.getD v F32.max) := by
      rw [hd]; exact getElem?_of_getD _ _ _ _ (hld ▸ hv) rfl
    have hcne : mc.getD v INT_MAX ≠ INT_MAX := by omega
    have hdne : md.getD v F32.max ≠ F32.max := F32.ne_of_lt (F32.lt_of_le_of_lt h3 h4)
    rw [hcv, hdv]
    simp only [Option.some.injEq]
    exact ⟨fun h => absurd h hcne, fun h => absurd h hdne⟩
  · have := unreachable_entries g hw source i v hs hv hr
    exact ⟨fun _ => this.2, fun _ => this.1⟩

theorem pair_walks : ∀ p w, IsWalk pairGraph.adjList 0 p w → p.length ≤ pairGraph.numCities →
    pathCost p < INT_MAX ∧ F32.lt (pathDistance p) F32.max = true := by
  intro p w hp hl
  match p, hp, hl with
  | [], _, _ => exact ⟨by decide, by decide⟩
  | [a], hp, _ =>
    have ha : a = ⟨1, 5, F32.ofNat 7, F32.ofNat 1⟩ := by
      simpa [IsWalk, pairGraph] using hp.1
    subst ha
    exact ⟨by decide, by decide⟩
  | [a, b], hp, _ =>
    have ha : a = ⟨1, 5, F32.ofNat 7, F32.ofNat 1⟩ := by
      simpa [IsWalk, pairGraph] using hp.1
    subst ha
    have hb : b = ⟨0, 5, F32.ofNat 7, F32.ofNat 1⟩ := by
      simpa [IsWalk, pairGraph] using hp.2.1
    subst hb
    exact ⟨by decide, by decide⟩
  | _ :: _ :: _ :: _, _, hl =>
    simp [pairGraph] at hl

theorem sentinels_agree_witness :
    build 2 pairOps = some pairGraph ∧
    mapFind pairGraph.cityIndex "A" = some 0 ∧
    (∀ l ∈ pairGraph.adjList, ∀ f ∈ l, 0 ≤ f.cost) ∧
    (∀ p w, IsWalk pairGraph.adjList 0 p w → p.length ≤ pairGraph.numCities →
      pathCost p < INT_MAX) ∧
    (∀ p w, IsWalk pairGraph.adjList 0 p w → p.length ≤ pairGraph.numCities →
      F32.lt (pathDistance p) F32.max = true) ∧
    1 < pairGraph.numCities ∧
    ((pairGraph.dijkstraCost "A").2[1]? = some INT_MAX ↔
      (pairGraph.dijkstraDistance "A").2[1]? = some F32.max) :=
  ⟨build_pair, rfl, by decide, fun p w hp hl => (pair_walks p w hp hl).1,
    fun p w hp hl => (pair_walks p w hp hl).2, by decide,
    sentinels_agree 2 pairOps pairGraph "A" 0 1 build_pair rfl (by decide)
      (fun p w hp hl => (pair_walks p w hp hl).1) (fun p w hp hl => (pair_walks p w hp hl).2)
      (by decide)⟩

/-- C9 fails as stated (for every graph): with a flight of distance minus the `float`
maximum, `dijkstraDistance` returns minus infinity, which is neither the sentinel nor
non-negative. -/
theorem finite_entries_nonneg_counterexample :
    build 2 negDistanceOps = some negDistanceGraph ∧
    mapFind negDistanceGraph.cityIndex "A" = some 0 ∧
    (negDistanceGraph.dijkstraDistance "A").2[1]? = some F32.ninf ∧
    F32.ninf ≠ F32.max ∧ F32.le F32.zero F32.ninf = false := by
  refine ⟨build_negDistance, rfl, by decide, by decide, by decide⟩

/-- C9, amended: on a built store whose flight costs and distances are all non-negative
and on which every walk of at most `numCities` flights from the source costs less than
`INT_MAX`, every entry of the result of `dijkstraCost` that is not `INT_MAX` is at least
zero, and every entry of the result of `dijkstraDistance` that is not the `float`
maximum is at least zero. -/
theorem finite_entries_nonneg (cities : Nat) (ops : List Op) (g : FlightGraph)
    (source : String) (i v : Nat) (hb : build cities ops = some g)
    (hs : mapFind g.cityIndex source = some i)
    (hnn : ∀ l ∈ g.adjList, ∀ f ∈ l, 0 ≤ f.cost)
    (hnd : ∀ l ∈ g.adjList, ∀ f ∈ l, F32.le F32.zero f.distance = true)
    (hsum : ∀ p w, IsWalk g.adjList i p w → p.length ≤ g.numCities → pathCost p < INT_MAX) :
    (∀ x, (g.dijkstraCost source).2[v]? = some x → x ≠ INT_MAX → 0 ≤ x) ∧
    (∀ y, (g.dijkstraDistance source).2[v]? = some y → y ≠ F32.max →
      F32.le F32.zero y = true) := by
  have hw := build_WF hb
  obtain ⟨mc, hlc, hc, _, hrange, _⟩ := dijkstraCost_bounded g hw source i hs hnn
    (fun p w hp hl => Int.le_of_lt (hsum p w hp hl))
  obtain ⟨md, hld, hd, _, hall⟩ := dijkstraDistance_nonneg g hw source i hs hnd
  rw [hc, hd]
  constructor
  · intro x hx _
    have h1 := (hrange v).1
    rw [List.getD_eq_getElem?_getD] at h1
    simp only at hx
    rw [hx] at h1
    simpa using h1
  · intro y hy _
    have h1 := hall v
    rw [List.getD_eq_getElem?_getD] at h1
    simp only at hy
    rw [hy] at h1
    simpa using h1

theorem finite_entries_nonneg_witness :
    build 3 exampleOps = some exampleGraph ∧
    mapFind exampleGraph.cityIndex "A" = some 0 ∧
    (∀ l ∈ exampleGraph.adjList, ∀ f ∈ l, 0 ≤ f.cost) ∧
    (∀ l ∈ exampleGraph.adjList, ∀ f ∈ l, F32.le F32.zero f.distance = true) ∧
    (∀ p w, IsWalk exampleGraph.adjList 0 p w → p.length ≤ exampleGraph.numCities →
      pathCost p < INT_MAX) ∧
    ((∀ x, (exampleGraph.dijkstraCost "A").2[2]? = some x → x ≠ INT_MAX → 0 ≤ x) ∧
    (∀ y, (exampleGraph.dijkstraDistance "A").2[2]? = some y → y ≠ F32.max →
      F32.le F32.zero y = true)) :=
  ⟨build_example, rfl, by decide, by decide, example_walk_costs 0,
    finite_entries_nonneg 3 exampleOps exampleGraph "A" 0 2 build_example rfl (by decide)
      (by decide) (example_walk_costs 0)⟩

/-! ## The scenario of the specification -/

/-- C11: with cities A, B, C registered at indices 0, 1, 2 and the flights A-B (cost 100,
distance 500, duration 1), B-C (cost 50, distance 300, duration 0.5) and A-C (cost 200,
distance 1000, duration 2), `dijkstraCost("A")` returns `[0, 100, 150]` and
`dijkstraDistance("A")` returns `[0, 500, 800]`. -/
theorem scenario_three_cities :
    build 3 exampleOps = some exampleGraph ∧
    (exampleGraph.dijkstraCost "A").2 = [0, 100, 150] ∧
    (exampleGraph.dijkstraDistance "A").2 = [F32.ofNat 0, F32.ofNat 500, F32.ofNat 800] :=
  ⟨rfl, by decide, by decide⟩

/-! ## Registration of cities -/

theorem addCity_of_lt (g : FlightGraph) (name : String) (i : Nat)
    (hi : i < g.cityNames.length) :
    g.addCity name (i : Int) =
      some { numCities := g.numCities
             adjList := g.adjList
             cityIndex := mapAssign g.cityIndex name i
             cityNames := g.cityNames.set i name } := by
  unfold FlightGraph.addCity
  rw [if_pos ⟨Int.natCast_nonneg i, by simpa using hi⟩]
  simp

/-- C13: on a built store, `addCity(name, i)` with `i` in `[0, numCities)` makes `name`
resolve to `i` and sets `cityNames[i]` to `name`; no other key of the map, no other slot
of the name list and no adjacency list changes.  Hence a name registered again at `j`
resolves to `j` only, and a second name registered at the same index replaces the first
in `cityNames[i]`. -/
theorem addCity_overwrites (cities : Nat) (ops : List Op) (g : FlightGraph) (name : String)
    (i : Nat) (hb : build cities ops = some g) (hi : i < g.numCities) :
    ∃ g1, g.addCity name (i : Int) = some g1 ∧
      mapFind g1.cityIndex name = some i ∧ g1.cityNames[i]? = some name ∧
      (∀ k, k ≠ name → mapFind g1.cityIndex k = mapFind g.cityIndex k) ∧
      (∀ j, j ≠ i → g1.cityNames[j]? = g.cityNames[j]?) ∧
      g1.adjList = g.adjList ∧ g1.numCities = g.numCities ∧
      (∀ j, j < g.numCities → ∃ g2, g1.addCity name (j : Int) = some g2 ∧
        mapFind g2.cityIndex name = some j) ∧
      (∀ name2, ∃ g2, g1.addCity name2 (i : Int) = some g2 ∧
        g2.cityNames[i]? = some name2) := by
  have hw := build_WF hb
  have hlen : i < g.cityNames.length := by rw [hw.2.1]; exact hi
  refine ⟨_, addCity_of_lt g name i hlen, ?_, ?_, ?_, ?_, rfl, rfl, ?_, ?_⟩
  · simp [mapFind_mapAssign]
  · simp [List.getElem?_set, hlen]
  · intro k hk
    simp [mapFind_mapAssign, hk]
  · intro j hj
    simp only
    rw [List.getElem?_set_ne (fun e => hj e.symm)]
  · intro j hj
    refine ⟨_, addCity_of_lt _ name j (by simpa [hw.2.1] using hj), ?_⟩
    simp [mapFind_mapAssign]
  · intro name2
    refine ⟨_, addCity_of_lt _ name2 i (by simpa using hlen), ?_⟩
    simp [List.getElem?_set, hlen]

theorem addCity_overwrites_witness :
    build 3 exampleOps = some exampleGraph ∧ 1 < exampleGraph.numCities ∧
    ∃ g1, exampleGraph.addCity "A" ((1 : Nat) : Int) = some g1 ∧
      mapFind g1.cityIndex "A" = some 1 ∧ g1.cityNames[1]? = some "A" :=
  ⟨build_example, by decide,
    let ⟨g1, h1, h2, h3, _⟩ :=
      addCity_overwrites 3 exampleOps exampleGraph "A" 1 build_example (by decide)
    ⟨g1, h1, h2, h3⟩⟩

theorem getElem?_snoc {α : Type} (l : List α) (a b : α) (i : Nat) :
    (l ++ [a])[i]? = some b ↔ (l[i]? = some b ∨ (i = l.length ∧ a = b)) := by
  rw [List.getElem?_append]
  split
  · rename_i h
    constructor
    · exact fun h1 => Or.inl h1
    · rintro (h1 | ⟨h1, _⟩)
      · exact h1
      · omega
  · rename_i h
    have hn : l[i]? = none := List.getElem?_eq_none (by omega)
    rw [hn]
    by_cases hi : i = l.length
    · subst hi
      simp
    · have : 0 < i - l.length := by omega
      have h2 : [a][i - l.length]? = none := List.getElem?_eq_none (by simp; omega)
      rw [h2]
      simp [hi]

theorem applyOps_registerFrom : ∀ (rest done : List String) (g : FlightGraph),
    g.cityNames.length = done.length + rest.length → (done ++ rest).Nodup →
    (∀ name i, mapFind g.cityIndex name = some i ↔ done[i]? = some name) →
    (∀ i, i < done.length → g.cityNames[i]? = done[i]?) →
    ∃ g1, applyOps g (registerFrom done.length rest) = some g1 ∧
      g1.numCities = g.numCities ∧ g1.adjList = g.adjList ∧
      g1.cityNames.length = g.cityNames.length ∧
      (∀ name i, mapFind g1.cityIndex name = some i ↔ (done ++ rest)[i]? = some name) ∧
      (∀ i, i < (done ++ rest).length → g1.cityNames[i]? = (done ++ rest)[i]?) := by
  intro rest
  induction rest with
  | nil =>
    intro done g _ _ hmap hnames
    refine ⟨g, rfl, rfl, rfl, rfl, ?_, ?_⟩
    · simpa using hmap
    · simpa using hnames
  | cons nm rest ih =>
    intro done g hlen hnd hmap hnames
    have hk : done.length < g.cityNames.length := by
      simp only [List.length_cons] at hlen
      omega
    have hnotin : nm ∉ done := by
      intro h
      have := List.nodup_append.mp hnd
      exact this.2.2 h (List.mem_cons_self _ _)
    have hdone : done ++ nm :: rest = (done ++ [nm]) ++ rest := by simp
    have hl1 : (done ++ [nm]).length = done.length + 1 := by simp
    obtain ⟨g1, h1, h2, h3, h4, h5, h6⟩ := ih (done ++ [nm])
      { numCities := g.numCities
        adjList := g.adjList
        cityIndex := mapAssign g.cityIndex nm done.length
        cityNames := g.cityNames.set done.length nm }
      (by simp only [List.length_set, hl1, hlen, List.length_cons]; omega)
      (by rw [← hdone]; exact hnd)
      (by
        intro name i
        simp only
        rw [mapFind_mapAssign, getElem?_snoc]
        by_cases hn : name = nm
        · subst hn
          rw [if_pos rfl]
          constructor
          · intro h
            injection h with h
            exact Or.inr ⟨h.symm, rfl⟩
          · rintro (h | ⟨h, _⟩)
            · exact absurd (List.getElem?_mem h) hnotin
            · rw [h]
        · rw [if_neg hn, hmap]
          constructor
          · exact fun h => Or.inl h
          · rintro (h | ⟨_, h⟩)
            · exact h
            · exact absurd h.symm hn)
      (by
        intro i hi
        simp only
        rw [hl1] at hi
        by_cases hik : i = done.length
        · subst hik
          rw [List.getElem?_set_self hk]
          simp
        · rw [List.getElem?_set_ne (fun e => hik e.symm), hnames i (by omega)]
          rw [List.getElem?_append_left (by omega)])
    refine ⟨g1, ?_, h2, h3, ?_, ?_, ?_⟩
    · simp only [registerFrom, applyOps, applyOp]
      rw [addCity_of_lt g nm done.length hk]
      simp only [Option.some_bind]
      rw [hl1] at h1
      exact h1
    · rw [h4]; simp
    · rw [hdone]; exact h5
    · rw [hdone]; exact h6

/-- The store after registering pairwise distinct names at the indices `0, 1, ...`: the
list of names is the one given, and a name resolves to `i` exactly when it is the name
given for `i`. -/
theorem registered_spec (names : List String) (hnd : names.Nodup) :
    ∃ g, registered names = some g ∧ g.numCities = names.length ∧ g.cityNames = names ∧
      ∀ name i, mapFind g.cityIndex name = some i ↔ names[i]? = some name := by
  obtain ⟨g, h1, h2, _, h4, h5, h6⟩ := applyOps_registerFrom names [] (FlightGraph.new names.length)
    (by simp [FlightGraph.new]) (by simpa using hnd)
    (by intro name i; simp [FlightGraph.new, mapFind])
    (by intro i hi; simp at hi)
  refine ⟨g, h1, h2, ?_, ?_⟩
  · apply List.ext_getElem?
    intro i
    by_cases hi : i < names.length
    · simpa using h6 i (by simpa using hi)
    · have hl : g.cityNames.length = names.length := by rw [h4]; simp [FlightGraph.new]
      rw [List.getElem?_eq_none (by omega), List.getElem?_eq_none (by omega)]
  · simpa using h5

/-- C12 fails as stated (for every registration of n cities): when the same name is
given for the indices 0 and 1, the name of index 0 resolves to 1, so the map is not the
inverse of the name list and index 0 has no name of its own. -/
theorem name_index_bijection_counterexample :
    ∃ g, registered ["A", "A"] = some g ∧ g.cityNames[0]? = some "A" ∧
      mapFind g.cityIndex "A" = some 1 ∧
      ¬ (∀ i, i < 2 → ∃ name, g.cityNames[i]? = some name ∧
          mapFind g.cityIndex name = some i) :=
  ⟨{ numCities := 2, adjList := [[], []], cityIndex := [("A", 1)], cityNames := ["A", "A"] },
    rfl, rfl, rfl, by
      intro h
      obtain ⟨name, h1, h2⟩ := h 0 (by decide)
      have : name = "A" := by
        simp at h1
        exact h1.symm
      subst this
      simp [mapFind] at h2⟩

/-- C12, amended: when `main` registers n pairwise distinct names at the indices
`0 .. n-1` of `FlightGraph(n)`, the name map and the name list are inverse bijections
between the registered names and `[0, n)`: a name is a key exactly when it was given, its
index is in range and holds the name, every index in range holds a name that resolves to
it, and no two names resolve to one index. -/
theorem name_index_bijection (names : List String) (hnd : names.Nodup) :
    ∃ g, registered names = some g ∧ g.numCities = names.length ∧
      (∀ name, name ∈ names ↔ mapFind g.cityIndex name ≠ none) ∧
      (∀ name i, mapFind g.cityIndex name = some i →
        i < names.length ∧ g.cityNames[i]? = some name) ∧
      (∀ i, i < names.length → ∃ name, g.cityNames[i]? = some name ∧
        mapFind g.cityIndex name = some i) ∧
      (∀ a b i, mapFind g.cityIndex a = some i → mapFind g.cityIndex b = some i → a = b) := by
  obtain ⟨g, h1, h2, h3, h4⟩ := registered_spec names hnd
  refine ⟨g, h1, h2, ?_, ?_, ?_, ?_⟩
  · intro name
    constructor
    · intro h
      obtain ⟨i, hi⟩ := List.getElem?_of_mem h
      rw [(h4 name i).mpr hi]
      simp
    · intro h
      obtain ⟨i, hi⟩ := Option.ne_none_iff_exists'.mp h
      exact List.getElem?_mem ((h4 name i).mp hi)
  · intro name i h
    have := (h4 name i).mp h
    refine ⟨?_, by rw [h3]; exact this⟩
    by_contra hc
    rw [List.getElem?_eq_none (by omega)] at this
    simp at this
  · intro i hi
    refine ⟨names[i], by rw [h3]; exact List.getElem?_eq_getElem hi, ?_⟩
    exact (h4 _ i).mpr (List.getElem?_eq_getElem hi)
  · intro a b i ha hb
    have h5 := (h4 a i).mp ha
    have h6 := (h4 b i).mp hb
    rw [h5] at h6
    injection h6

theorem name_index_bijection_witness :
    ["A", "B", "C"].Nodup ∧
    ∃ g, registered ["A", "B", "C"] = some g ∧ g.numCities = 3 ∧
      (∀ i, i < 3 → ∃ name, g.cityNames[i]? = some name ∧
        mapFind g.cityIndex name = some i) :=
  ⟨by decide,
    let ⟨g, h1, h2, _, _, h5, _⟩ := name_index_bijection ["A", "B", "C"] (by decide)
    ⟨g, h1, h2, h5⟩⟩

/-! ## Indices stay in range -/

theorem applyOps_numCities : ∀ (ops : List Op) (g g1 : FlightGraph),
    applyOps g ops = some g1 → g1.numCities = g.numCities := by
  intro ops
  induction ops with
  | nil =>
    intro g g1 h
    simp [applyOps] at h
    rw [h]
  | cons op ops ih =>
    intro g g1 h
    simp only [applyOps] at h
    cases op with
    | addCity name index =>
      simp only [applyOp] at h
      cases ha : g.addCity name index with
      | none => rw [ha] at h; simp at h
      | some g2 =>
        rw [ha] at h
        simp only [Option.some_bind] at h
        rw [ih g2 g1 h, (addCity_adjList ha).2]
    | addFlight u v c d t =>
      simp only [applyOp, Option.some_bind] at h
      rw [ih _ g1 h]
      by_cases hf : mapFind g.cityIndex u = none ∨ mapFind g.cityIndex v = none
      · rw [addFlight_of_not_find c d t hf]
      · simp only [FlightGraph.addFlight, if_neg hf]

theorem build_numCities {cities : Nat} {ops : List Op} {g : FlightGraph}
    (h : build cities ops = some g) : g.numCities = cities := by
  have := applyOps_numCities ops _ g h
  simpa [FlightGraph.new] using this

section InRange
variable {W : Type} [DecidableEq W] (M : Metric W)

theorem relax_pq_lt (n u : Nat) (st : DState W) (f : Flight) (hf : f.destination < n)
    (h : ∀ x ∈ st.pq, x.2 < n) : ∀ x ∈ (relax M u st f).pq, x.2 < n := by
  simp only [relax]
  split
  · intro x hx
    simp only [List.mem_cons] at hx
    rcases hx with hx | hx
    · rw [hx]; exact hf
    · exact h x hx
  · exact h

theorem dijkstraStep_pq_lt (adj : List (List Flight)) (n : Nat)
    (hadj : ∀ u f, f ∈ adj.getD u [] → f.destination < n) (st : DState W)
    (h : ∀ x ∈ st.pq, x.2 < n) : ∀ x ∈ (dijkstraStep M adj st).pq, x.2 < n := by
  cases htop : pqTop M st.pq with
  | none => simpa [dijkstraStep, htop] using h
  | some top =>
    have hpop : ∀ x ∈ st.pq.erase top, x.2 < n := fun x hx => h x (List.mem_of_mem_erase hx)
    rw [dijkstraStep_eq M adj st htop]
    split
    · exact hpop
    · exact foldl_inv (fun b : DState W => ∀ x ∈ b.pq, x.2 < n) _ _
        (fun b a ha hb => relax_pq_lt M n top.2 b a (hadj _ a ha) hb) _ hpop

/-- Every state of the loop of a query has a result vector of `numCities` entries and
names only cities below `numCities` in its queue. -/
theorem dijkstraLoop_in_range (g : FlightGraph) (hw : g.WF) (i : Nat) (hi : i < g.numCities)
    (k : Nat) :
    (dijkstraLoop M g.adjList k (dijkstraStart M g.numCities i)).minW.length = g.numCities ∧
    ∀ x ∈ (dijkstraLoop M g.adjList k (dijkstraStart M g.numCities i)).pq,
      x.2 < g.numCities := by
  refine ⟨by rw [dijkstraLoop_length, dijkstraStart_length], ?_⟩
  apply dijkstraLoop_inv M g.adjList (fun b : DState W => ∀ x ∈ b.pq, x.2 < g.numCities)
    (fun st hst _ => dijkstraStep_pq_lt M g.adjList g.numCities hw.2.2.2 st hst)
  intro x hx
  simp only [dijkstraStart, List.mem_singleton] at hx
  rw [hx]
  exact hi

end InRange

/-- C19: in a store built from `FlightGraph(n)` by `addCity` calls with an index in
`[0, n)` and any `addFlight` calls, the adjacency vector and the name vector have `n`
entries, every index in the name map and every stored destination is below `n`; hence,
in a query from a known source, the source index is below `n` and, in every state of the
loop of either query, the result vector has `n` entries, every queued city `u` is below
`n` (for `adjList[u]` and `minCost[u]`) and every flight of `adjList[u]` has its
destination below `n` (for `minCost[v]`). -/
theorem indexing_in_bounds (n : Nat) (ops : List Op) (g : FlightGraph)
    (hb : build n ops = some g) :
    g.numCities = n ∧ g.adjList.length = n ∧ g.cityNames.length = n ∧
    (∀ name i, mapFind g.cityIndex name = some i → i < n) ∧
    (∀ l ∈ g.adjList, ∀ f ∈ l, f.destination < n) ∧
    (∀ source i, mapFind g.cityIndex source = some i → i < n ∧ ∀ k,
      ((dijkstraLoop costMetric g.adjList k (dijkstraStart costMetric n i)).minW.length = n ∧
        ∀ x ∈ (dijkstraLoop costMetric g.adjList k (dijkstraStart costMetric n i)).pq,
          x.2 < g.adjList.length ∧ ∀ f ∈ g.adjList.getD x.2 [], f.destination < n) ∧
      ((dijkstraLoop distanceMetric g.adjList k
          (dijkstraStart distanceMetric n i)).minW.length = n ∧
        ∀ x ∈ (dijkstraLoop distanceMetric g.adjList k (dijkstraStart distanceMetric n i)).pq,
          x.2 < g.adjList.length ∧ ∀ f ∈ g.adjList.getD x.2 [], f.destination < n)) := by
  have hw := build_WF hb
  have hn := build_numCities hb
  obtain ⟨h1, h2, h3, h4⟩ := hw
  subst hn
  refine ⟨rfl, h1, h2, h3, ?_, ?_⟩
  · intro l hl f hf
    obtain ⟨u, hu⟩ := List.getElem?_of_mem hl
    apply h4 u f
    rw [List.getD_eq_getElem?_getD, hu]
    exact hf
  · intro source i hs
    have hi := h3 source i hs
    refine ⟨hi, fun k => ⟨?_, ?_⟩⟩
    · have := dijkstraLoop_in_range costMetric g ⟨h1, h2, h3, h4⟩ i hi k
      exact ⟨this.1, fun x hx => ⟨by rw [h1]; exact this.2 x hx, fun f hf => h4 _ f hf⟩⟩
    · have := dijkstraLoop_in_range distanceMetric g ⟨h1, h2, h3, h4⟩ i hi k
      exact ⟨this.1, fun x hx => ⟨by rw [h1]; exact this.2 x hx, fun f hf => h4 _ f hf⟩⟩

theorem indexing_in_bounds_witness :
    build 3 exampleOps = some exampleGraph ∧
    exampleGraph.numCities = 3 ∧ exampleGraph.adjList.length = 3 ∧
    exampleGraph.cityNames.length = 3 ∧
    (∀ l ∈ exampleGraph.adjList, ∀ f ∈ l, f.destination < 3) :=
  ⟨build_example,
    (indexing_in_bounds 3 exampleOps exampleGraph build_example).1,
    (indexing_in_bounds 3 exampleOps exampleGraph build_example).2.1,
    (indexing_in_bounds 3 exampleOps exampleGraph build_example).2.2.1,
    (indexing_in_bounds 3 exampleOps exampleGraph build_example).2.2.2.2.1⟩

/-! ## One iteration of the loop of `dijkstraCost` -/

/-- C14: in the loop of `dijkstraCost`, (1) after an iteration every entry of `minCost`
equals its value before the iteration or is strictly less; (2) the body of the `for`
loop changes the state only when the 32-bit sum `minCost[u] + flightCost` is strictly
less than `minCost[v]`, and then it stores exactly that sum in `minCost[v]` and pushes
`(sum, v)`; the 32-bit sum is the mathematical sum whenever that lies in the range of
`int`; (3) an iteration that pops a stale pair (its cost is greater than `minCost[u]`)
changes no entry and pushes nothing: only the popped pair leaves the queue; (4) any
other iteration removes the popped pair and runs the body on the flights of
`adjList[u]` in order. -/
theorem relaxation_is_monotone :
    (∀ (adj : List (List Flight)) (st : DState Int) (v : Nat),
      (dijkstraStep costMetric adj st).minW.getD v INT_MAX = st.minW.getD v INT_MAX ∨
      (dijkstraStep costMetric adj st).minW.getD v INT_MAX < st.minW.getD v INT_MAX) ∧
    (∀ (u : Nat) (st : DState Int) (f : Flight),
      (wrap32 (st.minW.getD u INT_MAX + f.cost) < st.minW.getD f.destination INT_MAX →
        relax costMetric u st f =
          { minW := st.minW.set f.destination (wrap32 (st.minW.getD u INT_MAX + f.cost))
            pq := (wrap32 (st.minW.getD u INT_MAX + f.cost), f.destination) :: st.pq }) ∧
      (¬ wrap32 (st.minW.getD u INT_MAX + f.cost) < st.minW.getD f.destination INT_MAX →
        relax costMetric u st f = st) ∧
      (-2147483648 ≤ st.minW.getD u INT_MAX + f.cost →
        st.minW.getD u INT_MAX + f.cost ≤ 2147483647 →
        wrap32 (st.minW.getD u INT_MAX + f.cost) = st.minW.getD u INT_MAX + f.cost)) ∧
    (∀ (adj : List (List Flight)) (st : DState Int) (top : Int × Nat),
      pqTop costMetric st.pq = some top → st.minW.getD top.2 INT_MAX < top.1 →
        dijkstraStep costMetric adj st = { minW := st.minW, pq := st.pq.erase top }) ∧
    (∀ (adj : List (List Flight)) (st : DState Int) (top : Int × Nat),
      pqTop costMetric st.pq = some top → ¬ st.minW.getD top.2 INT_MAX < top.1 →
        dijkstraStep costMetric adj st =
          (adj.getD top.2 []).foldl (relax costMetric top.2)
            { minW := st.minW, pq := st.pq.erase top }) := by
  refine ⟨?_, ?_, ?_, ?_⟩
  · intro adj st v
    have h := dijkstraStep_Below costMetric costMetric_trans
      (fun v => st.minW.getD v INT_MAX) adj st (fun v => Or.inl rfl) v
    rcases h with h | h
    · exact Or.inl h
    · right
      have h2 : decide ((dijkstraStep costMetric adj st).minW.getD v INT_MAX
          < st.minW.getD v INT_MAX) = true := h
      simpa using h2
  · intro u st f
    refine ⟨?_, ?_, ?_⟩
    · intro h
      simp only [relax]
      rw [if_pos]
      · rfl
      · simpa [costMetric] using h
    · intro h
      simp only [relax]
      rw [if_neg]
      simpa [costMetric] using h
    · intro h1 h2
      exact wrap32_of_range h1 h2
  · intro adj st top htop hstale
    rw [dijkstraStep_eq costMetric adj st htop, if_pos]
    simpa [costMetric] using hstale
  · intro adj st top htop hstale
    rw [dijkstraStep_eq costMetric adj st htop, if_neg]
    simpa [costMetric] using hstale

/-! ## The loop of `dijkstraCost` ends with an empty queue -/

/-- C15: on a built store and for a known source, the loop of `dijkstraCost` performs a
finite number `k` of iterations: after each of the first `k - 1` the queue is not empty
(the loop goes on), after the `k`-th it is empty, and the vector returned is the one of
that state.  The number of iterations is bounded through the entries, which only
decrease; no assumption on the costs is needed for this in 32-bit arithmetic. -/
theorem dijkstraCost_loop_terminates (cities : Nat) (ops : List Op) (g : FlightGraph)
    (source : String) (i : Nat) (hb : build cities ops = some g)
    (hs : mapFind g.cityIndex source = some i) :
    ∃ k, k ≤ g.numCities * 2 ^ 32 + 2 ∧
      (dijkstraLoop costMetric g.adjList k (dijkstraStart costMetric g.numCities i)).pq = [] ∧
      (∀ j, j < k →
        (dijkstraLoop costMetric g.adjList j
          (dijkstraStart costMetric g.numCities i)).pq ≠ []) ∧
      (g.dijkstraCost source).2 =
        (dijkstraLoop costMetric g.adjList k (dijkstraStart costMetric g.numCities i)).minW := by
  have hw := build_WF hb
  obtain ⟨hF, _⟩ := dijkstra_terminates costMetric rankInt (2 ^ 32) costMetric_rank rankInt_le
    g hw i
  have hex : ∃ k, (dijkstraLoop costMetric g.adjList k
      (dijkstraStart costMetric g.numCities i)).pq = [] := ⟨_, hF⟩
  have hle : Nat.find hex ≤ g.numCities * 2 ^ 32 + 2 := Nat.find_min' hex hF
  refine ⟨Nat.find hex, hle, Nat.find_spec hex, fun j hj => Nat.find_min hex hj, ?_⟩
  have hst := dijkstraLoop_stable costMetric g.adjList (Nat.find hex) _ (Nat.find_spec hex)
    (g.numCities * 2 ^ 32 + 2 - Nat.find hex)
  have e : Nat.find hex + (g.numCities * 2 ^ 32 + 2 - Nat.find hex)
      = g.numCities * 2 ^ 32 + 2 := by omega
  rw [e] at hst
  rw [← hst]
  show (dijkstra costMetric (2 ^ 32) g source).2 = _
  rw [dijkstra_known costMetric (2 ^ 32) g source i hs]

theorem dijkstraCost_loop_terminates_witness :
    build 3 exampleOps = some exampleGraph ∧
    mapFind exampleGraph.cityIndex "A" = some 0 ∧
    ∃ k, (dijkstraLoop costMetric exampleGraph.adjList k
        (dijkstraStart costMetric exampleGraph.numCities 0)).pq = [] ∧
      (exampleGraph.dijkstraCost "A").2 =
        (dijkstraLoop costMetric exampleGraph.adjList k
          (dijkstraStart costMetric exampleGraph.numCities 0)).minW :=
  ⟨build_example, rfl,
    let ⟨k, _, h2, _, h4⟩ :=
      dijkstraCost_loop_terminates 3 exampleOps exampleGraph "A" 0 build_example rfl
    ⟨k, h2, h4⟩⟩

/-! ## The adjacency store is symmetric -/

theorem count_single_if (p : Prop) [Decidable p] (x e : Flight) :
    List.count e (if p then [x] else []) = if p ∧ x = e then 1 else 0 := by
  by_cases hp : p
  · by_cases hx : x = e
    · subst hx
      simp [hp]
    · simp [hp, hx, List.count_cons]
  · simp [hp]

theorem new_CountSym (cities : Nat) : (FlightGraph.new cities).CountSym := by
  intro i j c d t
  have h : ∀ k, (FlightGraph.new cities).adjList.getD k [] = [] := by
    intro k
    simp only [FlightGraph.new, List.getD_eq_getElem?_getD, List.getElem?_replicate]
    split <;> rfl
  rw [h i, h j]
  simp

theorem addFlight_CountSym {g : FlightGraph} (u v : String) (c0 : Int) (d0 t0 : F32)
    (hw : g.WF) (hs : g.CountSym) : (g.addFlight u v c0 d0 t0).CountSym := by
  cases hu : mapFind g.cityIndex u with
  | none => rw [addFlight_of_not_find c0 d0 t0 (Or.inl hu)]; exact hs
  | some ia =>
    cases hv : mapFind g.cityIndex v with
    | none => rw [addFlight_of_not_find c0 d0 t0 (Or.inr hv)]; exact hs
    | some ja =>
      have hg := addFlight_getD c0 d0 t0 hw hu hv
      intro i j c d t
      rw [hg i, hg j]
      simp only [List.count_append, count_single_if, Flight.mk.injEq]
      have h1 := hs i j c d t
      have e1 : (i = ia ∧ ja = j ∧ c0 = c ∧ d0 = d ∧ t0 = t) ↔
          (j = ja ∧ ia = i ∧ c0 = c ∧ d0 = d ∧ t0 = t) := by
        constructor
        · rintro ⟨a, b, r⟩
          exact ⟨b.symm, a.symm, r⟩
        · rintro ⟨a, b, r⟩
          exact ⟨b.symm, a.symm, r⟩
      have e2 : (i = ja ∧ ia = j ∧ c0 = c ∧ d0 = d ∧ t0 = t) ↔
          (j = ia ∧ ja = i ∧ c0 = c ∧ d0 = d ∧ t0 = t) := by
        constructor
        · rintro ⟨a, b, r⟩
          exact ⟨b.symm, a.symm, r⟩
        · rintro ⟨a, b, r⟩
          exact ⟨b.symm, a.symm, r⟩
      rw [if_congr e1 rfl rfl, if_congr e2 rfl rfl, h1]
      omega

theorem applyOps_CountSym : ∀ (ops : List Op) (g g1 : FlightGraph), g.WF → g.CountSym →
    applyOps g ops = some g1 → g1.CountSym := by
  intro ops
  induction ops with
  | nil =>
    intro g g1 _ hs h
    simp [applyOps] at h
    subst h
    exact hs
  | cons op ops ih =>
    intro g g1 hw hs h
    simp only [applyOps] at h
    cases op with
    | addCity name index =>
      simp only [applyOp] at h
      cases ha : g.addCity name index with
      | none => rw [ha] at h; simp at h
      | some g2 =>
        rw [ha] at h
        simp only [Option.some_bind] at h
        have hadj := addCity_adjList ha
        refine ih g2 g1 (addCity_WF hw ha) ?_ h
        intro i j c d t
        rw [hadj.1]
        exact hs i j c d t
    | addFlight u v c d t =>
      simp only [applyOp, Option.some_bind] at h
      exact ih _ g1 (addFlight_WF u v c d t hw) (addFlight_CountSym u v c d t hw hs) h

theorem build_CountSym {cities : Nat} {ops : List Op} {g : FlightGraph}
    (h : build cities ops = some g) : g.CountSym :=
  applyOps_CountSym ops _ g (new_WF cities) (new_CountSym cities) h

theorem CountSym_mem {g : FlightGraph} (hs : g.CountSym) (u : Nat) (f : Flight)
    (hf : f ∈ g.adjList.getD u []) :
    (⟨u, f.cost, f.distance, f.duration⟩ : Flight) ∈ g.adjList.getD f.destination [] := by
  have h := hs u f.destination f.cost f.distance f.duration
  have hpos : 0 < (g.adjList.getD u []).count ⟨f.destination, f.cost, f.distance, f.duration⟩ :=
    List.count_pos_iff.mpr hf
  rw [h] at hpos
  exact List.count_pos_iff.mp hpos

/-! ## The result of `dijkstraCost` is determined by the costs of the walks -/

theorem nonneg_getD {adj : List (List Flight)} (hnn : ∀ l ∈ adj, ∀ f ∈ l, 0 ≤ f.cost) :
    ∀ u f, f ∈ adj.getD u [] → 0 ≤ f.cost := by
  intro u f hf
  obtain ⟨l, hl, hfl⟩ := mem_of_mem_getD adj u f hf
  exact hnn l hl f hfl

theorem mem_adj_of_getD {adj : List (List Flight)} {f : Flight} {l : List Flight}
    (hl : l ∈ adj) (hf : f ∈ l) : ∃ k, f ∈ adj.getD k [] := by
  obtain ⟨k, hk⟩ := List.getElem?_of_mem hl
  refine ⟨k, ?_⟩
  rw [List.getD_eq_getElem?_getD, hk]
  exact hf

theorem dijkstraCost_char (g : FlightGraph) (hw : g.WF) (source : String) (i : Nat)
    (hfind : mapFind g.cityIndex source = some i)
    (hnn : ∀ l ∈ g.adjList, ∀ f ∈ l, 0 ≤ f.cost)
    (hsum : ∀ p w, IsWalk g.adjList i p w → p.length ≤ g.numCities → pathCost p < INT_MAX) :
    ∃ mc : List Int, mc.length = g.numCities ∧ g.dijkstraCost source = (g, mc) ∧
      IsCostResult g.adjList i mc := by
  have hi : i < g.numCities := hw.2.2.1 source i hfind
  obtain ⟨mc, hlen, hres, _, hrange, hreal, hopt⟩ := dijkstraCost_bounded g hw source i hfind
    hnn (fun p w hp hl => Int.le_of_lt (hsum p w hp hl))
  refine ⟨mc, hlen, hres, ?_⟩
  intro v
  refine ⟨(hrange v).2, ?_, ?_⟩
  · rintro ⟨p, hp⟩
    obtain ⟨q, hq, hql, _⟩ := exists_short_walk g.adjList g.numCities hw.2.2.2
      (nonneg_getD hnn) p i v hi hp
    have h1 := hopt v q hq
    have h2 := hsum q v hq (by omega)
    exact ⟨hreal v (Or.inr (by omega)), hopt v⟩
  · intro hnr
    by_cases hv : v < g.numCities
    · have := (unreachable_entries g hw source i v hfind hv hnr).1
      rw [hres] at this
      rw [List.getD_eq_getElem?_getD, this]
      rfl
    · rw [List.getD_eq_getElem?_getD, List.getElem?_eq_none (by omega)]
      rfl

theorem IsCostResult_le {adjX adjY : List (List Flight)} {i j v w : Nat} {mcX mcY : List Int}
    (hX : IsCostResult adjX i mcX) (hY : IsCostResult adjY j mcY)
    (h : ∀ p, IsWalk adjX i p v → ∃ q, IsWalk adjY j q w ∧ pathCost q ≤ pathCost p) :
    mcY.getD w INT_MAX ≤ mcX.getD v INT_MAX := by
  by_cases hr : Reachable adjX i v
  · obtain ⟨⟨p, hp, hpc⟩, _⟩ := (hX v).2.1 hr
    obtain ⟨q, hq, hqc⟩ := h p hp
    have := ((hY w).2.1 ⟨q, hq⟩).2 q hq
    omega
  · rw [(hX v).2.2 hr]
    exact (hY w).1

theorem list_eq_of_getD {α : Type} (l1 l2 : List α) (d : α) (hl : l1.length = l2.length)
    (h : ∀ v, l1.getD v d = l2.getD v d) : l1 = l2 := by
  apply List.ext_getElem?
  intro v
  by_cases hv : v < l1.length
  · have := h v
    rw [List.getD_eq_getElem?_getD, List.getD_eq_getElem?_getD,
      List.getElem?_eq_getElem hv, List.getElem?_eq_getElem (hl ▸ hv)] at this
    rw [List.getElem?_eq_getElem hv, List.getElem?_eq_getElem (hl ▸ hv)]
    simpa using this
  · rw [List.getElem?_eq_none (by omega), List.getElem?_eq_none (by omega)]

theorem getD_of_getElem? {α : Type} (l : List α) (v : Nat) (d x : α) (h : l[v]? = some x) :
    l.getD v d = x := by
  rw [List.getD_eq_getElem?_getD, h]
  rfl

/-! ## Walks in a larger store, in a store with cheaper flights, and backwards -/

theorem IsWalk_mono {adj1 adj2 : List (List Flight)}
    (h : ∀ u f, f ∈ adj1.getD u [] → f ∈ adj2.getD u []) :
    ∀ (p : List Flight) (u v : Nat), IsWalk adj1 u p v → IsWalk adj2 u p v := by
  intro p
  induction p with
  | nil => intro u v hp; exact hp
  | cons f p ih => intro u v hp; exact ⟨h u f hp.1, ih _ _ hp.2⟩

theorem IsWalk_transfer {adj1 adj2 : List (List Flight)}
    (h : ∀ u f, f ∈ adj1.getD u [] →
      ∃ f1, f1 ∈ adj2.getD u [] ∧ f1.destination = f.destination ∧ f1.cost ≤ f.cost) :
    ∀ (p : List Flight) (u v : Nat), IsWalk adj1 u p v →
      ∃ q, IsWalk adj2 u q v ∧ pathCost q ≤ pathCost p := by
  intro p
  induction p with
  | nil => intro u v hp; exact ⟨[], hp, Int.le_refl _⟩
  | cons f p ih =>
    intro u v hp
    obtain ⟨f1, hf1, hd, hc⟩ := h u f hp.1
    obtain ⟨q, hq, hqc⟩ := ih _ _ hp.2
    refine ⟨f1 :: q, ⟨hf1, by rw [hd]; exact hq⟩, ?_⟩
    rw [pathCost_cons, pathCost_cons]
    omega

theorem IsWalk_reverse {adj : List (List Flight)}
    (hsym : ∀ u f, f ∈ adj.getD u [] →
      ∃ f1, f1 ∈ adj.getD f.destination [] ∧ f1.destination = u ∧ f1.cost = f.cost) :
    ∀ (p : List Flight) (u v : Nat), IsWalk adj u p v →
      ∃ q, IsWalk adj v q u ∧ pathCost q = pathCost p ∧ q.length = p.length := by
  intro p
  induction p with
  | nil => intro u v hp; exact ⟨[], hp.symm, rfl, rfl⟩
  | cons f p ih =>
    intro u v hp
    obtain ⟨f1, hf1, hd, hc⟩ := hsym u f hp.1
    obtain ⟨q, hq, hqc, hql⟩ := ih _ _ hp.2
    refine ⟨q ++ [f1], ?_, ?_, ?_⟩
    · have := IsWalk_snoc adj q v f.destination f1 hq hf1
      rw [hd] at this
      exact this
    · rw [pathCost_append, pathCost_cons]
      omega
    · simp [hql]

theorem build_asym : build 3 asymOps = some asymGraph := rfl

theorem build_unit : build 2 unitOps = some unitGraph := rfl

/-! ## The symmetric store and the two directions of a query -/

/-- C20 (as stated, refuted): on the store with the flights A-B of cost 1 and B-C of cost
`INT_MAX`, whose costs are all non-negative, `dijkstraCost("A")` holds `-2147483648` at the
index of C while `dijkstraCost("C")` holds `INT_MAX` at the index of A. -/
theorem symmetric_results_counterexample :
    build 3 asymOps = some asymGraph ∧
    (∀ l ∈ asymGraph.adjList, ∀ f ∈ l, 0 ≤ f.cost) ∧
    mapFind asymGraph.cityIndex "A" = some 0 ∧
    mapFind asymGraph.cityIndex "C" = some 2 ∧
    (asymGraph.dijkstraCost "A").2[2]? = some (-2147483648) ∧
    (asymGraph.dijkstraCost "C").2[0]? = some 2147483647 ∧
    (asymGraph.dijkstraCost "A").2[2]? ≠ (asymGraph.dijkstraCost "C").2[0]? :=
  ⟨rfl, by decide, rfl, rfl, by decide, by decide, by decide⟩

/-- C20 (amended): in every store built from `FlightGraph(n)` by `addCity` and `addFlight`
calls, the number of entries `(j, cost, distance, duration)` in `adjList[i]` equals the
number of entries `(i, cost, distance, duration)` in `adjList[j]`; and when all costs are
non-negative and every walk of at most `numCities` flights that starts at `a` or at `b`
costs less than `INT_MAX`, the entry of `dijkstraCost(a)` at the index of `b` equals the
entry of `dijkstraCost(b)` at the index of `a`. -/
theorem adjacency_is_symmetric (cities : Nat) (ops : List Op) (g : FlightGraph)
    (hb : build cities ops = some g) :
    (∀ (i j : Nat) (c : Int) (d t : F32),
      (g.adjList.getD i []).count ⟨j, c, d, t⟩ = (g.adjList.getD j []).count ⟨i, c, d, t⟩) ∧
    ∀ (a b : String) (ia ib : Nat),
      mapFind g.cityIndex a = some ia → mapFind g.cityIndex b = some ib →
      (∀ l ∈ g.adjList, ∀ f ∈ l, 0 ≤ f.cost) →
      (∀ p w, IsWalk g.adjList ia p w → p.length ≤ g.numCities → pathCost p < INT_MAX) →
      (∀ p w, IsWalk g.adjList ib p w → p.length ≤ g.numCities → pathCost p < INT_MAX) →
      ∃ x, (g.dijkstraCost a).2[ib]? = some x ∧ (g.dijkstraCost b).2[ia]? = some x := by
  have hw := build_WF hb
  have hcs : g.CountSym := build_CountSym hb
  refine ⟨hcs, ?_⟩
  intro a b ia ib ha hbb hnn hsa hsb
  have hia : ia < g.numCities := hw.2.2.1 a ia ha
  have hib : ib < g.numCities := hw.2.2.1 b ib hbb
  obtain ⟨mcA, hlA, hrA, hA⟩ := dijkstraCost_char g hw a ia ha hnn hsa
  obtain ⟨mcB, hlB, hrB, hB⟩ := dijkstraCost_char g hw b ib hbb hnn hsb
  have hsym : ∀ u f, f ∈ g.adjList.getD u [] →
      ∃ f1, f1 ∈ g.adjList.getD f.destination [] ∧ f1.destination = u ∧ f1.cost = f.cost :=
    fun u f hf => ⟨⟨u, f.cost, f.distance, f.duration⟩, CountSym_mem hcs u f hf, rfl, rfl⟩
  have h1 : mcB.getD ia INT_MAX ≤ mcA.getD ib INT_MAX := by
    apply IsCostResult_le hA hB
    intro p hp
    obtain ⟨q, hq, hqc, _⟩ := IsWalk_reverse hsym p ia ib hp
    exact ⟨q, hq, Int.le_of_eq hqc⟩
  have h2 : mcA.getD ib INT_MAX ≤ mcB.getD ia INT_MAX := by
    apply IsCostResult_le hB hA
    intro p hp
    obtain ⟨q, hq, hqc, _⟩ := IsWalk_reverse hsym p ib ia hp
    exact ⟨q, hq, Int.le_of_eq hqc⟩
  rw [hrA, hrB]
  exact ⟨mcA.getD ib INT_MAX, getElem?_of_getD mcA ib INT_MAX _ (by omega) rfl,
    getElem?_of_getD mcB ia INT_MAX _ (by omega) (by omega)⟩

theorem adjacency_is_symmetric_witness :
    build 3 exampleOps = some exampleGraph ∧
    (exampleGraph.adjList.getD 1 []).count ⟨2, 50, F32.ofNat 300, F32.fin (2 ^ 148)⟩ =
      (exampleGraph.adjList.getD 2 []).count ⟨1, 50, F32.ofNat 300, F32.fin (2 ^ 148)⟩ ∧
    ∃ x, (exampleGraph.dijkstraCost "A").2[2]? = some x ∧
      (exampleGraph.dijkstraCost "C").2[0]? = some x :=
  have h := adjacency_is_symmetric 3 exampleOps exampleGraph build_example
  ⟨build_example, h.1 1 2 50 (F32.ofNat 300) (F32.fin (2 ^ 148)),
    h.2 "A" "C" 0 2 rfl rfl (by decide) (example_walk_costs 0) (example_walk_costs 2)⟩

/-! ## Parallel flights -/

theorem addFlight_same {g : FlightGraph} (u v : String) (c : Int) (d t : F32) :
    (g.addFlight u v c d t).cityIndex = g.cityIndex ∧
    (g.addFlight u v c d t).numCities = g.numCities := by
  cases hu : mapFind g.cityIndex u with
  | none => rw [addFlight_of_not_find c d t (Or.inl hu)]; exact ⟨rfl, rfl⟩
  | some i =>
    cases hv : mapFind g.cityIndex v with
    | none => rw [addFlight_of_not_find c d t (Or.inr hv)]; exact ⟨rfl, rfl⟩
    | some j => rw [addFlight_of_find c d t hu hv]; exact ⟨rfl, rfl⟩

theorem addFlight_extends {g : FlightGraph} (u v : String) (c : Int) (d t : F32) (hw : g.WF)
    (k : Nat) :
    ∃ extra, (g.addFlight u v c d t).adjList.getD k [] = g.adjList.getD k [] ++ extra := by
  cases hu : mapFind g.cityIndex u with
  | none => rw [addFlight_of_not_find c d t (Or.inl hu)]; exact ⟨[], by simp⟩
  | some i =>
    cases hv : mapFind g.cityIndex v with
    | none => rw [addFlight_of_not_find c d t (Or.inr hv)]; exact ⟨[], by simp⟩
    | some j =>
      rw [addFlight_getD c d t hw hu hv k, List.append_assoc]
      exact ⟨_, rfl⟩

/-- C17 (as stated, refuted): the store with one flight A-B of cost 1 has non-negative
costs and `dijkstraCost("A") = [0, 1]`; after a second flight A-B of cost `INT_MAX`, which
is not cheaper and leaves all costs non-negative, the result is
`[-2147483648, -2147483647]`. -/
theorem parallel_flight_counterexample :
    build 2 unitOps = some unitGraph ∧
    (∀ l ∈ (unitGraph.addFlight "A" "B" 2147483647 (F32.ofNat 1) (F32.ofNat 1)).adjList,
      ∀ f ∈ l, 0 ≤ f.cost) ∧
    (⟨1, 1, F32.ofNat 1, F32.ofNat 1⟩ : Flight) ∈ unitGraph.adjList.getD 0 [] ∧
    (unitGraph.dijkstraCost "A").2 = [0, 1] ∧
    ((unitGraph.addFlight "A" "B" 2147483647 (F32.ofNat 1) (F32.ofNat 1)).dijkstraCost "A").2
      = [-2147483648, -2147483647] :=
  ⟨rfl, by decide, by decide, by decide, by decide⟩

/-- C17 (amended): `addFlight` keeps every existing entry of every adjacency list, in
place; and on a built store, if after adding a flight between `u` and `v` all costs are
non-negative and every walk of at most `numCities` flights from the source costs less than
`INT_MAX`, then no entry of `dijkstraCost(source)` is larger than before, and when the two
cities already share a flight that costs no more than the new one the result is
unchanged. -/
theorem parallel_flights_cheapest_wins (cities : Nat) (ops : List Op) (g : FlightGraph)
    (u v : String) (cost : Int) (distance duration : F32)
    (hb : build cities ops = some g) :
    (∀ k, ∃ extra, (g.addFlight u v cost distance duration).adjList.getD k [] =
      g.adjList.getD k [] ++ extra) ∧
    ∀ (source : String) (s : Nat), mapFind g.cityIndex source = some s →
      (∀ l ∈ (g.addFlight u v cost distance duration).adjList, ∀ f ∈ l, 0 ≤ f.cost) →
      (∀ p w, IsWalk (g.addFlight u v cost distance duration).adjList s p w →
        p.length ≤ g.numCities → pathCost p < INT_MAX) →
      (∀ (w : Nat) (x y : Int),
        ((g.addFlight u v cost distance duration).dijkstraCost source).2[w]? = some x →
        (g.dijkstraCost source).2[w]? = some y → x ≤ y) ∧
      (∀ i j f0, mapFind g.cityIndex u = some i → mapFind g.cityIndex v = some j →
        f0 ∈ g.adjList.getD i [] → f0.destination = j → f0.cost ≤ cost →
        ((g.addFlight u v cost distance duration).dijkstraCost source).2 =
          (g.dijkstraCost source).2) := by
  have hw := build_WF hb
  have hcs : g.CountSym := build_CountSym hb
  have hw1 := addFlight_WF u v cost distance duration hw
  have hext := addFlight_extends u v cost distance duration hw
  obtain ⟨hci, hnc⟩ := addFlight_same (g := g) u v cost distance duration
  refine ⟨hext, ?_⟩
  intro source s hs hnn hsum
  generalize hg1 : g.addFlight u v cost distance duration = g1 at *
  have hmono : ∀ k f, f ∈ g.adjList.getD k [] → f ∈ g1.adjList.getD k [] := by
    intro k f hf
    obtain ⟨extra, he⟩ := hext k
    rw [he]
    exact List.mem_append_left _ hf
  have hnn0 : ∀ l ∈ g.adjList, ∀ f ∈ l, 0 ≤ f.cost := by
    intro l hl f hf
    obtain ⟨k, hk⟩ := mem_adj_of_getD hl hf
    exact nonneg_getD hnn k f (hmono k f hk)
  have hsum0 : ∀ p w, IsWalk g.adjList s p w → p.length ≤ g.numCities →
      pathCost p < INT_MAX :=
    fun p w hp hl => hsum p w (IsWalk_mono hmono p s w hp) hl
  obtain ⟨mc1, hl1, hr1, h1⟩ := dijkstraCost_char g1 hw1 source s (by rw [hci]; exact hs) hnn
    (by rw [hnc]; exact hsum)
  obtain ⟨mc0, hl0, hr0, h0⟩ := dijkstraCost_char g hw source s hs hnn0 hsum0
  have hle : ∀ w, mc1.getD w INT_MAX ≤ mc0.getD w INT_MAX := by
    intro w
    apply IsCostResult_le h0 h1
    intro p hp
    exact ⟨p, IsWalk_mono hmono p s w hp, Int.le_refl _⟩
  rw [hr1, hr0]
  refine ⟨?_, ?_⟩
  · intro w x y hx hy
    have := hle w
    rw [getD_of_getElem? mc1 w INT_MAX x hx, getD_of_getElem? mc0 w INT_MAX y hy] at this
    exact this
  · intro i j f0 hu hv hf0 hd hc
    show mc1 = mc0
    apply list_eq_of_getD mc1 mc0 INT_MAX (by rw [hl1, hl0, hnc])
    intro w
    apply Int.le_antisymm (hle w)
    apply IsCostResult_le h1 h0
    intro p hp
    refine IsWalk_transfer ?_ p s w hp
    intro k f hf
    rw [← hg1, addFlight_getD cost distance duration hw hu hv k] at hf
    rcases List.mem_append.mp hf with hf | hf
    · rcases List.mem_append.mp hf with hf | hf
      · exact ⟨f, hf, rfl, Int.le_refl _⟩
      · by_cases hk : k = i
        · rw [if_pos hk] at hf
          rw [List.mem_singleton] at hf
          subst hf
          subst hk
          exact ⟨f0, hf0, hd, hc⟩
        · rw [if_neg hk] at hf
          cases hf
    · by_cases hk : k = j
      · rw [if_pos hk] at hf
        rw [List.mem_singleton] at hf
        subst hf
        have := CountSym_mem hcs i f0 hf0
        rw [hd] at this
        rw [hk]
        exact ⟨_, this, rfl, hc⟩
      · rw [if_neg hk] at hf
        cases hf

theorem parallel_flights_cheapest_wins_witness :
    build 2 unitOps = some unitGraph ∧
    (∀ k, ∃ extra, (unitGraph.addFlight "A" "B" 2 (F32.ofNat 1) (F32.ofNat 1)).adjList.getD k [] =
      unitGraph.adjList.getD k [] ++ extra) ∧
    ((unitGraph.addFlight "A" "B" 2 (F32.ofNat 1) (F32.ofNat 1)).dijkstraCost "A").2 =
      (unitGraph.dijkstraCost "A").2 :=
  have h := parallel_flights_cheapest_wins 2 unitOps unitGraph "A" "B" 2 (F32.ofNat 1)
    (F32.ofNat 1) build_unit
  have hsum : ∀ p w,
      IsWalk (unitGraph.addFlight "A" "B" 2 (F32.ofNat 1) (F32.ofNat 1)).adjList 0 p w →
      p.length ≤ unitGraph.numCities → pathCost p < INT_MAX := by
    intro p w hp hl
    have h1 := pathCost_le_mul _ 2 (by decide) p 0 w hp
    have h2 : (p.length : Int) ≤ 2 := by exact_mod_cast hl
    have h3 : INT_MAX = 2147483647 := rfl
    omega
  ⟨build_unit, h.1,
    (h.2 "A" 0 rfl (by decide) hsum).2 0 1 ⟨1, 1, F32.ofNat 1, F32.ofNat 1⟩ rfl rfl
      (by decide) rfl (by decide)⟩

/-! ## Another query that follows `dijkstraCost` step by step -/

theorem getD_map_default {α β : Type} (f : α → β) (l : List α) (v : Nat) (d : α) :
    (l.map f).getD v (f d) = f (l.getD v d) := by
  simp only [List.getD_eq_getElem?_getD, List.getElem?_map]
  cases l[v]? <;> rfl

theorem erase_map_inj {α β : Type} [BEq α] [LawfulBEq α] [BEq β] [LawfulBEq β]
    (f : α → β) (a : α) :
    ∀ (l : List α), (∀ x ∈ l, f x = f a → x = a) →
      (l.map f).erase (f a) = (l.erase a).map f := by
  intro l
  induction l with
  | nil => intro _; rfl
  | cons x l ih =>
    intro h
    by_cases hx : x = a
    · subst hx; simp
    · have hfx : f x ≠ f a := fun h1 => hx (h x (List.mem_cons_self _ _) h1)
      simp only [List.map_cons, List.erase_cons, beq_iff_eq, hx, hfx, if_false]
      rw [ih (fun y hy => h y (List.mem_cons_of_mem _ hy))]

section Sim
variable {W : Type} [DecidableEq W] (M2 : Metric W) (e : Int → W) (B : Int)
variable (adj : List (List Flight))

theorem Follows_inj (hF : Follows M2 e B adj) (a b : Int) (ha : InV B a) (hb : InV B b)
    (h : e a = e b) : a = b := by
  obtain ⟨_, _, helt, _⟩ := hF
  have h1 := helt a b ha hb
  have h2 := helt b a hb ha
  have h3 := helt a a ha ha
  rw [h] at h1 h2 h3
  have h4 : decide (a < b) = decide (a < a) := h1.symm.trans h3
  have h5 : decide (b < a) = decide (a < a) := h2.symm.trans h3
  simp at h4 h5
  omega

theorem pairLt_sim (hF : Follows M2 e B adj) (a b : Int × Nat) (ha : InV B a.1)
    (hb : InV B b.1) : pairLt M2 (e a.1, a.2) (e b.1, b.2) = pairLt costMetric a b := by
  obtain ⟨_, _, helt, _⟩ := hF
  simp only [pairLt]
  rw [helt _ _ ha hb, helt _ _ hb ha]
  rfl

theorem pqMin_sim (hF : Follows M2 e B adj) :
    ∀ (rest : List (Int × Nat)) (best : Int × Nat), (∀ x ∈ best :: rest, InV B x.1) →
      pqMin M2 (e best.1, best.2) (rest.map (fun x => (e x.1, x.2))) =
        (e (pqMin costMetric best rest).1, (pqMin costMetric best rest).2) := by
  intro rest
  induction rest with
  | nil => intro best _; rfl
  | cons x rest ih =>
    intro best h
    have hb := h best (List.mem_cons_self _ _)
    have hx := h x (List.mem_cons_of_mem _ (List.mem_cons_self _ _))
    simp only [List.map_cons, pqMin]
    rw [pairLt_sim M2 e B adj hF x best hx hb]
    split
    · exact ih x (fun y hy => by
        rcases List.mem_cons.mp hy with hy | hy
        · rw [hy]; exact hx
        · exact h y (List.mem_cons_of_mem _ (List.mem_cons_of_mem _ hy)))
    · exact ih best (fun y hy => by
        rcases List.mem_cons.mp hy with hy | hy
        · rw [hy]; exact hb
        · exact h y (List.mem_cons_of_mem _ (List.mem_cons_of_mem _ hy)))

theorem pqTop_sim (hF : Follows M2 e B adj) (pq : List (Int × Nat))
    (h : ∀ x ∈ pq, InV B x.1) (top : Int × Nat) (htop : pqTop costMetric pq = some top) :
    pqTop M2 (pq.map (fun x => (e x.1, x.2))) = some (e top.1, top.2) := by
  cases pq with
  | nil => simp [pqTop] at htop
  | cons x rest =>
    simp only [pqTop, Option.some.injEq] at htop
    simp only [List.map_cons, pqTop]
    rw [pqMin_sim M2 e B adj hF rest x h, htop]

theorem relax_sim (hB : B ≤ INT_MAX) (hF : Follows M2 e B adj)
    (t : Nat) (b : DState Int) (f : Flight) (hf : f ∈ adj.getD t [])
    (hf0 : 0 ≤ f.cost) (ht0 : 0 ≤ b.minW.getD t INT_MAX)
    (hsum : b.minW.getD t INT_MAX + f.cost ≤ B) (hv : ValuesIn B b) :
    relax M2 t (mapState e b) f = mapState e (relax costMetric t b f) ∧
      ValuesIn B (relax costMetric t b f) := by
  obtain ⟨hes, _, helt, headd⟩ := hF
  have hB2 : B ≤ 2147483647 := hB
  have hcand : costMetric.add (b.minW.getD t costMetric.sentinel) (costMetric.weight f) =
      b.minW.getD t INT_MAX + f.cost := by
    show wrap32 (b.minW.getD t INT_MAX + f.cost) = _
    exact wrap32_of_range (by omega) (by omega)
  have hcand2 : M2.add ((mapState e b).minW.getD t M2.sentinel) (M2.weight f) =
      e (b.minW.getD t INT_MAX + f.cost) := by
    show M2.add ((b.minW.map e).getD t M2.sentinel) (M2.weight f) = _
    rw [← hes, getD_map_default, headd _ t f hf ht0 hsum]
  have hin : InV B (b.minW.getD t INT_MAX + f.cost) := Or.inl ⟨by omega, hsum⟩
  have hlt : M2.lt (e (b.minW.getD t INT_MAX + f.cost))
      ((mapState e b).minW.getD f.destination M2.sentinel) =
      costMetric.lt (b.minW.getD t INT_MAX + f.cost)
        (b.minW.getD f.destination costMetric.sentinel) := by
    show M2.lt _ ((b.minW.map e).getD f.destination M2.sentinel) = _
    rw [← hes, getD_map_default, helt _ _ hin (hv.1 _)]
    rfl
  simp only [relax]
  rw [hcand, hcand2, hlt]
  by_cases hc : costMetric.lt (b.minW.getD t INT_MAX + f.cost)
      (b.minW.getD f.destination costMetric.sentinel) = true
  · simp only [if_pos hc]
    refine ⟨?_, ?_, ?_⟩
    · simp [mapState, List.map_set]
    · intro w
      show InV B ((b.minW.set f.destination _).getD w INT_MAX)
      by_cases hl : f.destination < b.minW.length
      · by_cases hw : f.destination = w
        · rw [← hw, getD_set_self _ _ _ _ hl]; exact hin
        · rw [getD_set_other _ _ _ _ _ hw]; exact hv.1 w
      · rw [getD_set_out _ _ _ _ _ (by omega)]; exact hv.1 w
    · intro x hx
      rcases List.mem_cons.mp hx with hx | hx
      · rw [hx]; exact hin
      · exact hv.2 x hx
  · simp only [if_neg hc]
    exact ⟨trivial, hv⟩

end Sim

section SimLoop
variable {W : Type} [DecidableEq W] (M2 : Metric W) (e : Int → W) (B : Int)
variable (adj : List (List Flight)) (s : Nat)

theorem SumsBelow_mono {B : Int} {adj : List (List Flight)} {s : Nat} (hB : B ≤ INT_MAX)
    (h : SumsBelow adj s B) : SumsBelow adj s INT_MAX :=
  fun x d f h1 h2 h3 => Int.le_trans (h x d f h1 h2 h3) hB

theorem pop_CostInv (hnn : ∀ u f, f ∈ adj.getD u [] → 0 ≤ f.cost)
    (hov : SumsBelow adj s INT_MAX) (st : DState Int) (hinv : CostInv adj s st)
    (hcor : Corrected costMetric s (fun u => adj.getD u []) st) (top : Int × Nat)
    (htop : pqTop costMetric st.pq = some top) :
    CostInv adj s { minW := st.minW, pq := st.pq.erase top } ∧ Touched s st.minW top.2 ∧
      ∀ p, IsWalk adj s p top.2 → st.minW.getD top.2 INT_MAX ≤ pathCost p := by
  have hmem := pqTop_mem costMetric htop
  have hmin := pqTop_cost_le htop
  have hbound := CostInv_walk_bound adj s hnn hov st hinv hcor top.1 hmin
  obtain ⟨h0, hrange, hreal, hq, hopt⟩ := hinv
  have htq := hq top hmem
  have hoptt : ∀ p, IsWalk adj s p top.2 → st.minW.getD top.2 INT_MAX ≤ pathCost p := by
    intro p hp
    rcases hbound p top.2 hp with h | h
    · exact h
    · omega
  refine ⟨⟨h0, hrange, hreal, fun x hx => hq x (List.mem_of_mem_erase hx), ?_⟩, htq.2, hoptt⟩
  intro u hu hnm
  by_cases hut : (st.minW.getD u INT_MAX, u) = top
  · have : u = top.2 := by rw [← hut]
    rw [this]
    exact hoptt
  · exact hopt u hu (fun hm => hnm ((List.mem_erase_of_ne hut).mpr hm))

theorem foldl_relax_sim (hB : B ≤ INT_MAX) (hF : Follows M2 e B adj)
    (hnn : ∀ u f, f ∈ adj.getD u [] → 0 ≤ f.cost) (hovB : SumsBelow adj s B) (n t : Nat)
    (hadj : ∀ u f, f ∈ adj.getD u [] → f.destination < n) :
    ∀ (l : List Flight) (b : DState Int), (∀ f ∈ l, f ∈ adj.getD t []) →
      b.minW.length = n → CostInv adj s b → ValuesIn B b → Touched s b.minW t →
      (∀ p, IsWalk adj s p t → b.minW.getD t INT_MAX ≤ pathCost p) →
      (l.foldl (relax costMetric t) b).minW.length = n ∧
      CostInv adj s (l.foldl (relax costMetric t) b) ∧
      ValuesIn B (l.foldl (relax costMetric t) b) ∧
      (l.foldl (relax costMetric t) b).minW.getD t INT_MAX = b.minW.getD t INT_MAX ∧
      l.foldl (relax M2 t) (mapState e b) = mapState e (l.foldl (relax costMetric t) b) := by
  intro l
  induction l with
  | nil => intro b _ hlen hinv hv _ _; exact ⟨hlen, hinv, hv, rfl, rfl⟩
  | cons f l ih =>
    intro b hl hlen hinv hv ht hoptt
    have hf := hl f (List.mem_cons_self _ _)
    obtain ⟨p0, hp0, hc0⟩ := hinv.2.2.1 t ht
    have hsum := hovB t _ f ⟨p0, hp0, hc0⟩ hoptt hf
    have hr := relax_CostInv adj s hnn (SumsBelow_mono hB hovB) n t b f hlen (hadj t f hf) hf
      ht hoptt hinv
    have hs := relax_sim M2 e B adj hB hF t b f hf (hnn t f hf) (hinv.2.1 t).1 hsum hv
    have htn : Touched s (relax costMetric t b f).minW t := by
      rcases ht with h | h
      · exact Or.inl h
      · exact Or.inr (by rw [hr.2]; exact h)
    have ih2 := ih (relax costMetric t b f) (fun g hg => hl g (List.mem_cons_of_mem _ hg))
      (by rw [relax_length]; exact hlen) hr.1 hs.2 htn (by rw [hr.2]; exact hoptt)
    simp only [List.foldl_cons]
    rw [hs.1]
    exact ⟨ih2.1, ih2.2.1, ih2.2.2.1, by rw [ih2.2.2.2.1, hr.2], ih2.2.2.2.2⟩

theorem mapState_isEmpty (st : DState Int) : (mapState e st).pq.isEmpty = st.pq.isEmpty := by
  show (st.pq.map _).isEmpty = st.pq.isEmpty
  cases st.pq <;> rfl

theorem dijkstraStep_sim (hB : B ≤ INT_MAX) (hF : Follows M2 e B adj)
    (hnn : ∀ u f, f ∈ adj.getD u [] → 0 ≤ f.cost) (hovB : SumsBelow adj s B) (n : Nat)
    (hadj : ∀ u f, f ∈ adj.getD u [] → f.destination < n)
    (st : DState Int) (hI : SimInv adj s B n st) (hne : st.pq ≠ []) :
    SimInv adj s B n (dijkstraStep costMetric adj st) ∧
      dijkstraStep M2 adj (mapState e st) = mapState e (dijkstraStep costMetric adj st) := by
  obtain ⟨hlen, hinv, hcor, hv⟩ := hI
  have hov := SumsBelow_mono hB hovB
  obtain ⟨top, htop⟩ := pqTop_of_ne_nil costMetric hne
  have hmem := pqTop_mem costMetric htop
  obtain ⟨hpop, htt, hoptt⟩ := pop_CostInv adj s hnn hov st hinv hcor top htop
  have htop2 : pqTop M2 (mapState e st).pq = some (e top.1, top.2) :=
    pqTop_sim M2 e B adj hF st.pq hv.2 top htop
  have hinvS := dijkstraStep_CostInv adj s hnn hov n hadj st hlen hinv hcor hne
  have hcorS := dijkstraStep_Corrected costMetric costMetric_irrefl costMetric_trans adj s st
    (fun u f hf => hlen ▸ hadj u f hf) hcor hne
  have hlenS : (dijkstraStep costMetric adj st).minW.length = n := by
    rw [dijkstraStep_length]; exact hlen
  have hvpop : ValuesIn B { minW := st.minW, pq := st.pq.erase top } :=
    ⟨hv.1, fun x hx => hv.2 x (List.mem_of_mem_erase hx)⟩
  have hmappop : mapState e { minW := st.minW, pq := st.pq.erase top } =
      { minW := (mapState e st).minW, pq := (mapState e st).pq.erase (e top.1, top.2) } := by
    have hE := erase_map_inj (fun x : Int × Nat => (e x.1, x.2)) top st.pq (by
      intro x hx hxe
      simp only [Prod.mk.injEq] at hxe
      exact Prod.ext (Follows_inj M2 e B adj hF _ _ (hv.2 x hx) (hv.2 top hmem) hxe.1) hxe.2)
    exact congrArg (fun q => ({ minW := st.minW.map e, pq := q } : DState W)) hE.symm
  have hstale : M2.lt ((mapState e st).minW.getD top.2 M2.sentinel) (e top.1) =
      costMetric.lt (st.minW.getD top.2 costMetric.sentinel) top.1 := by
    show M2.lt ((st.minW.map e).getD top.2 M2.sentinel) (e top.1) = _
    rw [← hF.1, getD_map_default, hF.2.2.1 _ _ (hv.1 _) (hv.2 top hmem)]
    rfl
  have key := foldl_relax_sim M2 e B adj s hB hF hnn hovB n top.2 hadj (adj.getD top.2 [])
    { minW := st.minW, pq := st.pq.erase top } (fun f hf => hf) hlen hpop hvpop htt hoptt
  have hstep := dijkstraStep_eq costMetric adj st htop
  have hstep2 := dijkstraStep_eq M2 adj (mapState e st) htop2
  dsimp only at hstep2
  rw [hstale] at hstep2
  by_cases hc : costMetric.lt (st.minW.getD top.2 costMetric.sentinel) top.1 = true
  · rw [if_pos hc] at hstep hstep2
    refine ⟨⟨hlenS, hinvS, hcorS, ?_⟩, ?_⟩
    · rw [hstep]; exact hvpop
    · rw [hstep2, hstep, hmappop]
  · rw [if_neg hc] at hstep hstep2
    refine ⟨⟨hlenS, hinvS, hcorS, ?_⟩, ?_⟩
    · rw [hstep]; exact key.2.2.1
    · rw [hstep2, hstep, ← hmappop]; exact key.2.2.2.2

theorem dijkstraLoop_sim (hB : B ≤ INT_MAX) (hF : Follows M2 e B adj)
    (hnn : ∀ u f, f ∈ adj.getD u [] → 0 ≤ f.cost) (hovB : SumsBelow adj s B) (n : Nat)
    (hadj : ∀ u f, f ∈ adj.getD u [] → f.destination < n) :
    ∀ (k : Nat) (st : DState Int), SimInv adj s B n st →
      SimInv adj s B n (dijkstraLoop costMetric adj k st) ∧
      dijkstraLoop M2 adj k (mapState e st) = mapState e (dijkstraLoop costMetric adj k st) := by
  intro k
  induction k with
  | zero => intro st hI; exact ⟨hI, rfl⟩
  | succ k ih =>
    intro st hI
    simp only [dijkstraLoop]
    rw [mapState_isEmpty]
    by_cases hemp : st.pq.isEmpty = true
    · simp only [if_pos hemp]
      exact ⟨hI, trivial⟩
    · simp only [if_neg hemp]
      have hne : st.pq ≠ [] := by
        intro h
        rw [h] at hemp
        exact hemp rfl
      obtain ⟨hI2, hs⟩ := dijkstraStep_sim M2 e B adj s hB hF hnn hovB n hadj st hI hne
      rw [hs]
      exact ih _ hI2

theorem dijkstraStart_sim (h0B : 0 ≤ B) (hF : Follows M2 e B adj) (n : Nat) (hs : s < n) :
    SimInv adj s B n (dijkstraStart costMetric n s) ∧
      dijkstraStart M2 n s = mapState e (dijkstraStart costMetric n s) := by
  refine ⟨⟨dijkstraStart_length costMetric n s, dijkstraStart_CostInv adj s n hs,
    dijkstraStart_Corrected costMetric _ n s hs, ?_, ?_⟩, ?_⟩
  · intro v
    by_cases hv : v = s
    · have := dijkstraStart_getD_source costMetric n s hs
      rw [hv]
      exact Or.inl ⟨by rw [show (dijkstraStart costMetric n s).minW.getD s INT_MAX = 0 from this],
        by rw [show (dijkstraStart costMetric n s).minW.getD s INT_MAX = 0 from this]; exact h0B⟩
    · exact Or.inr (dijkstraStart_getD_other costMetric n s v hv)
  · intro x hx
    simp only [dijkstraStart, List.mem_singleton] at hx
    rw [hx]
    exact Or.inl ⟨Int.le_refl _, h0B⟩
  · obtain ⟨hes, he0, _, _⟩ := hF
    simp only [dijkstraStart, mapState, List.map_set, List.map_replicate, List.map_cons,
      List.map_nil]
    rw [← hes, ← he0]
    rfl

end SimLoop

/-! ## No overflow when the costs are small for the number of cities -/

theorem mapState_id (st : DState Int) : mapState (fun x : Int => x) st = st := by
  cases st with
  | mk mw pq =>
    simp [mapState]

theorem Follows_costMetricZ (B : Int) (adj : List (List Flight)) :
    Follows costMetricZ (fun x : Int => x) B adj :=
  ⟨rfl, rfl, fun _ _ _ _ => rfl, fun _ _ _ _ _ _ => rfl⟩

theorem SumsBelow_of_cost_bound (adj : List (List Flight)) (n i : Nat) (C : Int) (hi : i < n)
    (hadj : ∀ u f, f ∈ adj.getD u [] → f.destination < n)
    (hC : ∀ l ∈ adj, ∀ f ∈ l, 0 ≤ f.cost ∧ f.cost ≤ C) :
    SumsBelow adj i ((n : Int) * C) := by
  have hnn : ∀ u f, f ∈ adj.getD u [] → 0 ≤ f.cost := fun u f hf =>
    nonneg_getD (fun l hl f hf => (hC l hl f hf).1) u f hf
  intro x d f ⟨p, hp, _⟩ hopt hf
  obtain ⟨q, hq, hql, _⟩ := exists_short_walk adj n hadj hnn p i x hi hp
  have h1 := hopt q hq
  have h2 := pathCost_le_mul adj C (fun l hl f hf => (hC l hl f hf).2) (q ++ [f]) i
    f.destination (IsWalk_snoc adj q i x f hq hf)
  rw [pathCost_append] at h2
  simp only [List.length_append, List.length_singleton, Nat.cast_add, Nat.cast_one] at h2
  obtain ⟨l, hl, hfl⟩ := mem_of_mem_getD adj x f hf
  have hC0 : 0 ≤ C := Int.le_trans (hC l hl f hfl).1 (hC l hl f hfl).2
  have h3 : C * ((q.length : Int) + 1) ≤ C * (n : Int) :=
    Int.mul_le_mul_of_nonneg_left (by omega) hC0
  have h4 : C * (n : Int) = (n : Int) * C := Int.mul_comm _ _
  omega

/-- C18: on a built store in which every flight cost lies in `[0, C]` and
`numCities * C <= INT_MAX`, in every state that the loop of `dijkstraCost` reaches (the
state after `k` iterations, for every `k`), when a pair is popped and the flights of its
city are relaxed in order, each sum `minCost[u] + flight.cost` has a left operand that is
not `INT_MAX` and a value within `[0, INT_MAX]`; the loop over unbounded integers
(`costMetricZ`, where the sum is not reduced modulo `2^32`) goes through the same states,
and the query over unbounded integers returns what `dijkstraCost` returns. -/
theorem no_overflow_under_size_bound (cities : Nat) (ops : List Op) (g : FlightGraph)
    (source : String) (i : Nat) (C : Int) (hb : build cities ops = some g)
    (hs : mapFind g.cityIndex source = some i)
    (hC : ∀ l ∈ g.adjList, ∀ f ∈ l, 0 ≤ f.cost ∧ f.cost ≤ C)
    (hn : (g.numCities : Int) * C ≤ INT_MAX) :
    (∀ (k : Nat) (top : Int × Nat) (l1 l2 : List Flight) (f : Flight),
      pqTop costMetric
        (dijkstraLoop costMetric g.adjList k (dijkstraStart costMetric g.numCities i)).pq
          = some top →
      g.adjList.getD top.2 [] = l1 ++ f :: l2 →
      (l1.foldl (relax costMetric top.2)
        { minW := (dijkstraLoop costMetric g.adjList k
            (dijkstraStart costMetric g.numCities i)).minW
          pq := (dijkstraLoop costMetric g.adjList k
            (dijkstraStart costMetric g.numCities i)).pq.erase top }).minW.getD top.2 INT_MAX
          ≠ INT_MAX ∧
      0 ≤ (l1.foldl (relax costMetric top.2)
        { minW := (dijkstraLoop costMetric g.adjList k
            (dijkstraStart costMetric g.numCities i)).minW
          pq := (dijkstraLoop costMetric g.adjList k
            (dijkstraStart costMetric g.numCities i)).pq.erase top }).minW.getD top.2 INT_MAX
          + f.cost ∧
      (l1.foldl (relax costMetric top.2)
        { minW := (dijkstraLoop costMetric g.adjList k
            (dijkstraStart costMetric g.numCities i)).minW
          pq := (dijkstraLoop costMetric g.adjList k
            (dijkstraStart costMetric g.numCities i)).pq.erase top }).minW.getD top.2 INT_MAX
          + f.cost ≤ INT_MAX) ∧
    (∀ k, dijkstraLoop costMetricZ g.adjList k (dijkstraStart costMetricZ g.numCities i) =
      dijkstraLoop costMetric g.adjList k (dijkstraStart costMetric g.numCities i)) ∧
    dijkstra costMetricZ (2 ^ 32) g source = g.dijkstraCost source := by
  have hw := build_WF hb
  have hi : i < g.numCities := hw.2.2.1 source i hs
  have hnn : ∀ u f, f ∈ g.adjList.getD u [] → 0 ≤ f.cost := fun u f hf =>
    nonneg_getD (fun l hl f hf => (hC l hl f hf).1) u f hf
  have hovB : SumsBelow g.adjList i INT_MAX := SumsBelow_mono hn
    (SumsBelow_of_cost_bound g.adjList g.numCities i C hi hw.2.2.2 hC)
  have hF := Follows_costMetricZ INT_MAX g.adjList
  have hstart := dijkstraStart_sim costMetricZ (fun x : Int => x) INT_MAX g.adjList i
    (by decide) hF g.numCities hi
  have hloop := fun k => dijkstraLoop_sim costMetricZ (fun x : Int => x) INT_MAX g.adjList i
    (Int.le_refl _) hF hnn hovB g.numCities hw.2.2.2 k _ hstart.1
  have hsame : ∀ k, dijkstraLoop costMetricZ g.adjList k
      (dijkstraStart costMetricZ g.numCities i) =
      dijkstraLoop costMetric g.adjList k (dijkstraStart costMetric g.numCities i) := by
    intro k
    rw [hstart.2, (hloop k).2, mapState_id]
  refine ⟨?_, hsame, ?_⟩
  · intro k top l1 l2 f htop hsplit
    obtain ⟨hlen, hinv, hcor, hv⟩ := (hloop k).1
    obtain ⟨hpop, htt, hoptt⟩ := pop_CostInv g.adjList i hnn hovB _ hinv hcor top htop
    have hmem : ∀ a ∈ l1, a ∈ g.adjList.getD top.2 [] := by
      intro a ha
      rw [hsplit]
      exact List.mem_append_left _ ha
    have hf : f ∈ g.adjList.getD top.2 [] := by
      rw [hsplit]
      exact List.mem_append_right _ (List.mem_cons_self _ _)
    have key := foldl_relax_sim costMetricZ (fun x : Int => x) INT_MAX g.adjList i
      (Int.le_refl _) hF hnn hovB g.numCities top.2 hw.2.2.2 l1
      { minW := (dijkstraLoop costMetric g.adjList k
          (dijkstraStart costMetric g.numCities i)).minW
        pq := (dijkstraLoop costMetric g.adjList k
          (dijkstraStart costMetric g.numCities i)).pq.erase top } hmem hlen hpop
      ⟨hv.1, fun x hx => hv.2 x (List.mem_of_mem_erase hx)⟩ htt hoptt
    obtain ⟨_, hinv1, _, hsame1, _⟩ := key
    have htt1 : Touched i (l1.foldl (relax costMetric top.2)
        { minW := (dijkstraLoop costMetric g.adjList k
            (dijkstraStart costMetric g.numCities i)).minW
          pq := (dijkstraLoop costMetric g.adjList k
            (dijkstraStart costMetric g.numCities i)).pq.erase top }).minW top.2 := by
      rcases htt with h | h
      · exact Or.inl h
      · exact Or.inr (by rw [hsame1]; exact h)
    obtain ⟨p0, hp0, hc0⟩ := hinv1.2.2.1 top.2 htt1
    have hsum := hovB top.2 _ f ⟨p0, hp0, hc0⟩ (by rw [hsame1]; exact hoptt) hf
    have h0 := (hinv1.2.1 top.2).1
    have hf0 := hnn top.2 f hf
    have hne : ∀ (mw : List Int) (t : Nat), mw.getD i INT_MAX = 0 → Touched i mw t →
        mw.getD t INT_MAX ≠ INT_MAX := by
      intro mw t hz ht
      rcases ht with h | h
      · rw [h, hz]
        decide
      · exact h
    exact ⟨hne _ _ hinv1.1 htt1, by omega, hsum⟩
  · rw [dijkstra_known costMetricZ (2 ^ 32) g source i hs, hsame]
    exact (dijkstra_known costMetric (2 ^ 32) g source i hs).symm

theorem no_overflow_under_size_bound_witness :
    build 3 exampleOps = some exampleGraph ∧
    mapFind exampleGraph.cityIndex "A" = some 0 ∧
    (∀ l ∈ exampleGraph.adjList, ∀ f ∈ l, 0 ≤ f.cost ∧ f.cost ≤ 200) ∧
    (exampleGraph.numCities : Int) * 200 ≤ INT_MAX ∧
    dijkstra costMetricZ (2 ^ 32) exampleGraph "A" = exampleGraph.dijkstraCost "A" :=
  ⟨build_example, rfl, by decide, by decide,
    (no_overflow_under_size_bound 3 exampleOps exampleGraph "A" 0 200 build_example rfl
      (by decide) (by decide)).2.2⟩

/-! ## A query reads only the destination and its own weight of a flight -/

section Congr
variable {W : Type} [DecidableEq W] (M : Metric W)

theorem relax_congr (u : Nat) (st : DState W) (f1 f2 : Flight)
    (hd : f1.destination = f2.destination) (hw : M.weight f1 = M.weight f2) :
    relax M u st f1 = relax M u st f2 := by
  simp only [relax, hd, hw]

theorem foldl_relax_congr (u : Nat) :
    ∀ (l1 l2 : List Flight) (st : DState W),
      l1.map (fun f => (f.destination, M.weight f)) =
        l2.map (fun f => (f.destination, M.weight f)) →
      l1.foldl (relax M u) st = l2.foldl (relax M u) st := by
  intro l1
  induction l1 with
  | nil =>
    intro l2 st h
    cases l2 with
    | nil => rfl
    | cons f2 l2 => simp at h
  | cons f1 l1 ih =>
    intro l2 st h
    cases l2 with
    | nil => simp at h
    | cons f2 l2 =>
      simp only [List.map_cons, List.cons.injEq, Prod.mk.injEq] at h
      simp only [List.foldl_cons]
      rw [relax_congr M u st f1 f2 h.1.1 h.1.2]
      exact ih l2 _ h.2

theorem getD_view_eq (adj1 adj2 : List (List Flight))
    (h : adj1.map (List.map (fun f => (f.destination, M.weight f))) =
      adj2.map (List.map (fun f => (f.destination, M.weight f)))) (u : Nat) :
    (adj1.getD u []).map (fun f => (f.destination, M.weight f)) =
      (adj2.getD u []).map (fun f => (f.destination, M.weight f)) := by
  have h1 := getD_map_default (List.map (fun f : Flight => (f.destination, M.weight f)))
    adj1 u []
  have h2 := getD_map_default (List.map (fun f : Flight => (f.destination, M.weight f)))
    adj2 u []
  rw [← h1, ← h2, h]

theorem dijkstraStep_congr (adj1 adj2 : List (List Flight))
    (h : adj1.map (List.map (fun f => (f.destination, M.weight f))) =
      adj2.map (List.map (fun f => (f.destination, M.weight f)))) (st : DState W) :
    dijkstraStep M adj1 st = dijkstraStep M adj2 st := by
  cases htop : pqTop M st.pq with
  | none => simp [dijkstraStep, htop]
  | some top =>
    rw [dijkstraStep_eq M adj1 st htop, dijkstraStep_eq M adj2 st htop,
      foldl_relax_congr M top.2 _ _ _ (getD_view_eq M adj1 adj2 h top.2)]

theorem dijkstraLoop_congr (adj1 adj2 : List (List Flight))
    (h : adj1.map (List.map (fun f => (f.destination, M.weight f))) =
      adj2.map (List.map (fun f => (f.destination, M.weight f)))) :
    ∀ (k : Nat) (st : DState W), dijkstraLoop M adj1 k st = dijkstraLoop M adj2 k st := by
  intro k
  induction k with
  | zero => intro st; rfl
  | succ k ih =>
    intro st
    simp only [dijkstraLoop]
    rw [dijkstraStep_congr M adj1 adj2 h, ih]

theorem dijkstra_congr (bound : Nat) (g1 g2 : FlightGraph) (source : String)
    (hn : g1.numCities = g2.numCities) (hc : g1.cityIndex = g2.cityIndex)
    (h : g1.adjList.map (List.map (fun f => (f.destination, M.weight f))) =
      g2.adjList.map (List.map (fun f => (f.destination, M.weight f)))) :
    (dijkstra M bound g1 source).2 = (dijkstra M bound g2 source).2 := by
  cases hs : mapFind g2.cityIndex source with
  | none =>
    rw [dijkstra_unknown M bound g2 source hs, dijkstra_unknown M bound g1 source (hc ▸ hs)]
  | some i =>
    rw [dijkstra_known M bound g2 source i hs, dijkstra_known M bound g1 source i (hc ▸ hs),
      hn, dijkstraLoop_congr M g1.adjList g2.adjList h]

end Congr

/-! ## Sums of small integers are exact in `float` -/

theorem F32.roundNat_exact (x : Nat) (hx : x ≤ 2 ^ 24) :
    F32.roundNat (x * 2 ^ 149) = x * 2 ^ 149 := by
  by_cases h0 : x = 0
  · subst h0
    exact F32.roundNat_small _ (by norm_num)
  · have hbig : 2 ^ 24 ≤ x * 2 ^ 149 := by
      have h1 : (2 : Nat) ^ 24 ≤ 1 * 2 ^ 149 := by norm_num
      exact Nat.le_trans h1 (Nat.mul_le_mul_right _ (by omega))
    obtain ⟨q, r, ha, hr, _, _, hL, hres⟩ := F32.roundNat_big (x * 2 ^ 149) hbig
    have hane : x * 2 ^ 149 ≠ 0 := by
      intro e
      rw [e] at hbig
      norm_num at hbig
    have hdvd : 2 ^ (Nat.log2 (x * 2 ^ 149) - 23) ∣ x * 2 ^ 149 := by
      by_cases hx2 : x < 2 ^ 24
      · have hlog : Nat.log2 (x * 2 ^ 149) < 173 := by
          rw [Nat.log2_lt hane]
          have h1 : x * 2 ^ 149 < 2 ^ 24 * 2 ^ 149 :=
            Nat.mul_lt_mul_of_pos_right hx2 (by norm_num)
          have h2 : (2 : Nat) ^ 24 * 2 ^ 149 = 2 ^ 173 := by norm_num
          omega
        exact Dvd.dvd.mul_left (pow_dvd_pow 2 (by omega)) x
      · have hx3 : x = 2 ^ 24 := by omega
        have hlog : Nat.log2 (x * 2 ^ 149) < 174 := by
          rw [Nat.log2_lt hane, hx3]
          norm_num
        have h2 : x * 2 ^ 149 = 2 ^ 173 := by rw [hx3]; norm_num
        rw [h2] at hlog ⊢
        exact pow_dvd_pow 2 (by omega)
    generalize Nat.log2 (x * 2 ^ 149) - 23 = j at ha hr hres hdvd
    have hpos : 0 < 2 ^ j := Nat.pow_pos (by norm_num)
    have hr0 : r = 0 := by
      have h1 : 2 ^ j ∣ q * 2 ^ j + r := ha ▸ hdvd
      have h2 : 2 ^ j ∣ r := (Nat.dvd_add_right (Dvd.intro_left q rfl)).mp h1
      exact Nat.eq_zero_of_dvd_of_lt h2 hr
    subst hr0
    rw [hres, ha]
    have h3 : ¬ 2 ^ j < 2 * 0 := by omega
    have h4 : ¬ 2 * 0 = 2 ^ j := by omega
    simp only [h3, h4, decide_False, Bool.false_and, Bool.or_false, Bool.false_eq_true,
      if_false]
    rfl

theorem F32.round_exact (c : Int) (h0 : 0 ≤ c) (hc : c ≤ 16777216) :
    F32.round (c * 2 ^ 149) = F32.fin (c * 2 ^ 149) := by
  apply F32.round_of_valid
  have hnat : (c * 2 ^ 149).natAbs = c.toNat * 2 ^ 149 := by
    rw [Int.natAbs_mul]
    congr 1
    omega
  have hle : c.toNat ≤ 2 ^ 24 := by
    have : (2 : Nat) ^ 24 = 16777216 := by norm_num
    omega
  simp only [F32.isValid, Bool.and_eq_true, decide_eq_true_eq]
  rw [hnat]
  refine ⟨F32.roundNat_exact _ hle, ?_⟩
  have h1 : c.toNat * 2 ^ 149 ≤ 2 ^ 24 * 2 ^ 149 := Nat.mul_le_mul_right _ hle
  have h2 : (2 : Nat) ^ 24 * 2 ^ 149 ≤ F32.maxUnits := by
    unfold F32.maxUnits
    norm_num
  exact Nat.le_trans h1 h2

theorem F32.ofCost_of_le (c : Int) (hc : c ≤ 16777216) :
    F32.ofCost c = F32.fin (c * 2 ^ 149) := by
  unfold F32.ofCost
  rw [if_neg]
  intro h
  rw [h] at hc
  exact absurd hc (by decide)

theorem F32.units_lt_max (c : Int) (hc : c ≤ 16777216) :
    c * 2 ^ 149 < (F32.maxUnits : Int) := by
  have h1 : c * 2 ^ 149 ≤ 16777216 * 2 ^ 149 :=
    Int.mul_le_mul_of_nonneg_right hc (by positivity)
  have h2 : (16777216 : Int) * 2 ^ 149 < (F32.maxUnits : Int) := by
    unfold F32.maxUnits
    norm_num
  exact Int.lt_of_le_of_lt h1 h2

theorem F32.ofCost_lt (a b : Int) (ha : InV 16777216 a) (hb : InV 16777216 b) :
    F32.lt (F32.ofCost a) (F32.ofCost b) = decide (a < b) := by
  have hpos : (0 : Int) < 2 ^ 149 := by positivity
  have hmax : F32.ofCost INT_MAX = F32.fin (F32.maxUnits : Int) := rfl
  rcases ha with ha | ha <;> rcases hb with hb | hb
  · rw [F32.ofCost_of_le a ha.2, F32.ofCost_of_le b hb.2]
    simp only [F32.lt]
    congr 1
    exact propext ⟨fun h => lt_of_mul_lt_mul_right h (Int.le_of_lt hpos),
      fun h => Int.mul_lt_mul_of_pos_right h hpos⟩
  · rw [F32.ofCost_of_le a ha.2, hb, hmax]
    simp only [F32.lt]
    have h1 := F32.units_lt_max a ha.2
    have h2 : a < INT_MAX := Int.lt_of_le_of_lt ha.2 (by decide)
    rw [decide_eq_true h1, decide_eq_true h2]
  · rw [F32.ofCost_of_le b hb.2, ha, hmax]
    simp only [F32.lt]
    have h1 := F32.units_lt_max b hb.2
    have h2 : ¬ INT_MAX < b := not_lt.mpr (Int.le_trans hb.2 (by decide))
    have h3 : ¬ (F32.maxUnits : Int) < b * 2 ^ 149 := not_lt.mpr (Int.le_of_lt h1)
    rw [decide_eq_false h3, decide_eq_false h2]
  · rw [ha, hb]
    simp [F32.lt_irrefl]

theorem Follows_distanceMetric (adj : List (List Flight))
    (hnn : ∀ u f, f ∈ adj.getD u [] → 0 ≤ f.cost)
    (hd : ∀ u f, f ∈ adj.getD u [] → f.distance = F32.fin (f.cost * 2 ^ 149)) :
    Follows distanceMetric F32.ofCost 16777216 adj := by
  refine ⟨rfl, rfl, F32.ofCost_lt, ?_⟩
  intro a u f hf ha hsum
  have hf0 := hnn u f hf
  show F32.add (F32.ofCost a) f.distance = F32.ofCost (a + f.cost)
  rw [hd u f hf, F32.ofCost_of_le a (by omega), F32.ofCost_of_le _ hsum]
  show F32.round (a * 2 ^ 149 + f.cost * 2 ^ 149) = _
  rw [← add_mul]
  exact F32.round_exact _ (by omega) hsum

theorem SumsBelow_of_walks (adj : List (List Flight)) (n i : Nat) (B : Int) (hi : i < n)
    (hadj : ∀ u f, f ∈ adj.getD u [] → f.destination < n)
    (hnn : ∀ u f, f ∈ adj.getD u [] → 0 ≤ f.cost)
    (hsum : ∀ p w, IsWalk adj i p w → p.length ≤ n → pathCost p ≤ B) :
    SumsBelow adj i B := by
  intro x d f ⟨p, hp, _⟩ hopt hf
  obtain ⟨q, hq, hql, _⟩ := exists_short_walk adj n hadj hnn p i x hi hp
  have h1 := hopt q hq
  have h2 := hsum (q ++ [f]) f.destination (IsWalk_snoc adj q i x f hq hf)
    (by simp only [List.length_append, List.length_singleton]; omega)
  rw [pathCost_append] at h2
  omega

/-! ## `dijkstraDistance` against `dijkstraCost` -/

theorem build_round : build 3 roundOps = some roundGraph := rfl

/-- C16 (as stated, refuted): on the store with the flights A-B of cost and distance
`2^24` and B-C of cost and distance 1, where no sum comes near a sentinel, `dijkstraCost`
returns `16777217` for C while `dijkstraDistance` returns `16777216`: the `float` sum
`16777216 + 1` is rounded. -/
theorem same_algorithm_counterexample :
    build 3 roundOps = some roundGraph ∧
    (∀ l ∈ roundGraph.adjList, ∀ f ∈ l,
      0 ≤ f.cost ∧ f.distance = F32.fin (f.cost * 2 ^ 149)) ∧
    (roundGraph.dijkstraCost "A").2 = [0, 16777216, 16777217] ∧
    (roundGraph.dijkstraDistance "A").2 =
      [F32.fin 0, F32.fin (16777216 * 2 ^ 149), F32.fin (16777216 * 2 ^ 149)] ∧
    (roundGraph.dijkstraDistance "A").2 ≠ (roundGraph.dijkstraCost "A").2.map F32.ofCost :=
  ⟨rfl, by decide, by decide, by decide, by decide⟩

/-- C16 (amended): on a built store in which every flight has a non-negative cost and a
distance equal to its cost, and from a source from which every walk of at most
`numCities` flights costs at most `2^24 = 16777216`, `dijkstraDistance` returns the
entries of `dijkstraCost` converted to `float`, with the `float` maximum exactly where
`dijkstraCost` has `INT_MAX`; and on all stores, `dijkstraCost` is the same on two stores
that differ only in the distances and durations of the flights, and `dijkstraDistance`
is the same on two stores that differ only in the costs and durations. -/
theorem distance_query_follows_cost_query (g : FlightGraph) (source : String) :
    (∀ (cities : Nat) (ops : List Op) (i : Nat), build cities ops = some g →
      mapFind g.cityIndex source = some i →
      (∀ l ∈ g.adjList, ∀ f ∈ l, 0 ≤ f.cost ∧ f.distance = F32.fin (f.cost * 2 ^ 149)) →
      (∀ p w, IsWalk g.adjList i p w → p.length ≤ g.numCities → pathCost p ≤ 16777216) →
      (g.dijkstraDistance source).2 = (g.dijkstraCost source).2.map F32.ofCost ∧
      ∀ v : Nat, (g.dijkstraDistance source).2[v]? = some F32.max ↔
        (g.dijkstraCost source).2[v]? = some INT_MAX) ∧
    (∀ g2 : FlightGraph, g2.numCities = g.numCities → g2.cityIndex = g.cityIndex →
      g2.adjList.map (List.map (fun f => (f.destination, f.cost))) =
        g.adjList.map (List.map (fun f => (f.destination, f.cost))) →
      (g2.dijkstraCost source).2 = (g.dijkstraCost source).2) ∧
    (∀ g2 : FlightGraph, g2.numCities = g.numCities → g2.cityIndex = g.cityIndex →
      g2.adjList.map (List.map (fun f => (f.destination, f.distance))) =
        g.adjList.map (List.map (fun f => (f.destination, f.distance))) →
      (g2.dijkstraDistance source).2 = (g.dijkstraDistance source).2) := by
  refine ⟨?_, ?_, ?_⟩
  · intro cities ops i hb hs hfl hsum
    have hw := build_WF hb
    have hi : i < g.numCities := hw.2.2.1 source i hs
    have hnn : ∀ u f, f ∈ g.adjList.getD u [] → 0 ≤ f.cost := fun u f hf =>
      nonneg_getD (fun l hl f hf => (hfl l hl f hf).1) u f hf
    have hd : ∀ u f, f ∈ g.adjList.getD u [] → f.distance = F32.fin (f.cost * 2 ^ 149) := by
      intro u f hf
      obtain ⟨l, hl, hfl2⟩ := mem_of_mem_getD g.adjList u f hf
      exact (hfl l hl f hfl2).2
    have hF := Follows_distanceMetric g.adjList hnn hd
    have hovB := SumsBelow_of_walks g.adjList g.numCities i 16777216 hi hw.2.2.2 hnn hsum
    have hstart := dijkstraStart_sim distanceMetric F32.ofCost 16777216 g.adjList i
      (by decide) hF g.numCities hi
    have hloop := fun k => dijkstraLoop_sim distanceMetric F32.ofCost 16777216 g.adjList i
      (by decide) hF hnn hovB g.numCities hw.2.2.2 k _ hstart.1
    have hterm := dijkstra_terminates costMetric rankInt (2 ^ 32) costMetric_rank rankInt_le
      g hw i
    have hle : g.numCities * 2 ^ 32 + 2 ≤ g.numCities * (2 ^ 278 + 3) + 2 :=
      Nat.add_le_add_right (Nat.mul_le_mul_left _ (by norm_num)) 2
    obtain ⟨m, hm⟩ := Nat.exists_eq_add_of_le hle
    have hC : g.dijkstraCost source = (g, (dijkstraLoop costMetric g.adjList
        (g.numCities * 2 ^ 32 + 2) (dijkstraStart costMetric g.numCities i)).minW) :=
      dijkstra_known costMetric (2 ^ 32) g source i hs
    have hD : g.dijkstraDistance source = (g, (dijkstraLoop costMetric g.adjList
        (g.numCities * 2 ^ 32 + 2) (dijkstraStart costMetric g.numCities i)).minW.map
          F32.ofCost) := by
      show dijkstra distanceMetric (2 ^ 278 + 3) g source = _
      rw [dijkstra_known distanceMetric _ g source i hs, hstart.2, (hloop _).2, hm,
        hterm.2 m]
      rfl
    rw [hC, hD]
    refine ⟨rfl, ?_⟩
    intro v
    show ((dijkstraLoop costMetric g.adjList (g.numCities * 2 ^ 32 + 2)
        (dijkstraStart costMetric g.numCities i)).minW.map F32.ofCost)[v]? = some F32.max ↔
      (dijkstraLoop costMetric g.adjList (g.numCities * 2 ^ 32 + 2)
        (dijkstraStart costMetric g.numCities i)).minW[v]? = some INT_MAX
    have hv := (hloop (g.numCities * 2 ^ 32 + 2)).1.2.2.2.1 v
    rw [List.getElem?_map]
    cases hx : (dijkstraLoop costMetric g.adjList (g.numCities * 2 ^ 32 + 2)
        (dijkstraStart costMetric g.numCities i)).minW[v]? with
    | none => simp
    | some x =>
      rw [getD_of_getElem? _ v INT_MAX x hx] at hv
      simp only [Option.map_some', Option.some.injEq]
      constructor
      · intro he
        exact Follows_inj distanceMetric F32.ofCost 16777216 g.adjList hF x INT_MAX hv
          (Or.inr rfl) he
      · intro he
        rw [he]
        rfl
  · intro g2 hn hc h
    exact dijkstra_congr costMetric (2 ^ 32) g2 g source hn hc h
  · intro g2 hn hc h
    exact dijkstra_congr distanceMetric (2 ^ 278 + 3) g2 g source hn hc h

theorem distance_query_follows_cost_query_witness :
    build 2 unitOps = some unitGraph ∧
    mapFind unitGraph.cityIndex "A" = some 0 ∧
    (∀ l ∈ unitGraph.adjList, ∀ f ∈ l,
      0 ≤ f.cost ∧ f.distance = F32.fin (f.cost * 2 ^ 149)) ∧
    (∀ p w, IsWalk unitGraph.adjList 0 p w → p.length ≤ unitGraph.numCities →
      pathCost p ≤ 16777216) ∧
    (unitGraph.dijkstraDistance "A").2 = (unitGraph.dijkstraCost "A").2.map F32.ofCost :=
  have hsum : ∀ p w, IsWalk unitGraph.adjList 0 p w → p.length ≤ unitGraph.numCities →
      pathCost p ≤ 16777216 := by
    intro p w hp hl
    have h1 := pathCost_le_mul unitGraph.adjList 1 (by decide) p 0 w hp
    have h2 : (p.length : Int) ≤ 2 := by exact_mod_cast hl
    omega
  ⟨build_unit, rfl, by decide, hsum,
    ((distance_query_follows_cost_query unitGraph "A").1 2 unitOps 0 build_unit rfl
      (by decide) hsum).1⟩
